import Mathlib

/-!
# One-pass assembler with back-patching (`ass-load`)

A shallow embedding of the two Go programs of the repository

* `src/1-1-1p-m256-n8/main.go` (byte layout: 256 cells of 8 bits, the opcode and
  the operand in two consecutive cells), namespace `M256`;
* `src/project_1-1_one-pass_m1024_n16/main.go` (packed layout: 1024 words of 16
  bits, opcode in the high 6 bits, operand in the low 10 bits), namespace `M1024`.

Conventions of the embedding.

* A Go `string` is a sequence of bytes: `GoString := List Nat` (each element a
  byte, 0..255).  `len` is `List.length`, `s[0]` is the head.
* A `rune` obtained by `rune(s[0])` is the byte value, a `Nat`.
* Go `int` values that only ever hold counters and addresses (`locationCounter`,
  `symbol.value`) are `Nat`; the result of `strconv.Atoi` is an `Int`.
  `uint8(x)` is `x % 256`, `uint16(x)` is `x % 65536`.
* The global variables `symbolTable`, `memory`, `locationCounter` (and `line` in
  the byte variant) are the fields of an explicit `State`.
* `log.Fatal` and a Go run-time panic (index out of range) end the run: a
  function returns `Res.fail e s`, where `s` is the state of the globals at the
  moment of the failure.
* The back-patch loop `for v != 0` need not terminate on an arbitrary memory, so
  it is run with fuel; running out of fuel is `Err.fuelExhausted`.
* Output (`fmt.Print...`, the tab writer, `printMem`) is not modelled.
-/

namespace AssLoad

/-- A Go string: its bytes. -/
abbrev GoString := List Nat

/-- UTF-8 encoding of one code point (Go source strings are UTF-8). -/
def utf8Encode (c : Nat) : List Nat :=
  if c < 0x80 then [c]
  else if c < 0x800 then [0xC0 + c / 64, 0x80 + c % 64]
  else if c < 0x10000 then [0xE0 + c / 4096, 0x80 + c / 64 % 64, 0x80 + c % 64]
  else [0xF0 + c / 262144, 0x80 + c / 4096 % 64, 0x80 + c / 64 % 64, 0x80 + c % 64]

/-- The bytes of a string literal. -/
def str (s : String) : GoString :=
  s.data.flatMap (fun c => utf8Encode c.toNat)

/-- Go `unicode.IsLetter` on a rune below 256 (the Latin-1 table of package
`unicode`): `A`-`Z`, `a`-`z`, U+00AA, U+00B5, U+00BA, U+00C0-U+00D6,
U+00D8-U+00F6, U+00F8-U+00FF.  Every rune the programs test is `rune(s[0])`
for a byte `s[0]`, hence below 256. -/
def isLetter (r : Nat) : Bool :=
  (0x41 ≤ r && r ≤ 0x5A) || (0x61 ≤ r && r ≤ 0x7A) || r == 0xAA || r == 0xB5 || r == 0xBA
    || (0xC0 ≤ r && r ≤ 0xD6) || (0xD8 ≤ r && r ≤ 0xF6) || (0xF8 ≤ r && r ≤ 0xFF)

/-- Membership in the cut set of `strings.Trim(s, " \t")`. -/
def isCut (c : Nat) : Bool := c == 32 || c == 9

/-- Go `strings.Trim(s, " \t")`: drop leading and trailing spaces and tabs. -/
def trim (s : GoString) : GoString :=
  ((s.dropWhile isCut).reverse.dropWhile isCut).reverse

/-- Go `strings.Split(s, " ")`: the pieces between single spaces; one more piece
than there are spaces, so the empty string gives one empty piece. -/
def split : GoString → List GoString
  | [] => [[]]
  | c :: cs =>
    if c = 32 then [] :: split cs
    else match split cs with
      | [] => [[c]]
      | t :: ts => (c :: t) :: ts

/-- Value of a run of decimal digits read left to right, `none` at the first byte
that is not a digit. -/
def digitsVal : GoString → Nat → Option Nat
  | [], acc => some acc
  | c :: cs, acc => if 48 ≤ c ∧ c ≤ 57 then digitsVal cs (acc * 10 + (c - 48)) else none

/-- A non-empty run of decimal digits. -/
def parseUnsigned (s : GoString) : Option Nat :=
  match s with
  | [] => none
  | _ :: _ => digitsVal s 0

/-- Go `strconv.Atoi` on a 64-bit platform: an optional sign, then one or more
decimal digits; `none` stands for a non-nil `err` (syntax error, or a value
outside the range of `int`). -/
def atoi (s : GoString) : Option Int :=
  match s with
  | [] => none
  | c :: cs =>
    if c = 45 then
      match parseUnsigned cs with
      | some n => if n ≤ 2 ^ 63 then some (-(n : Int)) else none
      | none => none
    else if c = 43 then
      match parseUnsigned cs with
      | some n => if n < 2 ^ 63 then some (n : Int) else none
      | none => none
    else
      match parseUnsigned (c :: cs) with
      | some n => if n < 2 ^ 63 then some (n : Int) else none
      | none => none

/-- The ways a run ends early: the `log.Fatal` calls of the programs, the Go
run-time panic on an index out of range, and the fuel of the model. -/
inductive Err where
  | malformedLine
  | invalidLabel
  | duplicateLabel
  | unexpectedOperand
  | invalidOperandLiteral
  | operandOverflow
  | indexOutOfRange
  | fuelExhausted
  deriving DecidableEq, Repr

/-- Outcome of a procedure over the globals `σ`: it returns `a` in state `s`, or
the run ends with `e` in state `s`. -/
inductive Res (σ : Type) (α : Type) where
  | ok (a : α) (s : σ)
  | fail (e : Err) (s : σ)

/-- Sequencing: continue after a return, stop at a failure. -/
def Res.bind {σ α β : Type} (r : Res σ α) (f : α → σ → Res σ β) : Res σ β :=
  match r with
  | Res.ok a s => f a s
  | Res.fail e s => Res.fail e s

/-- The state of the globals when the procedure ended (by return or failure). -/
def Res.state {σ α : Type} (r : Res σ α) : σ :=
  match r with
  | Res.ok _ s => s
  | Res.fail _ s => s

/-- An entry of the table `opcodes`. -/
structure Opcode where
  code : Nat
  mnemonic : GoString
  hasOperand : Bool
  deriving DecidableEq

/-- The Go type `symbol`; `status` is the rune `'D'` (defined) or `'U'`. -/
structure Symbol where
  name : Nat
  value : Nat
  status : Char
  deriving DecidableEq

/-- A memory image: the cell at each address. -/
abbrev Memory := Nat → Nat

/-- The assignment `memory[a] = v`. -/
def write (m : Memory) (a v : Nat) : Memory := fun i => if i = a then v else m i

/-- The loop `for i := range opcodes` of `assembleLine`: `index` is set at a
matching mnemonic, and a match without operand but with a non-empty operand text
is fatal (`none`). -/
def findOpcode (opc operand : GoString) : List Opcode → Nat → Nat → Option Nat
  | [], _, index => some index
  | o :: os, i, index =>
    if o.mnemonic = opc then
      if o.hasOperand = false ∧ operand ≠ [] then none
      else findOpcode opc operand os (i + 1) i
    else findOpcode opc operand os (i + 1) index

/-- The loop `for i := range symbolTable` of `lookupSymbol`, at location counter
`lc`: at the first entry named `r` return its value, and if it is not defined
store `lc` in it.  `none`: no entry is named `r`. -/
def lookupIn (lc r : Nat) : List Symbol → Option (Nat × List Symbol)
  | [] => none
  | e :: es =>
    if e.name = r then
      if e.status = 'D' then some (e.value, e :: es)
      else some (e.value, { e with value := lc } :: es)
    else
      match lookupIn lc r es with
      | some (v, es') => some (v, e :: es')
      | none => none

/-- The search of `defineSymbol` in `symbolTable`, at location counter `lc`:
at the first entry named `r`, `some (Sum.inl ())` if it is already defined,
else `some (Sum.inr (v, table'))` with the old value `v` and the entry set to
defined at `lc`.  `none`: no entry is named `r`. -/
def defineIn (lc r : Nat) : List Symbol → Option (Unit ⊕ (Nat × List Symbol))
  | [] => none
  | e :: es =>
    if e.name = r then
      if e.status = 'D' then some (Sum.inl ())
      else some (Sum.inr (e.value, { e with status := 'D', value := lc } :: es))
    else
      match defineIn lc r es with
      | some (Sum.inl u) => some (Sum.inl u)
      | some (Sum.inr (v, es')) => some (Sum.inr (v, e :: es'))
      | none => none

/-- Fuel given to a back-patch walk.  A walk that ends visits each operand cell
at most once apart from at most two revisits, so it ends within this bound. -/
def chainFuel : Nat := 2048

namespace M256

/-- The table `opcodes` of the byte variant. -/
def opcodes : List Opcode :=
  [ ⟨0, str "HLT", false⟩, ⟨1, str "LOD", true⟩, ⟨2, str "STO", true⟩,
    ⟨3, str "ADD", true⟩, ⟨4, str "BZE", true⟩, ⟨5, str "BNE", true⟩,
    ⟨6, str "BRA", true⟩, ⟨7, str "INP", false⟩, ⟨8, str "OUT", false⟩,
    ⟨9, str "CLA", false⟩ ]

/-- The Go type `printLine` (the listing line being built). -/
structure PrintLine where
  locationCounter : Nat
  label : GoString
  source : GoString
  opcode : Nat
  operand : Nat

/-- The globals of the byte variant. -/
structure State where
  symbolTable : List Symbol
  memory : Memory
  locationCounter : Nat
  line : PrintLine

/-- The globals at program start. -/
def init : State :=
  { symbolTable := [], memory := fun _ => 0, locationCounter := 0,
    line := ⟨0, [], [], 0, 0⟩ }

/-- The loop `for v != 0` of `defineSymbol`, on memory `m`, patching with
`uint8(lc)`.  `Sum.inl m` the loop ended, `Sum.inr (e, m)` it failed. -/
def patch (lc : Nat) : Nat → Memory → Nat → Memory ⊕ (Err × Memory)
  | 0, m, v => if v = 0 then Sum.inl m else Sum.inr (Err.fuelExhausted, m)
  | fuel + 1, m, v =>
    if v = 0 then Sum.inl m
    else if v + 1 < 256 then patch lc fuel (write m (v + 1) (lc % 256)) (m (v + 1))
    else Sum.inr (Err.indexOutOfRange, m)

/-- Go `defineSymbol(s)`; `s` is not empty at every call. -/
def defineSymbol (s : GoString) (st : State) : Res State Unit :=
  match s with
  | [] => Res.fail Err.indexOutOfRange st
  | r :: _ =>
    if !isLetter r then Res.fail Err.invalidLabel st
    else
      let st1 := { st with line := { st.line with label := s } }
      match defineIn st1.locationCounter r st1.symbolTable with
      | some (Sum.inl _) => Res.fail Err.duplicateLabel st1
      | some (Sum.inr (v, tbl)) =>
        let st2 := { st1 with symbolTable := tbl }
        match patch st2.locationCounter chainFuel st2.memory v with
        | Sum.inl m => Res.ok () { st2 with memory := m }
        | Sum.inr (e, m) => Res.fail e { st2 with memory := m }
      | none =>
        Res.ok () { st1 with
          symbolTable := st1.symbolTable ++ [⟨r, st1.locationCounter, 'D'⟩] }

/-- Go `lookupSymbol(r)`. -/
def lookupSymbol (r : Nat) (st : State) : Nat × State :=
  match lookupIn st.locationCounter r st.symbolTable with
  | some (v, tbl) => (v, { st with symbolTable := tbl })
  | none =>
    (0, { st with symbolTable := st.symbolTable ++ [⟨r, st.locationCounter, 'U'⟩] })

/-- The two stores and the listing update shared by the operand branches of
`assembleLine`: `memory[lc] = code` has been done in `st`; store the operand
byte, record the listing fields and advance the counter by 2. -/
def storeOperand (code operandByte : Nat) (st : State) : Res State Unit :=
  if st.locationCounter + 1 < 256 then
    let m := write st.memory (st.locationCounter + 1) operandByte
    Res.ok () { st with
      memory := m,
      line := { st.line with opcode := code % 256, operand := m (st.locationCounter + 1) },
      locationCounter := st.locationCounter + 2 }
  else Res.fail Err.indexOutOfRange st

/-- Go `assembleLine(opc, operand)`. -/
def assembleLine (opc operand : GoString) (st : State) : Res State Unit :=
  match findOpcode opc operand opcodes 0 0 with
  | none => Res.fail Err.unexpectedOperand st
  | some index =>
    match opcodes.get? index with
    | none => Res.fail Err.indexOutOfRange st
    | some o =>
      if !o.hasOperand then
        if st.locationCounter < 256 then
          Res.ok () { st with
            memory := write st.memory st.locationCounter (o.code % 256),
            line := { st.line with opcode := o.code % 256 },
            locationCounter := st.locationCounter + 1 }
        else Res.fail Err.indexOutOfRange st
      else
        match operand with
        | [] => Res.fail Err.indexOutOfRange st
        | r :: _ =>
          if isLetter r then
            if st.locationCounter < 256 then
              let st1 := { st with memory := write st.memory st.locationCounter (o.code % 256) }
              let (v, st2) := lookupSymbol r st1
              storeOperand o.code (v % 256) st2
            else Res.fail Err.indexOutOfRange st
          else
            match atoi operand with
            | none => Res.fail Err.invalidOperandLiteral st
            | some intOperand =>
              if intOperand ≥ 256 then Res.fail Err.operandOverflow st
              else if st.locationCounter < 256 then
                let st1 := { st with memory := write st.memory st.locationCounter (o.code % 256) }
                storeOperand o.code (intOperand % 256).toNat st1
              else Res.fail Err.indexOutOfRange st

/-- Go `parseLine(s)`: the four shape tests in sequence, then the `!ok` test. -/
def parseLine (s0 : GoString) (st : State) : Res State Unit :=
  let s := trim s0
  let splat := split s
  let t0 := splat.getD 0 []
  let t1 := splat.getD 1 []
  let t2 := splat.getD 2 []
  (if splat.length = 3 ∧ t0.length = 1 then
      (defineSymbol t0 st).bind fun _ st =>
      (assembleLine t1 t2 st).bind fun _ st =>
      Res.ok true { st with line := { st.line with source := t1 ++ str " " ++ t2 } }
    else Res.ok false st).bind fun ok1 st =>
  (Res.ok ()
    (if st.line.source = [] then { st with line := { st.line with source := s } } else st)).bind
  fun _ st =>
  (if splat.length = 2 ∧ t0.length = 1 then
      (defineSymbol t0 st).bind fun _ st =>
      (assembleLine t1 [] st).bind fun _ st => Res.ok true st
    else Res.ok ok1 st).bind fun ok2 st =>
  (if splat.length = 2 ∧ t0.length = 3 then
      (assembleLine t0 t1 st).bind fun _ st => Res.ok true st
    else Res.ok ok2 st).bind fun ok3 st =>
  (if splat.length = 1 ∧ t0.length = 3 then
      (assembleLine t0 [] st).bind fun _ st => Res.ok true st
    else Res.ok ok3 st).bind fun ok4 st =>
  if !ok4 then Res.fail Err.malformedLine st else Res.ok () st

/-- One turn of the loop of `main`: reset `line`, then `parseLine`. -/
def assembleStep (l : GoString) (st : State) : Res State Unit :=
  parseLine l { st with line := ⟨st.locationCounter, [], [], 0, 0⟩ }

/-- The loop of `main` over the lines of the source file. -/
def assemble : List GoString → State → Res State Unit
  | [], st => Res.ok () st
  | l :: ls, st =>
    match assembleStep l st with
    | Res.ok _ st1 => assemble ls st1
    | Res.fail e st1 => Res.fail e st1

end M256

namespace M1024

/-- The table `opcodes` of the packed variant (`HLT` is the last entry). -/
def opcodes : List Opcode :=
  [ ⟨1, str "LOD", true⟩, ⟨2, str "STO", true⟩, ⟨3, str "ADD", true⟩,
    ⟨4, str "BZE", true⟩, ⟨5, str "BNE", true⟩, ⟨6, str "BRA", true⟩,
    ⟨7, str "INP", false⟩, ⟨8, str "OUT", false⟩, ⟨9, str "CLA", false⟩,
    ⟨0, str "HLT", false⟩ ]

/-- The globals of the packed variant. -/
structure State where
  symbolTable : List Symbol
  memory : Memory
  locationCounter : Nat

/-- The globals at program start. -/
def init : State :=
  { symbolTable := [], memory := fun _ => 0, locationCounter := 0 }

/-- Go `wordOpcode(w)`: `w >> 10`. -/
def wordOpcode (w : Nat) : Nat := w >>> 10

/-- Go `wordOperand(w)`: `w & 0b0000001111111111`. -/
def wordOperand (w : Nat) : Nat := w &&& 1023

/-- The loop `for v != 0` of `defineSymbol`, on memory `m`: the word at `v`
becomes `(memory[v] & 0000000000) | uint16(locationCounter)`. -/
def patch (lc : Nat) : Nat → Memory → Nat → Memory ⊕ (Err × Memory)
  | 0, m, v => if v = 0 then Sum.inl m else Sum.inr (Err.fuelExhausted, m)
  | fuel + 1, m, v =>
    if v = 0 then Sum.inl m
    else if v < 1024 then
      patch lc fuel (write m v (((m v) &&& 0) ||| (lc % 65536))) (wordOperand (m v))
    else Sum.inr (Err.indexOutOfRange, m)

/-- Go `defineSymbol(s)`; `s` is not empty at every call. -/
def defineSymbol (s : GoString) (st : State) : Res State Unit :=
  match s with
  | [] => Res.fail Err.indexOutOfRange st
  | r :: _ =>
    if !isLetter r then Res.fail Err.invalidLabel st
    else
      match defineIn st.locationCounter r st.symbolTable with
      | some (Sum.inl _) => Res.fail Err.duplicateLabel st
      | some (Sum.inr (v, tbl)) =>
        let st2 := { st with symbolTable := tbl }
        match patch st2.locationCounter chainFuel st2.memory v with
        | Sum.inl m => Res.ok () { st2 with memory := m }
        | Sum.inr (e, m) => Res.fail e { st2 with memory := m }
      | none =>
        Res.ok () { st with
          symbolTable := st.symbolTable ++ [⟨r, st.locationCounter, 'D'⟩] }

/-- Go `lookupSymbol(r)`. -/
def lookupSymbol (r : Nat) (st : State) : Nat × State :=
  match lookupIn st.locationCounter r st.symbolTable with
  | some (v, tbl) => (v, { st with symbolTable := tbl })
  | none =>
    (0, { st with symbolTable := st.symbolTable ++ [⟨r, st.locationCounter, 'U'⟩] })

/-- The store `memory[locationCounter] = w` followed by `locationCounter++`. -/
def storeWord (w : Nat) (st : State) : Res State Unit :=
  if st.locationCounter < 1024 then
    Res.ok () { st with
      memory := write st.memory st.locationCounter w,
      locationCounter := st.locationCounter + 1 }
  else Res.fail Err.indexOutOfRange st

/-- Go `assembleLine(opc, operand)`. -/
def assembleLine (opc operand : GoString) (st : State) : Res State Unit :=
  match findOpcode opc operand opcodes 0 0 with
  | none => Res.fail Err.unexpectedOperand st
  | some index =>
    match opcodes.get? index with
    | none => Res.fail Err.indexOutOfRange st
    | some o =>
      if !o.hasOperand then storeWord ((o.code <<< 10) % 65536) st
      else
        match operand with
        | [] => Res.fail Err.indexOutOfRange st
        | r :: _ =>
          if isLetter r then
            let (v, st1) := lookupSymbol r st
            storeWord (((o.code <<< 10) ||| v) % 65536) st1
          else
            match atoi operand with
            | none => Res.fail Err.invalidOperandLiteral st
            | some intOperand =>
              if intOperand > 512 then Res.fail Err.operandOverflow st
              else
                storeWord ((Int.lor ((o.code <<< 10 : Nat) : Int) intOperand) % 65536).toNat st

/-- Go `parse(s)`: the four shape tests in sequence, the `!ok` test, then the
read of `memory[locationCounter-1]` for the listing. -/
def parse (s0 : GoString) (st : State) : Res State Unit :=
  let s := trim s0
  let splat := split s
  let t0 := splat.getD 0 []
  let t1 := splat.getD 1 []
  let t2 := splat.getD 2 []
  (if splat.length = 3 ∧ t0.length = 1 then
      (defineSymbol t0 st).bind fun _ st =>
      (assembleLine t1 t2 st).bind fun _ st => Res.ok true st
    else Res.ok false st).bind fun ok1 st =>
  (if splat.length = 2 ∧ t0.length = 1 then
      (defineSymbol t0 st).bind fun _ st =>
      (assembleLine t1 [] st).bind fun _ st => Res.ok true st
    else Res.ok ok1 st).bind fun ok2 st =>
  (if splat.length = 2 ∧ t0.length = 3 then
      (assembleLine t0 t1 st).bind fun _ st => Res.ok true st
    else Res.ok ok2 st).bind fun ok3 st =>
  (if splat.length = 1 ∧ t0.length = 3 then
      (assembleLine t0 [] st).bind fun _ st => Res.ok true st
    else Res.ok ok3 st).bind fun ok4 st =>
  if !ok4 then Res.fail Err.malformedLine st
  else if 1 ≤ st.locationCounter ∧ st.locationCounter - 1 < 1024 then Res.ok () st
  else Res.fail Err.indexOutOfRange st

/-- The loop of `main` over the lines of the source file. -/
def assemble : List GoString → State → Res State Unit
  | [], st => Res.ok () st
  | l :: ls, st =>
    match parse l st with
    | Res.ok _ st1 => assemble ls st1
    | Res.fail e st1 => Res.fail e st1

end M1024

/-! ## Specification-side definitions -/

/-- The operation `reference(name, currentAddress)` of the specification, on a
table keyed by name: a defined entry yields its slot and leaves the table alone;
an undefined entry yields its old slot and gets `currentAddress` as its slot; an
unseen name is inserted undefined at `currentAddress` and yields 0. -/
def reference (tbl : List Symbol) (name currentAddress : Nat) : Nat × List Symbol :=
  match tbl.find? (fun e => e.name == name) with
  | some e =>
    if e.status = 'D' then (e.value, tbl)
    else (e.value,
      tbl.map (fun x => if x.name = name then { x with value := currentAddress } else x))
  | none => (0, tbl ++ [⟨name, currentAddress, 'U'⟩])

/-- A decimal literal without sign: one or more bytes `0`..`9`. -/
def IsDigits (s : GoString) : Prop := s ≠ [] ∧ ∀ c ∈ s, 48 ≤ c ∧ c ≤ 57

/-- The number a decimal literal denotes (most significant digit first). -/
def decimalValue (s : GoString) : Nat :=
  Nat.ofDigits 10 (s.reverse.map (fun c => c - 48))

/-- The nodes of the forward-reference chain that starts at `v` in memory `m` of
the byte layout: the addresses the loop `for v != 0` of `defineSymbol` visits, the
next node being read from the operand byte `m (v + 1)`; at most `fuel` nodes. -/
def chainNodes (m : Memory) : Nat → Nat → List Nat
  | 0, _ => []
  | fuel + 1, v => if v = 0 then [] else v :: chainNodes m fuel (m (v + 1))

/-- A state of the byte variant is reachable: it is the result of assembling some
sequence of lines from the initial state. -/
def Reachable (s : M256.State) : Prop :=
  ∃ lines : List GoString, M256.assemble lines M256.init = Res.ok () s

/-- Predicate `IsChain m b h l`: in memory `m` of the byte layout, the chain that
starts at `h` has exactly the nodes `l`, ends at the terminator 0, and descends:
the head is at least two cells below `b` and each next node at least two cells
below its predecessor. -/
inductive IsChain (m : Memory) : Nat → Nat → List Nat → Prop where
  | nil (b : Nat) : IsChain m b 0 []
  | cons (b v : Nat) (l : List Nat) (hv : v ≠ 0) (hb : v + 2 ≤ b)
      (ht : IsChain m v (m (v + 1)) l) : IsChain m b v (v :: l)

/-- The invariant of the byte variant, with the chain `ch n` of every name `n` as
a ghost: names are distinct letters, the location counter is within the memory,
every undefined entry heads a descending chain below the location counter, and
the chains of two undefined entries share no node. -/
structure InvWith (ch : Nat → List Nat) (tbl : List Symbol) (m : Memory) (lc : Nat) :
    Prop where
  nodup : (tbl.map Symbol.name).Nodup
  letters : ∀ e ∈ tbl, isLetter e.name = true
  lc_le : lc ≤ 256
  chains : ∀ e ∈ tbl, e.status ≠ 'D' → IsChain m lc e.value (ch e.name)
  disjoint : ∀ e1 ∈ tbl, ∀ e2 ∈ tbl, e1.name ≠ e2.name → e1.status ≠ 'D' →
    e2.status ≠ 'D' → ∀ v ∈ ch e1.name, v ∉ ch e2.name

/-- The invariant of the byte variant on a state. -/
def Inv (s : M256.State) : Prop :=
  ∃ ch, InvWith ch s.symbolTable s.memory s.locationCounter

/-- The ghost chains `ch` with the chain of the name `r` replaced by `l`. -/
def setChain (ch : Nat → List Nat) (r : Nat) (l : List Nat) : Nat → List Nat :=
  fun n => if n = r then l else ch n

/-- The tokens of a source line: the line trimmed and split at single spaces, the
`splat` of `parseLine` and `parse`. -/
def tokens (l : GoString) : List GoString := split (trim l)

/-- The first shape test: `len(splat) == 3 && len(splat[0]) == 1`. -/
def shapeLMO (l : GoString) : Prop :=
  (tokens l).length = 3 ∧ ((tokens l).getD 0 []).length = 1

/-- The second shape test: `len(splat) == 2 && len(splat[0]) == 1`. -/
def shapeLM (l : GoString) : Prop :=
  (tokens l).length = 2 ∧ ((tokens l).getD 0 []).length = 1

/-- The third shape test: `len(splat) == 2 && len(splat[0]) == 3`. -/
def shapeMO (l : GoString) : Prop :=
  (tokens l).length = 2 ∧ ((tokens l).getD 0 []).length = 3

/-- The fourth shape test: `len(splat) == 1 && len(splat[0]) == 3`. -/
def shapeM (l : GoString) : Prop :=
  (tokens l).length = 1 ∧ ((tokens l).getD 0 []).length = 3

/-- The statement `if line.source == "" { line.source = s }` of `parseLine`
(byte variant), `src` being the trimmed line. -/
def M256.withDefaultSource (src : GoString) (st : M256.State) : M256.State :=
  if st.line.source = [] then { st with line := { st.line with source := src } } else st

/-- One step of the symbol table, from `t` to `t1`: the names of `t1` are pairwise
distinct, they are the names of `t` in the same order followed by new ones (no
entry is removed), and every entry of `t` that is defined is an entry of `t1`
(same name, same address, still defined). -/
def TableStep (t t1 : List Symbol) : Prop :=
  (t1.map Symbol.name).Nodup ∧
    (∃ extra, t1.map Symbol.name = t.map Symbol.name ++ extra) ∧
    ∀ e ∈ t, e.status = 'D' → e ∈ t1

/-- The mnemonic token of a line: the second token when the first has length 1
(the shapes with a label), the first token otherwise. -/
def lineMnemonic (l : GoString) : GoString :=
  if ((tokens l).getD 0 []).length = 1 then (tokens l).getD 1 [] else (tokens l).getD 0 []

/-- The operand token of a line: the third token of a three-token line, the second
token of a two-token line whose first token has length 3, the empty text
otherwise (what `parseLine` passes to `assembleLine`). -/
def lineOperand (l : GoString) : GoString :=
  if (tokens l).length = 3 then (tokens l).getD 2 []
  else if (tokens l).length = 2 ∧ ((tokens l).getD 0 []).length = 3 then (tokens l).getD 1 []
  else []

/-- The symbol that `assembleLine(opc, operand)` of the byte variant looks up, if
it gets to `lookupSymbol`: the table entry selected for `opc` takes an operand
and the first byte of the operand text is a letter. -/
def refOf (opc operand : GoString) : Option Nat :=
  match findOpcode opc operand M256.opcodes 0 0 with
  | none => none
  | some index =>
    match M256.opcodes.get? index with
    | none => none
    | some o =>
      if o.hasOperand then
        match operand with
        | [] => none
        | r :: _ => if isLetter r then some r else none
      else none

/-- The symbol a source line refers to in its operand, if any. -/
def lineReference (l : GoString) : Option Nat := refOf (lineMnemonic l) (lineOperand l)

/-- The number of lines of a program that refer to the symbol `r`. -/
def referenceCount (r : Nat) (lines : List GoString) : Nat :=
  (lines.filter (fun l => lineReference l == some r)).length

/-- The number of iterations the loop `for v != 0` of `defineSymbol` (byte
variant) makes before it ends or fails, within the fuel. -/
def M256.patchIterations (lc : Nat) : Nat → Memory → Nat → Nat
  | 0, _, _ => 0
  | fuel + 1, m, v =>
    if v = 0 then 0
    else if v + 1 < 256 then
      1 + M256.patchIterations lc fuel (write m (v + 1) (lc % 256)) (m (v + 1))
    else 0

/-- One step of the ghost chains, from `ch` to `ch1`, at location counter `lc`
with the reference `ref` of the line: the chain of a name is unchanged, unless the
line refers to that name, in which case it has at most one node more and its
nodes are `lc` or nodes it had. -/
def GhostStep (ch ch1 : Nat → List Nat) (lc : Nat) (ref : Option Nat) : Prop :=
  ∀ n, ch1 n = ch n ∨
    (ref = some n ∧ (∀ v ∈ ch1 n, v = lc ∨ v ∈ ch n) ∧ (ch1 n).length ≤ (ch n).length + 1)

/-- The invariant `InvWith` of the byte variant, extended: every node of every
ghost chain lies at least two cells below the location counter, a table with an
undefined entry has location counter at least 2, and every cell at or above the
location counter is 0. -/
structure GInv (ch : Nat → List Nat) (tbl : List Symbol) (m : Memory) (lc : Nat) :
    Prop where
  base : InvWith ch tbl m lc
  bound : ∀ n, ∀ v ∈ ch n, v + 2 ≤ lc
  undef_lc : ∀ e ∈ tbl, e.status ≠ 'D' → 2 ≤ lc
  tail : ∀ a, lc ≤ a → m a = 0

/-! ## Theorems -/

theorem find_none_of_not_mem (r : Nat) (t : List Symbol)
    (h : ∀ e ∈ t, e.name ≠ r) : t.find? (fun e => e.name == r) = none := by
  rw [List.find?_eq_none]
  intro e he
  simpa using h e he

theorem map_id_of_not_mem (r : Nat) (f : Symbol → Symbol) (t : List Symbol)
    (h : ∀ e ∈ t, e.name ≠ r) :
    t.map (fun x => if x.name = r then f x else x) = t := by
  induction t with
  | nil => rfl
  | cons e es ih =>
    have h1 : e.name ≠ r := h e (List.mem_cons_self _ _)
    have h2 : ∀ x ∈ es, x.name ≠ r := fun x hx => h x (List.mem_cons_of_mem _ hx)
    simp [h1, ih h2]

theorem lookupIn_eq (lc r : Nat) (t : List Symbol) (h : (t.map Symbol.name).Nodup) :
    lookupIn lc r t =
      match t.find? (fun e => e.name == r) with
      | some e =>
        some (e.value, if e.status = 'D' then t
          else t.map (fun x => if x.name = r then { x with value := lc } else x))
      | none => none := by
  induction t with
  | nil => rfl
  | cons e es ih =>
    have hnd : (es.map Symbol.name).Nodup := (List.nodup_cons.mp h).2
    have hne : e.name ∉ es.map Symbol.name := (List.nodup_cons.mp h).1
    by_cases he : e.name = r
    · have hrest : ∀ x ∈ es, x.name ≠ r := by
        intro x hx hxr
        exact hne (List.mem_map.mpr ⟨x, hx, by rw [hxr, he]⟩)
      by_cases hd : e.status = 'D'
      · simp [lookupIn, he, hd]
      · simp [lookupIn, he, hd, map_id_of_not_mem r _ es hrest]
    · have hb : (e.name == r) = false := by simpa using he
      rw [lookupIn, if_neg he, ih hnd, List.find?_cons, hb]
      cases hf : es.find? (fun e => e.name == r) with
      | none => rfl
      | some x =>
        by_cases hd : x.status = 'D'
        · simp [hd]
        · simp [hd, he]

theorem defineIn_eq (lc r : Nat) (t : List Symbol) (h : (t.map Symbol.name).Nodup) :
    defineIn lc r t =
      match t.find? (fun e => e.name == r) with
      | some e =>
        if e.status = 'D' then some (Sum.inl ())
        else some (Sum.inr (e.value,
          t.map (fun x => if x.name = r then { x with status := 'D', value := lc } else x)))
      | none => none := by
  induction t with
  | nil => rfl
  | cons e es ih =>
    have hnd : (es.map Symbol.name).Nodup := (List.nodup_cons.mp h).2
    have hne : e.name ∉ es.map Symbol.name := (List.nodup_cons.mp h).1
    by_cases he : e.name = r
    · have hrest : ∀ x ∈ es, x.name ≠ r := by
        intro x hx hxr
        exact hne (List.mem_map.mpr ⟨x, hx, by rw [hxr, he]⟩)
      by_cases hd : e.status = 'D'
      · simp [defineIn, he, hd]
      · simp [defineIn, he, hd, map_id_of_not_mem r _ es hrest]
    · have hb : (e.name == r) = false := by simpa using he
      rw [defineIn, if_neg he, ih hnd, List.find?_cons, hb]
      cases hf : es.find? (fun e => e.name == r) with
      | none => rfl
      | some x =>
        by_cases hd : x.status = 'D'
        · simp [hd]
        · simp [hd, he]

theorem defineIn_defined (lc r : Nat) (t : List Symbol) (e : Symbol)
    (h : t.find? (fun x => x.name == r) = some e) (hd : e.status = 'D') :
    defineIn lc r t = some (Sum.inl ()) := by
  induction t with
  | nil => simp at h
  | cons x xs ih =>
    by_cases hx : x.name = r
    · have hb : (x.name == r) = true := by simpa using hx
      rw [List.find?_cons, hb] at h
      cases h
      simp [defineIn, hx, hd]
    · have hb : (x.name == r) = false := by simpa using hx
      rw [List.find?_cons, hb] at h
      simp [defineIn, hx, ih h]

/-! ### Duplicate definition (C9) and symbol reference (C10) -/

/-- C9: in both variants, `defineSymbol` on a label (a letter `c`, followed by
anything) whose symbol-table entry, the first one named `c`, is already defined
fails with the duplicate-label error, and at the failure the symbol table, the
memory image and the location counter are exactly what they were. -/
theorem defineSymbol_defined_fails (c : Nat) (rest : GoString)
    (s : M256.State) (t : M1024.State) (es et : Symbol)
    (hc : isLetter c = true)
    (hs : s.symbolTable.find? (fun x => x.name == c) = some es) (hsd : es.status = 'D')
    (ht : t.symbolTable.find? (fun x => x.name == c) = some et) (htd : et.status = 'D') :
    (∃ s1, M256.defineSymbol (c :: rest) s = Res.fail Err.duplicateLabel s1 ∧
        s1.symbolTable = s.symbolTable ∧ s1.memory = s.memory ∧
        s1.locationCounter = s.locationCounter) ∧
      M1024.defineSymbol (c :: rest) t = Res.fail Err.duplicateLabel t := by
  constructor
  · refine ⟨{ s with line := { s.line with label := c :: rest } }, ?_, rfl, rfl, rfl⟩
    simp [M256.defineSymbol, hc, defineIn_defined s.locationCounter c s.symbolTable es hs hsd]
  · simp [M1024.defineSymbol, hc, defineIn_defined t.locationCounter c t.symbolTable et ht htd]

/-- Witness for C9: the label `A`, already defined at address 0. -/
theorem defineSymbol_defined_fails_witness :
    (∃ s1, M256.defineSymbol (str "A")
          { M256.init with symbolTable := [⟨65, 0, 'D'⟩] } = Res.fail Err.duplicateLabel s1 ∧
        s1.symbolTable = [⟨65, 0, 'D'⟩] ∧ s1.memory = M256.init.memory ∧
        s1.locationCounter = 0) ∧
      M1024.defineSymbol (str "A") { M1024.init with symbolTable := [⟨65, 0, 'D'⟩] }
        = Res.fail Err.duplicateLabel { M1024.init with symbolTable := [⟨65, 0, 'D'⟩] } :=
  defineSymbol_defined_fails 65 [] { M256.init with symbolTable := [⟨65, 0, 'D'⟩] }
    { M1024.init with symbolTable := [⟨65, 0, 'D'⟩] } ⟨65, 0, 'D'⟩ ⟨65, 0, 'D'⟩
    (by decide) (by decide) (by decide) (by decide) (by decide)

/-- C10: on a symbol table with pairwise distinct names, `lookupSymbol` is the
operation `reference` of the specification: it returns the value `reference`
returns and leaves the table `reference` leaves, with memory and location counter
untouched.  Case by case: (1) an entry named `r` that is defined: its value is
returned and the state is unchanged; (2) an entry named `r` that is not defined:
its old value is returned and the table is the old one with the location counter
stored in the value of the entry named `r`, every other entry as it was; (3) no
entry named `r`: 0 is returned and `(r, locationCounter, U)` is appended. -/
theorem lookupSymbol_eq_reference (r : Nat) (st : M256.State)
    (h : (st.symbolTable.map Symbol.name).Nodup) :
    M256.lookupSymbol r st =
        ((reference st.symbolTable r st.locationCounter).1,
          { st with symbolTable := (reference st.symbolTable r st.locationCounter).2 }) ∧
      (M256.lookupSymbol r st).2.memory = st.memory ∧
      (M256.lookupSymbol r st).2.locationCounter = st.locationCounter ∧
      (∀ e ∈ st.symbolTable, e.name = r → e.status = 'D' →
        M256.lookupSymbol r st = (e.value, st)) ∧
      (∀ e ∈ st.symbolTable, e.name = r → e.status ≠ 'D' →
        M256.lookupSymbol r st = (e.value, { st with symbolTable :=
          (st.symbolTable.map
            (fun x => if x.name = r then { x with value := st.locationCounter } else x)) })) ∧
      ((∀ e ∈ st.symbolTable, e.name ≠ r) →
        M256.lookupSymbol r st = (0, { st with symbolTable :=
          st.symbolTable ++ [⟨r, st.locationCounter, 'U'⟩] })) := by
  have key : M256.lookupSymbol r st =
      ((reference st.symbolTable r st.locationCounter).1,
        { st with symbolTable := (reference st.symbolTable r st.locationCounter).2 }) := by
    unfold M256.lookupSymbol reference
    rw [lookupIn_eq _ _ _ h]
    cases hf : st.symbolTable.find? (fun e => e.name == r) with
    | none => rfl
    | some e =>
      by_cases hd : e.status = 'D'
      · simp [hd]
      · simp [hd]
  have hfind : ∀ e ∈ st.symbolTable, e.name = r →
      st.symbolTable.find? (fun x => x.name == r) = some e := by
    intro e he hr
    cases hf : st.symbolTable.find? (fun x => x.name == r) with
    | none =>
      rw [List.find?_eq_none] at hf
      exact absurd (by simpa using hr) (hf e he)
    | some x =>
      have hx : x ∈ st.symbolTable := List.mem_of_find?_eq_some hf
      have hxr : x.name = r := by simpa using List.find?_some hf
      have : x = e :=
        List.inj_on_of_nodup_map h hx he (by rw [hxr, hr])
      rw [this]
  refine ⟨key, ?_, ?_, ?_, ?_, ?_⟩
  · rw [key]
  · rw [key]
  · intro e he hr hd
    rw [key]
    simp [reference, hfind e he hr, hd]
  · intro e he hr hd
    rw [key]
    simp [reference, hfind e he hr, hd]
  · intro hn
    rw [key]
    simp [reference, find_none_of_not_mem r _ hn]

/-- Witness for C10: a reference to `B` in a table holding only `A`. -/
theorem lookupSymbol_eq_reference_witness :
    M256.lookupSymbol 66 { M256.init with symbolTable := [⟨65, 0, 'D'⟩] } =
      ((reference [⟨65, 0, 'D'⟩] 66 0).1,
        { M256.init with symbolTable := (reference [⟨65, 0, 'D'⟩] 66 0).2 }) :=
  (lookupSymbol_eq_reference 66 { M256.init with symbolTable := [⟨65, 0, 'D'⟩] }
    (by decide)).1

/-! ### Evaluations of the programs at concrete inputs (C1, C2, C3, C5, C6, C8) -/

/-- C1, the code at the input `LOD B` / `B HLT` (byte layout): the run succeeds
and `B` is defined at address 2, but the operand byte (address 1) of the
instruction at address 0, which referenced `B` before its definition, is still
the chain terminator 0 and not 2: the chain head stored for that reference is the
instruction address 0, which the back-patch loop takes for the end of the
chain. -/
theorem forward_reference_at_address_zero_unpatched :
    ∃ s, M256.assemble [str "LOD B", str "B HLT"] M256.init = Res.ok () s ∧
      s.symbolTable = [⟨66, 2, 'D'⟩] ∧ s.memory 0 = 1 ∧ s.memory 1 = 0 ∧
      s.locationCounter = 3 := by
  refine ⟨_, rfl, ?_, ?_, ?_, ?_⟩ <;> decide

/-- C2, the code at the scenario of the specification (byte layout): the three
lines assemble, `A` is defined at 0 and `B` at 4, memory holds 1, 0, 2, 0, 0 at
addresses 0 to 4: the operand byte at address 1 is 0, not 4. -/
theorem scenario_A_LOD_B :
    ∃ s, M256.assemble [str "A LOD B", str "  STO A", str "B HLT"] M256.init = Res.ok () s ∧
      s.symbolTable = [⟨65, 0, 'D'⟩, ⟨66, 4, 'D'⟩] ∧
      s.memory 0 = 1 ∧ s.memory 1 = 0 ∧ s.memory 2 = 2 ∧ s.memory 3 = 0 ∧ s.memory 4 = 0 ∧
      s.locationCounter = 5 := by
  refine ⟨_, rfl, ?_, ?_, ?_, ?_, ?_, ?_, ?_⟩ <;> decide

/-- C3, the code at the input `HLT` / `LOD A` / `A HLT` (packed layout): after
the first two lines the word at address 1 has opcode field 1 (`LOD`) and `A` is
undefined with chain head 1; `defineSymbol` of `A` then succeeds and leaves the
whole word at address 1 equal to the location counter 2, so its opcode field
is 0. -/
theorem packed_patch_overwrites_opcode :
    ∃ s1 s2, M1024.assemble [str "HLT", str "LOD A"] M1024.init = Res.ok () s1 ∧
      s1.symbolTable = [⟨65, 1, 'U'⟩] ∧ s1.locationCounter = 2 ∧
      M1024.wordOpcode (s1.memory 1) = 1 ∧
      M1024.defineSymbol (str "A") s1 = Res.ok () s2 ∧
      s2.memory 1 = 2 ∧ M1024.wordOpcode (s2.memory 1) = 0 := by
  refine ⟨_, _, rfl, ?_, ?_, ?_, rfl, ?_, ?_⟩ <;> decide

/-- C5, the code at the mnemonic `FOO`, which is in neither table.  Byte layout:
`assembleLine` succeeds, with or without operand text, writes the opcode of the
entry at index 0 (`HLT`, 0) and advances the location counter by 1.  Packed
layout: with the operand text `7` it succeeds and writes the word of `LOD 7`
(index 0 is `LOD`), and with no operand text it indexes the empty text. -/
theorem unknown_mnemonic_is_assembled :
    (∃ s, M256.assembleLine (str "FOO") [] M256.init = Res.ok () s ∧
        s.memory 0 = 0 ∧ s.locationCounter = 1) ∧
      (∃ s, M256.assembleLine (str "FOO") (str "7") M256.init = Res.ok () s ∧
        s.memory 0 = 0 ∧ s.locationCounter = 1) ∧
      (∃ s, M1024.assembleLine (str "FOO") (str "7") M1024.init = Res.ok () s ∧
        s.memory 0 = 1031 ∧ M1024.wordOpcode (s.memory 0) = 1 ∧ s.locationCounter = 1) ∧
      M1024.assembleLine (str "FOO") [] M1024.init
        = Res.fail Err.indexOutOfRange M1024.init := by
  refine ⟨⟨_, rfl, ?_, ?_⟩, ⟨_, rfl, ?_, ?_⟩, ⟨_, rfl, ?_, ?_, ?_⟩, rfl⟩ <;> decide

/-- C6, the code at the literals 512, 513 and 1023 (packed layout): `LOD 512` is
assembled, `LOD 513` and `LOD 1023` are rejected with the overflow error: the
bound tested is `> 0b1000000000`, that is 512. -/
theorem packed_literal_1023_rejected :
    M1024.assembleLine (str "LOD") (str "1023") M1024.init
        = Res.fail Err.operandOverflow M1024.init ∧
      M1024.assembleLine (str "LOD") (str "513") M1024.init
        = Res.fail Err.operandOverflow M1024.init ∧
      (∃ s, M1024.assembleLine (str "LOD") (str "512") M1024.init = Res.ok () s ∧
        M1024.wordOperand (s.memory 0) = 512 ∧ M1024.wordOpcode (s.memory 0) = 1) := by
  refine ⟨rfl, rfl, ⟨_, rfl, ?_, ?_⟩⟩ <;> decide

/-- C8, the code at the literal `-1` (byte layout): `LOD -1` is assembled, and
the operand byte is `uint8(-1)`, 255: only the upper bound is tested. -/
theorem negative_literal_accepted :
    atoi (str "-1") = some (-1) ∧
      ∃ s, M256.assembleLine (str "LOD") (str "-1") M256.init = Res.ok () s ∧
        s.memory 0 = 1 ∧ s.memory 1 = 255 ∧ s.locationCounter = 2 := by
  refine ⟨rfl, _, rfl, ?_, ?_, ?_⟩ <;> decide

/-! ### Range of a literal operand in the byte layout (C7) -/

theorem decimalValue_cons (c : Nat) (cs : GoString) :
    decimalValue (c :: cs) = (c - 48) * 10 ^ cs.length + decimalValue cs := by
  simp [decimalValue, Nat.ofDigits_append, Nat.ofDigits_singleton]
  ring

theorem digitsVal_eq (s : GoString) (h : ∀ c ∈ s, 48 ≤ c ∧ c ≤ 57) (acc : Nat) :
    digitsVal s acc = some (acc * 10 ^ s.length + decimalValue s) := by
  induction s generalizing acc with
  | nil => simp [digitsVal, decimalValue]
  | cons c cs ih =>
    have hc := h c (List.mem_cons_self _ _)
    have hcs : ∀ x ∈ cs, 48 ≤ x ∧ x ≤ 57 := fun x hx => h x (List.mem_cons_of_mem _ hx)
    rw [digitsVal, if_pos hc, ih hcs, decimalValue_cons]
    congr 1
    simp [pow_succ]
    ring

theorem atoi_digits (s : GoString) (h : IsDigits s) :
    atoi s = if decimalValue s < 2 ^ 63 then some (decimalValue s : Int) else none := by
  obtain ⟨hne, hd⟩ := h
  cases s with
  | nil => exact absurd rfl hne
  | cons c cs =>
    have hc := hd c (List.mem_cons_self _ _)
    have h45 : c ≠ 45 := by omega
    have h43 : c ≠ 43 := by omega
    simp only [atoi, if_neg h45, if_neg h43, parseUnsigned, digitsVal_eq (c :: cs) hd 0]
    simp

theorem isLetter_digit (c : Nat) (h : 48 ≤ c ∧ c ≤ 57) : isLetter c = false := by
  obtain ⟨h1, h2⟩ := h
  interval_cases c <;> rfl

theorem findOpcode_hasOperand (o : Opcode) (ho : o ∈ M256.opcodes)
    (hop : o.hasOperand = true) (operand : GoString) :
    findOpcode o.mnemonic operand M256.opcodes 0 0 = some o.code ∧
      M256.opcodes.get? o.code = some o ∧ o.code % 256 = o.code := by
  simp only [M256.opcodes, List.mem_cons, List.mem_singleton, List.not_mem_nil,
    or_false] at ho
  rcases ho with h | h | h | h | h | h | h | h | h | h <;> subst h <;>
    first
    | exact absurd hop (by decide)
    | exact ⟨rfl, rfl, rfl⟩

/-- C7, counterexample: (1) the literal 9223372036854775808, larger than 256, is
rejected by the failure of `strconv.Atoi` (conversion error), not by the overflow
test; (2) at location counter 255 the literal 255 is not accepted: the store of
the operand byte at index 256 is out of range. -/
theorem literal_range_counterexample :
    M256.assembleLine (str "LOD") (str "9223372036854775808") M256.init
        = Res.fail Err.invalidOperandLiteral M256.init ∧
      ∃ s, M256.assembleLine (str "LOD") (str "255")
          { M256.init with locationCounter := 255 } = Res.fail Err.indexOutOfRange s := by
  exact ⟨rfl, _, rfl⟩

/-- C7, amended: byte layout, for every operand-taking mnemonic of the table and
every state.  If the two bytes of the instruction fit (`locationCounter + 1 <
256`), the literal `255` is accepted: the opcode is stored at `locationCounter`,
255 at `locationCounter + 1`, the counter advances by 2 and no other cell nor the
symbol table changes.  Every unsigned decimal literal denoting 256 or more is
rejected with the state unchanged: with the overflow error when it is below
`2 ^ 63`, with the conversion error otherwise. -/
theorem literal_range (o : Opcode) (st : M256.State)
    (ho : o ∈ M256.opcodes) (hop : o.hasOperand = true) :
    (st.locationCounter + 1 < 256 →
      ∃ st1, M256.assembleLine o.mnemonic (str "255") st = Res.ok () st1 ∧
        st1.memory st.locationCounter = o.code ∧
        st1.memory (st.locationCounter + 1) = 255 ∧
        st1.locationCounter = st.locationCounter + 2 ∧
        st1.symbolTable = st.symbolTable ∧
        ∀ a, a ≠ st.locationCounter → a ≠ st.locationCounter + 1 →
          st1.memory a = st.memory a) ∧
      (∀ ds, IsDigits ds → 256 ≤ decimalValue ds →
        M256.assembleLine o.mnemonic ds st =
          Res.fail (if decimalValue ds < 2 ^ 63 then Err.operandOverflow
            else Err.invalidOperandLiteral) st) := by
  constructor
  · intro hlc
    obtain ⟨h1, h2, h3⟩ := findOpcode_hasOperand o ho hop (str "255")
    have hlt : st.locationCounter < 256 := by omega
    have hat : atoi (str "255") = some 255 := rfl
    have hs : str "255" = 50 :: [53, 53] := rfl
    refine ⟨{ st with
        memory := write (write st.memory st.locationCounter (o.code % 256))
          (st.locationCounter + 1) 255,
        line := { st.line with opcode := o.code % 256, operand := 255 },
        locationCounter := st.locationCounter + 2 }, ?_, ?_, ?_, ?_, ?_, ?_⟩
    · unfold M256.assembleLine
      rw [h1]
      simp only [h2, hop]
      rw [hat]
      simp only [hs, show isLetter 50 = false from rfl]
      simp [M256.storeOperand, hlc, hlt, write]
    · simp [write, h3]
    · simp [write]
    · rfl
    · rfl
    · intro a ha1 ha2
      simp [write, ha1, ha2]
  · intro ds hds hval
    obtain ⟨h1, h2, _⟩ := findOpcode_hasOperand o ho hop ds
    have hat := atoi_digits ds hds
    obtain ⟨hne, hd⟩ := hds
    cases ds with
    | nil => exact absurd rfl hne
    | cons c cs =>
      have hc := isLetter_digit c (hd c (List.mem_cons_self _ _))
      unfold M256.assembleLine
      rw [h1]
      simp only [h2, hop, hc, hat]
      by_cases hb : decimalValue (c :: cs) < 2 ^ 63
      · have hge : (256 : Int) ≤ (decimalValue (c :: cs) : Int) := by exact_mod_cast hval
        simp only [if_pos hb]
        simp [hge]
      · simp only [if_neg hb]
        simp

/-- Witness for C7 (amended): `LOD` at the initial state. -/
theorem literal_range_witness :
    (M256.init.locationCounter + 1 < 256 →
      ∃ st1, M256.assembleLine (str "LOD") (str "255") M256.init = Res.ok () st1 ∧
        st1.memory M256.init.locationCounter = 1 ∧
        st1.memory (M256.init.locationCounter + 1) = 255 ∧
        st1.locationCounter = M256.init.locationCounter + 2 ∧
        st1.symbolTable = M256.init.symbolTable ∧
        ∀ a, a ≠ M256.init.locationCounter → a ≠ M256.init.locationCounter + 1 →
          st1.memory a = M256.init.memory a) ∧
      (∀ ds, IsDigits ds → 256 ≤ decimalValue ds →
        M256.assembleLine (str "LOD") ds M256.init =
          Res.fail (if decimalValue ds < 2 ^ 63 then Err.operandOverflow
            else Err.invalidOperandLiteral) M256.init) :=
  literal_range ⟨1, str "LOD", true⟩ M256.init (by decide) rfl

/-! ### Forward-reference chains of the byte layout -/

theorem IsChain.mono {m : Memory} {b h : Nat} {l : List Nat} (hc : IsChain m b h l)
    {b1 : Nat} (hb : b ≤ b1) : IsChain m b1 h l := by
  cases hc with
  | nil => exact IsChain.nil b1
  | cons _ _ l hv hb0 ht => exact IsChain.cons b1 h l hv (by omega) ht

theorem IsChain.mem_bound {m : Memory} {b h : Nat} {l : List Nat} (hc : IsChain m b h l) :
    ∀ v ∈ l, v ≠ 0 ∧ v + 2 ≤ b := by
  induction hc with
  | nil => intro v hv; simp at hv
  | cons b v l hv hb _ ih =>
    intro w hw
    rcases List.mem_cons.mp hw with h | h
    · subst h; exact ⟨hv, hb⟩
    · have := ih w h
      exact ⟨this.1, by omega⟩

theorem IsChain.head_bound {m : Memory} {b h : Nat} {l : List Nat} (hc : IsChain m b h l) :
    h = 0 ∨ h + 2 ≤ b := by
  cases hc with
  | nil => exact Or.inl rfl
  | cons _ _ _ hv hb _ => exact Or.inr hb

theorem IsChain.congr {m m1 : Memory} {b h : Nat} {l : List Nat} (hc : IsChain m b h l)
    (hm : ∀ v ∈ l, m1 (v + 1) = m (v + 1)) : IsChain m1 b h l := by
  induction hc with
  | nil b => exact IsChain.nil b
  | cons b v l hv hb _ ih =>
    have h1 : m1 (v + 1) = m (v + 1) := hm v (List.mem_cons_self _ _)
    refine IsChain.cons b v l hv hb ?_
    rw [h1]
    exact ih (fun w hw => hm w (List.mem_cons_of_mem _ hw))

theorem IsChain.chain_frame {m m1 : Memory} {b h : Nat} {l : List Nat} (hc : IsChain m b h l)
    (hm : ∀ a, a < b → m1 a = m a) {b1 : Nat} (hb : b ≤ b1) : IsChain m1 b1 h l :=
  (hc.congr (fun v hv => hm (v + 1) (by have := hc.mem_bound v hv; omega))).mono hb

theorem IsChain.length_le {m : Memory} {b h : Nat} {l : List Nat} (hc : IsChain m b h l) :
    l.length ≤ b := by
  induction hc with
  | nil => simp
  | cons b v l _ hb _ ih => simp; omega

theorem IsChain.succ_not_mem {m : Memory} {b h : Nat} {l : List Nat}
    (hc : IsChain m b h l) : ∀ v ∈ l, ∀ w ∈ l, v ≠ w + 1 := by
  induction hc with
  | nil => intro v hv; simp at hv
  | cons b v l hv hb ht ih =>
    intro x hx y hy
    rcases List.mem_cons.mp hx with h1 | h1 <;> rcases List.mem_cons.mp hy with h2 | h2
    · omega
    · have := ht.mem_bound y h2; omega
    · have := ht.mem_bound x h1; omega
    · exact ih x h1 y h2

theorem IsChain.chainNodes_eq {m : Memory} {b h : Nat} {l : List Nat}
    (hc : IsChain m b h l) : ∀ fuel, l.length ≤ fuel → chainNodes m fuel h = l := by
  induction hc with
  | nil b => intro fuel _; cases fuel <;> simp [chainNodes]
  | cons b v l hv hb _ ih =>
    intro fuel hf
    cases fuel with
    | zero => simp at hf
    | succ n =>
      have hn : l.length ≤ n := by simpa using hf
      simp [chainNodes, hv, ih n hn]

theorem patch_chain (lc : Nat) (l : List Nat) :
    ∀ (m : Memory) (b h fuel : Nat), IsChain m b h l → b ≤ 256 → l.length ≤ fuel →
      ∃ m1, M256.patch lc fuel m h = Sum.inl m1 ∧
        ∀ a, m1 a = if a ∈ l.map (fun v => v + 1) then lc % 256 else m a := by
  induction l with
  | nil =>
    intro m b h fuel hc _ _
    cases hc
    refine ⟨m, ?_, ?_⟩
    · cases fuel <;> simp [M256.patch]
    · intro a; simp
  | cons v l ih =>
    intro m b h fuel hc hb hf
    cases hc with
    | cons _ _ _ hv hb0 ht =>
      cases fuel with
      | zero => simp at hf
      | succ n =>
        have hn : l.length ≤ n := by simpa using hf
        have hlt : v + 1 < 256 := by omega
        have ht1 : IsChain (write m (v + 1) (lc % 256)) v (m (v + 1)) l := by
          refine ht.congr ?_
          intro w hw
          have := ht.mem_bound w hw
          simp only [write]
          rw [if_neg (by omega)]
        obtain ⟨m1, h1, h2⟩ := ih _ v (m (v + 1)) n ht1 (by omega) hn
        refine ⟨m1, ?_, ?_⟩
        · simp [M256.patch, hv, hlt, h1]
        · intro a
          rw [h2 a]
          by_cases ha : a = v + 1
          · subst ha
            simp [write]
          · by_cases hal : a ∈ l.map (fun v => v + 1)
            · simp [hal]
            · have : a ∉ (v :: l).map (fun v => v + 1) := by
                simp only [List.map_cons, List.mem_cons, not_or]
                exact ⟨ha, hal⟩
              rw [if_neg hal, if_neg this]
              simp [write, ha]

/-! ### The invariant is kept by `defineSymbol` -/

theorem find_mem_name {r : Nat} {t : List Symbol} {e : Symbol}
    (h : t.find? (fun x => x.name == r) = some e) : e ∈ t ∧ e.name = r :=
  ⟨List.mem_of_find?_eq_some h, by simpa using List.find?_some h⟩

theorem InvWith.inv_frame {ch : Nat → List Nat} {tbl : List Symbol} {m m1 : Memory}
    {lc lc1 : Nat} (h : InvWith ch tbl m lc) (hm : ∀ a, a < lc → m1 a = m a)
    (h1 : lc ≤ lc1) (h2 : lc1 ≤ 256) : InvWith ch tbl m1 lc1 :=
  { nodup := h.nodup
    letters := h.letters
    lc_le := h2
    chains := fun e he hs => (h.chains e he hs).chain_frame hm h1
    disjoint := h.disjoint }

theorem defineSymbol_undefined {ch : Nat → List Nat} (s : M256.State) (r : Nat)
    (rest : GoString) (e : Symbol)
    (hinv : InvWith ch s.symbolTable s.memory s.locationCounter)
    (hf : s.symbolTable.find? (fun x => x.name == r) = some e) (hU : e.status ≠ 'D') :
    ∃ m1, M256.defineSymbol (r :: rest) s = Res.ok ()
        { symbolTable := s.symbolTable.map (fun x =>
            if x.name = r then { x with status := 'D', value := s.locationCounter } else x),
          memory := m1,
          locationCounter := s.locationCounter,
          line := { s.line with label := r :: rest } } ∧
      ∀ a, m1 a =
        if a ∈ (ch r).map (fun v => v + 1) then s.locationCounter % 256 else s.memory a := by
  obtain ⟨hmem, hname⟩ := find_mem_name hf
  have hl : isLetter r = true := by rw [← hname]; exact hinv.letters e hmem
  have hc : IsChain s.memory s.locationCounter e.value (ch r) := by
    rw [← hname]; exact hinv.chains e hmem hU
  have hlen : (ch r).length ≤ chainFuel := by
    have := hc.length_le
    have := hinv.lc_le
    simp only [chainFuel]
    omega
  obtain ⟨m1, hp, hm1⟩ :=
    patch_chain s.locationCounter (ch r) s.memory s.locationCounter e.value chainFuel hc
      hinv.lc_le hlen
  refine ⟨m1, ?_, hm1⟩
  simp [M256.defineSymbol, hl, defineIn_eq _ _ _ hinv.nodup, hf, hU, hp]

theorem map_names (r : Nat) (g : Symbol → Symbol) (hg : ∀ x, (g x).name = x.name)
    (t : List Symbol) :
    (t.map (fun x => if x.name = r then g x else x)).map Symbol.name = t.map Symbol.name := by
  induction t with
  | nil => rfl
  | cons e es ih =>
    by_cases he : e.name = r
    · simp only [List.map_cons, if_pos he, hg, ih]
    · simp only [List.map_cons, if_neg he, ih]

theorem defineSymbol_inv (lbl : GoString) (s s1 : M256.State) (hinv : Inv s)
    (h : M256.defineSymbol lbl s = Res.ok () s1) : Inv s1 := by
  obtain ⟨ch, hI⟩ := hinv
  cases lbl with
  | nil => simp [M256.defineSymbol] at h
  | cons r rest =>
    by_cases hl : isLetter r = true
    · cases hf : s.symbolTable.find? (fun x => x.name == r) with
      | none =>
        have hnone : ∀ x ∈ s.symbolTable, x.name ≠ r := by
          intro x hx
          have := List.find?_eq_none.mp hf x hx
          simpa using this
        simp [M256.defineSymbol, hl, defineIn_eq _ _ _ hI.nodup, hf] at h
        subst h
        refine ⟨ch, ?_⟩
        refine
          { nodup := ?_, letters := ?_, lc_le := hI.lc_le, chains := ?_, disjoint := ?_ }
        · simp only [List.map_append, List.map_cons, List.map_nil]
          refine List.Nodup.append hI.nodup (List.nodup_singleton _) ?_
          intro n hn1 hn2
          obtain ⟨x, hx, hxn⟩ := List.mem_map.mp hn1
          have : n = r := by simpa using hn2
          exact hnone x hx (by rw [hxn, this])
        · intro x hx
          rcases List.mem_append.mp hx with hx | hx
          · exact hI.letters x hx
          · have : x = ⟨r, s.locationCounter, 'D'⟩ := by simpa using hx
            rw [this]; exact hl
        · intro x hx hs
          rcases List.mem_append.mp hx with hx | hx
          · exact hI.chains x hx hs
          · have : x = ⟨r, s.locationCounter, 'D'⟩ := by simpa using hx
            rw [this] at hs; exact absurd rfl hs
        · intro x hx y hy hne hsx hsy
          rcases List.mem_append.mp hx with hx | hx
          · rcases List.mem_append.mp hy with hy | hy
            · exact hI.disjoint x hx y hy hne hsx hsy
            · have : y = ⟨r, s.locationCounter, 'D'⟩ := by simpa using hy
              rw [this] at hsy; exact absurd rfl hsy
          · have : x = ⟨r, s.locationCounter, 'D'⟩ := by simpa using hx
            rw [this] at hsx; exact absurd rfl hsx
      | some e =>
        by_cases hD : e.status = 'D'
        · simp [M256.defineSymbol, hl, defineIn_eq _ _ _ hI.nodup, hf, hD] at h
        · obtain ⟨m1, hd, hm1⟩ := defineSymbol_undefined s r rest e hI hf hD
          rw [hd] at h
          injection h with _ hs
          subst hs
          obtain ⟨hmem, hname⟩ := find_mem_name hf
          refine ⟨ch, ?_⟩
          refine
            { nodup := ?_, letters := ?_, lc_le := hI.lc_le, chains := ?_, disjoint := ?_ }
          · show ((s.symbolTable.map _).map Symbol.name).Nodup
            rw [map_names r (fun x => { x with status := 'D', value := s.locationCounter })
              (fun _ => rfl)]
            exact hI.nodup
          · intro x hx
            obtain ⟨x0, hx0, rfl⟩ := List.mem_map.mp hx
            by_cases hxr : x0.name = r
            · simp only [if_pos hxr]; exact hI.letters x0 hx0
            · simp only [if_neg hxr]; exact hI.letters x0 hx0
          · intro x hx hs
            obtain ⟨x0, hx0, rfl⟩ := List.mem_map.mp hx
            by_cases hxr : x0.name = r
            · simp [hxr] at hs
            · simp only [if_neg hxr] at hs ⊢
              refine (hI.chains x0 hx0 hs).congr ?_
              intro v hv
              have hvr : v ∉ ch r := by
                have := hI.disjoint x0 hx0 e hmem (by rw [hname]; exact hxr) hs hD v hv
                rwa [hname] at this
              rw [hm1 (v + 1)]
              have : v + 1 ∉ (ch r).map (fun v => v + 1) := by
                intro hc
                obtain ⟨w, hw, hwv⟩ := List.mem_map.mp hc
                have : w = v := by omega
                exact hvr (this ▸ hw)
              rw [if_neg this]
          · intro x hx y hy hne hsx hsy
            obtain ⟨x0, hx0, rfl⟩ := List.mem_map.mp hx
            obtain ⟨y0, hy0, rfl⟩ := List.mem_map.mp hy
            by_cases hxr : x0.name = r
            · simp [hxr] at hsx
            · by_cases hyr : y0.name = r
              · simp [hyr] at hsy
              · simp only [if_neg hxr, if_neg hyr] at hne hsx hsy ⊢
                exact hI.disjoint x0 hx0 y0 hy0 hne hsx hsy
    · simp [M256.defineSymbol, hl] at h

/-! ### The invariant is kept by a symbol reference and by `assembleLine` -/

theorem setChain_same (ch : Nat → List Nat) (r : Nat) (l : List Nat) :
    setChain ch r l r = l := by
  simp [setChain]

theorem setChain_ne (ch : Nat → List Nat) {r n : Nat} (l : List Nat) (h : n ≠ r) :
    setChain ch r l n = ch n := by
  simp [setChain, h]

theorem lookupSymbol_reference (r : Nat) (st : M256.State)
    (h : (st.symbolTable.map Symbol.name).Nodup) :
    M256.lookupSymbol r st =
      ((reference st.symbolTable r st.locationCounter).1,
        { st with symbolTable := (reference st.symbolTable r st.locationCounter).2 }) := by
  unfold M256.lookupSymbol reference
  rw [lookupIn_eq _ _ _ h]
  cases hf : st.symbolTable.find? (fun e => e.name == r) with
  | none => rfl
  | some e =>
    by_cases hd : e.status = 'D'
    · simp [hd]
    · simp [hd]

theorem setChain_eq (ch : Nat → List Nat) {r n : Nat} (l : List Nat) (h : n = r) :
    setChain ch r l n = l := by
  simp [setChain, h]

theorem reference_inv_new {ch : Nat → List Nat} {tbl : List Symbol} {m : Memory}
    {lc : Nat} (r c : Nat) (hI : InvWith ch tbl m lc) (hr : isLetter r = true)
    (hlc : lc + 1 < 256) (hnone : ∀ x ∈ tbl, x.name ≠ r) :
    InvWith (setChain ch r (if lc = 0 then [] else [lc]))
      (tbl ++ [⟨r, lc, 'U'⟩]) (write (write m lc c) (lc + 1) 0) (lc + 2) := by
  have hagree : ∀ a, a < lc → write (write m lc c) (lc + 1) 0 a = m a := by
    intro a ha
    simp only [write]
    rw [if_neg (by omega), if_neg (by omega)]
  have hnew : ∀ x ∈ [(⟨r, lc, 'U'⟩ : Symbol)], x = ⟨r, lc, 'U'⟩ := by
    intro x hx; simpa using hx
  refine { nodup := ?_, letters := ?_, lc_le := by omega, chains := ?_, disjoint := ?_ }
  · simp only [List.map_append, List.map_cons, List.map_nil]
    refine List.Nodup.append hI.nodup (List.nodup_singleton _) ?_
    intro n hn1 hn2
    obtain ⟨x, hx, hxn⟩ := List.mem_map.mp hn1
    have : n = r := by simpa using hn2
    exact hnone x hx (by rw [hxn, this])
  · intro x hx
    rcases List.mem_append.mp hx with hx | hx
    · exact hI.letters x hx
    · rw [hnew x hx]; exact hr
  · intro x hx hs
    rcases List.mem_append.mp hx with hx | hx
    · rw [setChain_ne _ _ (hnone x hx)]
      exact (hI.chains x hx hs).chain_frame hagree (by omega)
    · rw [hnew x hx]
      simp only [setChain_same]
      by_cases h0 : lc = 0
      · rw [if_pos h0, h0]; exact IsChain.nil _
      · rw [if_neg h0]
        refine IsChain.cons _ _ _ h0 (le_refl _) ?_
        have : write (write m lc c) (lc + 1) 0 (lc + 1) = 0 := by simp [write]
        rw [this]
        exact IsChain.nil _
  · intro x hx y hy hne hsx hsy v hv
    rcases List.mem_append.mp hx with hx | hx
    · rw [setChain_ne _ _ (hnone x hx)] at hv
      have hb := (hI.chains x hx hsx).mem_bound v hv
      rcases List.mem_append.mp hy with hy | hy
      · rw [setChain_ne _ _ (hnone y hy)]
        exact hI.disjoint x hx y hy hne hsx hsy v hv
      · rw [hnew y hy]
        simp only [setChain_same]
        by_cases h0 : lc = 0
        · simp [h0]
        · rw [if_neg h0]
          simp only [List.mem_singleton]
          omega
    · rw [hnew x hx] at hv hne
      simp only [setChain_same] at hv
      rcases List.mem_append.mp hy with hy | hy
      · rw [setChain_ne _ _ (hnone y hy)]
        intro hvy
        have hb := (hI.chains y hy hsy).mem_bound v hvy
        by_cases h0 : lc = 0
        · simp [h0] at hv
        · rw [if_neg h0] at hv
          have : v = lc := by simpa using hv
          omega
      · rw [hnew y hy] at hne
        exact absurd rfl hne

theorem reference_inv_undefined {ch : Nat → List Nat} {tbl : List Symbol} {m : Memory}
    {lc : Nat} (r c : Nat) (e : Symbol) (hI : InvWith ch tbl m lc) (hlc : lc + 1 < 256)
    (he : e ∈ tbl) (hname : e.name = r) (hU : e.status ≠ 'D') :
    InvWith (setChain ch r (if lc = 0 then [] else lc :: ch r))
      (tbl.map (fun x => if x.name = r then { x with value := lc } else x))
      (write (write m lc c) (lc + 1) (e.value % 256)) (lc + 2) := by
  have hagree : ∀ a, a < lc →
      write (write m lc c) (lc + 1) (e.value % 256) a = m a := by
    intro a ha
    simp only [write]
    rw [if_neg (by omega), if_neg (by omega)]
  have hce : IsChain m lc e.value (ch r) := by
    rw [← hname]; exact hI.chains e he hU
  have hval : e.value % 256 = e.value := by
    rcases hce.head_bound with h | h
    · rw [h]
    · exact Nat.mod_eq_of_lt (by omega)
  refine { nodup := ?_, letters := ?_, lc_le := by omega, chains := ?_, disjoint := ?_ }
  · rw [map_names r (fun x => { x with value := lc }) (fun _ => rfl)]
    exact hI.nodup
  · intro x hx
    obtain ⟨x0, hx0, rfl⟩ := List.mem_map.mp hx
    by_cases hxr : x0.name = r
    · simp only [if_pos hxr]; exact hI.letters x0 hx0
    · simp only [if_neg hxr]; exact hI.letters x0 hx0
  · intro x hx hs
    obtain ⟨x0, hx0, rfl⟩ := List.mem_map.mp hx
    by_cases hxr : x0.name = r
    · simp only [if_pos hxr, setChain_eq ch _ hxr]
      by_cases h0 : lc = 0
      · rw [if_pos h0, h0]; exact IsChain.nil _
      · rw [if_neg h0]
        refine IsChain.cons _ _ _ h0 (le_refl _) ?_
        have : write (write m lc c) (lc + 1) (e.value % 256) (lc + 1) = e.value := by
          simp [write, hval]
        rw [this]
        exact hce.chain_frame hagree (le_refl _)
    · simp only [if_neg hxr] at hs ⊢
      rw [setChain_ne _ _ hxr]
      exact (hI.chains x0 hx0 hs).chain_frame hagree (by omega)
  · intro x hx y hy hne hsx hsy v hv
    obtain ⟨x0, hx0, rfl⟩ := List.mem_map.mp hx
    obtain ⟨y0, hy0, rfl⟩ := List.mem_map.mp hy
    by_cases hxr : x0.name = r
    · by_cases hyr : y0.name = r
      · simp [hxr, hyr] at hne
      · simp only [if_pos hxr, if_neg hyr, setChain_eq ch _ hxr] at hne hsx hsy hv ⊢
        rw [setChain_ne _ _ hyr]
        intro hvy
        have hb := (hI.chains y0 hy0 hsy).mem_bound v hvy
        by_cases h0 : lc = 0
        · simp [h0] at hv
        · rw [if_neg h0] at hv
          rcases List.mem_cons.mp hv with h | h
          · omega
          · have := hI.disjoint e he y0 hy0 (by rw [hname]; exact fun h => hyr h.symm) hU hsy v
              (by rw [hname]; exact h)
            exact this hvy
    · by_cases hyr : y0.name = r
      · simp only [if_neg hxr, if_pos hyr, setChain_eq ch _ hyr] at hne hsx hsy hv ⊢
        rw [setChain_ne _ _ hxr] at hv
        have hb := (hI.chains x0 hx0 hsx).mem_bound v hv
        by_cases h0 : lc = 0
        · simp [h0]
        · rw [if_neg h0]
          intro hvy
          rcases List.mem_cons.mp hvy with h | h
          · omega
          · have := hI.disjoint x0 hx0 e he (by rw [hname]; exact hxr) hsx hU v hv
            rw [hname] at this
            exact this h
      · simp only [if_neg hxr, if_neg hyr] at hne hsx hsy hv ⊢
        rw [setChain_ne _ _ hxr] at hv
        rw [setChain_ne _ _ hyr]
        exact hI.disjoint x0 hx0 y0 hy0 hne hsx hsy v hv

theorem storeOperand_ok {code b : Nat} {st st1 : M256.State}
    (h : M256.storeOperand code b st = Res.ok () st1) :
    st.locationCounter + 1 < 256 ∧ st1.symbolTable = st.symbolTable ∧
      st1.memory = write st.memory (st.locationCounter + 1) b ∧
      st1.locationCounter = st.locationCounter + 2 := by
  unfold M256.storeOperand at h
  by_cases hlt : st.locationCounter + 1 < 256
  · rw [if_pos hlt] at h
    injection h with _ hs
    subst hs
    exact ⟨hlt, rfl, rfl, rfl⟩
  · rw [if_neg hlt] at h
    cases h

theorem reference_inv {ch : Nat → List Nat} {tbl : List Symbol} {m : Memory}
    {lc : Nat} (r c : Nat) (hI : InvWith ch tbl m lc) (hr : isLetter r = true)
    (hlc : lc + 1 < 256) :
    ∃ ch1, InvWith ch1 (reference tbl r lc).2
      (write (write m lc c) (lc + 1) ((reference tbl r lc).1 % 256)) (lc + 2) := by
  have hagree : ∀ b a, a < lc → write (write m lc c) (lc + 1) b a = m a := by
    intro b a ha
    simp only [write]
    rw [if_neg (by omega), if_neg (by omega)]
  unfold reference
  cases hf : tbl.find? (fun e => e.name == r) with
  | none =>
    have hnone : ∀ x ∈ tbl, x.name ≠ r := by
      intro x hx
      have := List.find?_eq_none.mp hf x hx
      simpa using this
    exact ⟨_, reference_inv_new r c hI hr hlc hnone⟩
  | some e =>
    obtain ⟨hmem, hname⟩ := find_mem_name hf
    by_cases hD : e.status = 'D'
    · simp only [if_pos hD]
      exact ⟨ch, hI.inv_frame (hagree _) (by omega) (by omega)⟩
    · simp only [if_neg hD]
      exact ⟨_, reference_inv_undefined r c e hI hlc hmem hname hD⟩

theorem assembleLine_inv (opc operand : GoString) (s s1 : M256.State) (hinv : Inv s)
    (h : M256.assembleLine opc operand s = Res.ok () s1) : Inv s1 := by
  obtain ⟨ch, hI⟩ := hinv
  unfold M256.assembleLine at h
  cases hfo : findOpcode opc operand M256.opcodes 0 0 with
  | none => rw [hfo] at h; cases h
  | some index =>
    rw [hfo] at h
    cases hg : M256.opcodes.get? index with
    | none => simp only [hg] at h; cases h
    | some o =>
      simp only [hg] at h
      by_cases hop : o.hasOperand = true
      · simp only [hop, Bool.not_true, Bool.false_eq_true, if_false] at h
        cases operand with
        | nil => cases h
        | cons r rest =>
          simp only at h
          by_cases hl : isLetter r = true
          · simp only [hl, if_true] at h
            by_cases hlt : s.locationCounter < 256
            · simp only [if_pos hlt] at h
              have hlk := lookupSymbol_reference r
                { s with memory := write s.memory s.locationCounter (o.code % 256) } hI.nodup
              rw [hlk] at h
              obtain ⟨h1, h2, h3, h4⟩ := storeOperand_ok h
              dsimp only at h1 h2 h3 h4
              obtain ⟨ch1, hI1⟩ :=
                reference_inv r (o.code % 256) hI hl h1
              refine ⟨ch1, ?_⟩
              rw [h2, h3, h4]
              exact hI1
            · simp only [if_neg hlt] at h
              cases h
          · simp only [hl, Bool.false_eq_true, if_false] at h
            cases hat : atoi (r :: rest) with
            | none => simp only [hat] at h; cases h
            | some v =>
              simp only [hat] at h
              by_cases hov : v ≥ 256
              · simp only [if_pos hov] at h; cases h
              · simp only [if_neg hov] at h
                by_cases hlt : s.locationCounter < 256
                · simp only [if_pos hlt] at h
                  obtain ⟨h1, h2, h3, h4⟩ := storeOperand_ok h
                  dsimp only at h1 h2 h3 h4
                  refine ⟨ch, ?_⟩
                  rw [h2, h3, h4]
                  refine hI.inv_frame ?_ (Nat.le_add_right _ _) (by omega)
                  intro a ha
                  simp only [write]
                  rw [if_neg (by omega), if_neg (by omega)]
                · simp only [if_neg hlt] at h
                  cases h
      · simp only [hop, Bool.not_false, if_true] at h
        by_cases hlt : s.locationCounter < 256
        · simp only [if_pos hlt] at h
          injection h with _ hs
          subst hs
          refine ⟨ch, hI.inv_frame ?_ (Nat.le_succ _) (Nat.succ_le_of_lt hlt)⟩
          intro a ha
          simp only [write]
          rw [if_neg (by omega)]
        · simp only [if_neg hlt] at h
          cases h

/-! ### The invariant holds in every reachable state -/

theorem Res.bind_ok {σ α β : Type} {r : Res σ α} {f : α → σ → Res σ β} {b : β} {s1 : σ}
    (h : r.bind f = Res.ok b s1) : ∃ a s0, r = Res.ok a s0 ∧ f a s0 = Res.ok b s1 := by
  cases r with
  | ok a s0 => exact ⟨a, s0, rfl, h⟩
  | fail e s0 => cases h

theorem labelled_inv (lbl opc operand : GoString) (g : M256.State → M256.State)
    (hg : ∀ st, Inv st → Inv (g st)) (s s1 : M256.State) (b : Bool) (hinv : Inv s)
    (h : ((M256.defineSymbol lbl s).bind fun _ st =>
      (M256.assembleLine opc operand st).bind fun _ st => Res.ok true (g st))
        = Res.ok b s1) : Inv s1 := by
  obtain ⟨_, s2, h1, h⟩ := Res.bind_ok h
  obtain ⟨_, s3, h2, h⟩ := Res.bind_ok h
  injection h with _ hs
  subst hs
  exact hg _ (assembleLine_inv opc operand s2 s3 (defineSymbol_inv lbl s s2 hinv h1) h2)

theorem unlabelled_inv (opc operand : GoString) (s s1 : M256.State) (b : Bool)
    (hinv : Inv s)
    (h : ((M256.assembleLine opc operand s).bind fun _ st => Res.ok true st)
        = Res.ok b s1) : Inv s1 := by
  obtain ⟨_, s2, h1, h⟩ := Res.bind_ok h
  injection h with _ hs
  subst hs
  exact assembleLine_inv opc operand s s2 hinv h1

theorem parseLine_inv (l : GoString) (s s1 : M256.State) (hinv : Inv s)
    (h : M256.parseLine l s = Res.ok () s1) : Inv s1 := by
  unfold M256.parseLine at h
  simp only at h
  obtain ⟨ok1, st1, h1, h⟩ := Res.bind_ok h
  have I1 : Inv st1 := by
    split at h1
    · refine labelled_inv _ _ _ _ ?_ s st1 ok1 hinv h1
      intro st hst
      exact hst
    · injection h1 with _ hs
      subst hs
      exact hinv
  obtain ⟨_, st2, h2, h⟩ := Res.bind_ok h
  have I2 : Inv st2 := by
    injection h2 with _ hs
    subst hs
    split
    · exact I1
    · exact I1
  obtain ⟨ok2, st3, h3, h⟩ := Res.bind_ok h
  have I3 : Inv st3 := by
    split at h3
    · refine labelled_inv _ _ _ (fun st => st) ?_ st2 st3 ok2 I2 h3
      intro st hst
      exact hst
    · injection h3 with _ hs
      subst hs
      exact I2
  obtain ⟨ok3, st4, h4, h⟩ := Res.bind_ok h
  have I4 : Inv st4 := by
    split at h4
    · exact unlabelled_inv _ _ st3 st4 ok3 I3 h4
    · injection h4 with _ hs
      subst hs
      exact I3
  obtain ⟨ok4, st5, h5, h⟩ := Res.bind_ok h
  have I5 : Inv st5 := by
    split at h5
    · exact unlabelled_inv _ _ st4 st5 ok4 I4 h5
    · injection h5 with _ hs
      subst hs
      exact I4
  split at h
  · cases h
  · injection h with _ hs
    subst hs
    exact I5

theorem init_inv : Inv M256.init :=
  ⟨fun _ => [],
    { nodup := List.nodup_nil
      letters := fun e he => by simp [M256.init] at he
      lc_le := by simp [M256.init]
      chains := fun e he => by simp [M256.init] at he
      disjoint := fun e he => by simp [M256.init] at he }⟩

theorem assemble_inv (lines : List GoString) :
    ∀ s s1 : M256.State, Inv s → M256.assemble lines s = Res.ok () s1 → Inv s1 := by
  induction lines with
  | nil =>
    intro s s1 hinv h
    injection h with _ hs
    subst hs
    exact hinv
  | cons l ls ih =>
    intro s s1 hinv h
    unfold M256.assemble at h
    cases hstep : M256.assembleStep l s with
    | ok u s2 =>
      rw [hstep] at h
      exact ih s2 s1
        (parseLine_inv l { s with line := ⟨s.locationCounter, [], [], 0, 0⟩ } s2 hinv hstep) h
    | fail e s2 =>
      rw [hstep] at h
      cases h

theorem reachable_inv (s : M256.State) (h : Reachable s) : Inv s := by
  obtain ⟨lines, hl⟩ := h
  exact assemble_inv lines M256.init s init_inv hl

/-! ### Frame of a back-patch in the byte layout (C4) -/

/-- C4: byte layout.  In every reachable state `s`, `defineSymbol` on a label
whose symbol-table entry `e` is not yet defined returns, and the memory it leaves
differs from the memory of `s` at most at the operand bytes `v + 1` of the nodes
`v` of the forward-reference chain headed by `e.value` (the nodes the loop
visits): every cell that is not such an operand byte is unchanged, in particular
the opcode byte at `v` of every node; each operand byte `v + 1` holds the
location counter.  The location counter is unchanged. -/
theorem defineSymbol_patch_frame (s : M256.State) (r : Nat) (rest : GoString)
    (e : Symbol) (hs : Reachable s)
    (hf : s.symbolTable.find? (fun x => x.name == r) = some e) (hU : e.status ≠ 'D') :
    ∃ s1, M256.defineSymbol (r :: rest) s = Res.ok () s1 ∧
      (∀ a, a ∉ (chainNodes s.memory chainFuel e.value).map (fun v => v + 1) →
        s1.memory a = s.memory a) ∧
      (∀ v ∈ chainNodes s.memory chainFuel e.value,
        s1.memory v = s.memory v ∧ s1.memory (v + 1) = s.locationCounter % 256) ∧
      s1.locationCounter = s.locationCounter := by
  obtain ⟨ch, hI⟩ := reachable_inv s hs
  obtain ⟨m1, hd, hm1⟩ := defineSymbol_undefined s r rest e hI hf hU
  obtain ⟨hmem, hname⟩ := find_mem_name hf
  have hc : IsChain s.memory s.locationCounter e.value (ch r) := by
    rw [← hname]; exact hI.chains e hmem hU
  have hlen : (ch r).length ≤ chainFuel := by
    have := hc.length_le
    have := hI.lc_le
    simp only [chainFuel]
    omega
  have hcn : chainNodes s.memory chainFuel e.value = ch r := hc.chainNodes_eq chainFuel hlen
  refine ⟨_, hd, ?_, ?_, rfl⟩
  · intro a ha
    rw [hcn] at ha
    show m1 a = s.memory a
    rw [hm1 a, if_neg ha]
  · intro v hv
    rw [hcn] at hv
    constructor
    · show m1 v = s.memory v
      have hnot : v ∉ (ch r).map (fun v => v + 1) := by
        intro hin
        obtain ⟨w, hw, hwv⟩ := List.mem_map.mp hin
        exact hc.succ_not_mem v hv w hw hwv.symm
      rw [hm1 v, if_neg hnot]
    · show m1 (v + 1) = s.locationCounter % 256
      have hin : v + 1 ∈ (ch r).map (fun v => v + 1) := List.mem_map.mpr ⟨v, hv, rfl⟩
      rw [hm1 (v + 1), if_pos hin]

/-- Witness for C4: the state after the lines `HLT` and `LOD A`, where `A` is
undefined with the chain `[1]`; defining `A` patches the cell 2 only. -/
theorem defineSymbol_patch_frame_witness :
    Reachable (M256.assemble [str "HLT", str "LOD A"] M256.init).state ∧
      chainNodes (M256.assemble [str "HLT", str "LOD A"] M256.init).state.memory
        chainFuel 1 = [1] ∧
      ∃ s1, M256.defineSymbol (str "A")
          (M256.assemble [str "HLT", str "LOD A"] M256.init).state = Res.ok () s1 ∧
        (∀ a, a ∉ (chainNodes
            (M256.assemble [str "HLT", str "LOD A"] M256.init).state.memory chainFuel
              1).map (fun v => v + 1) →
          s1.memory a =
            (M256.assemble [str "HLT", str "LOD A"] M256.init).state.memory a) ∧
        (∀ v ∈ chainNodes
            (M256.assemble [str "HLT", str "LOD A"] M256.init).state.memory chainFuel 1,
          s1.memory v =
              (M256.assemble [str "HLT", str "LOD A"] M256.init).state.memory v ∧
            s1.memory (v + 1) = 3 % 256) ∧
        s1.locationCounter = 3 :=
  ⟨⟨[str "HLT", str "LOD A"], rfl⟩, by decide,
    defineSymbol_patch_frame (M256.assemble [str "HLT", str "LOD A"] M256.init).state
      65 [] ⟨65, 1, 'U'⟩ ⟨[str "HLT", str "LOD A"], rfl⟩ rfl (by decide)⟩


/-! ### Packed word encoding (C19) and the missing-operand access (C20) -/

theorem shiftLeft_or_eq (c v : Nat) (hv : v < 1024) : c <<< 10 ||| v = c * 1024 + v := by
  have h := Nat.mul_add_lt_is_or (show v < 2 ^ 10 from hv) c
  rw [Nat.shiftLeft_eq, Nat.mul_comm c, ← h]

/-- C19: packed layout.  For every opcode `c` with `c ≤ 9` and every operand value
`v` with `v ≤ 1023`, the word `uint16(c<<10 | v)` that `assembleLine` writes has
`wordOpcode` equal to `c` and `wordOperand` equal to `v`; and every 16-bit word
`w` is `uint16(wordOpcode(w) << 10) | wordOperand(w)`. -/
theorem word_encoding_round_trip :
    (∀ c v : Nat, c ≤ 9 → v ≤ 1023 →
      M1024.wordOpcode ((c <<< 10 ||| v) % 65536) = c ∧
        M1024.wordOperand ((c <<< 10 ||| v) % 65536) = v) ∧
      (∀ w : Nat, w < 65536 →
        w = ((M1024.wordOpcode w <<< 10) % 65536) ||| M1024.wordOperand w) := by
  have hand : ∀ x : Nat, x &&& 1023 = x % 1024 := fun x =>
    Nat.and_pow_two_sub_one_eq_mod x 10
  constructor
  · intro c v hc hv
    rw [shiftLeft_or_eq c v (by omega)]
    have hlt : c * 1024 + v < 65536 := by omega
    rw [Nat.mod_eq_of_lt hlt]
    constructor
    · simp only [M1024.wordOpcode, Nat.shiftRight_eq_div_pow]
      omega
    · simp only [M1024.wordOperand, hand]
      omega
  · intro w hw
    simp only [M1024.wordOpcode, M1024.wordOperand, hand, Nat.shiftRight_eq_div_pow,
      Nat.shiftLeft_eq]
    have h1 : w / 2 ^ 10 * 2 ^ 10 < 65536 := by omega
    rw [Nat.mod_eq_of_lt h1]
    have h2 := Nat.mul_add_lt_is_or (show w % 1024 < 2 ^ 10 from by omega) (w / 2 ^ 10)
    rw [Nat.mul_comm (w / 2 ^ 10), ← h2]
    omega

/-- C20, the code at the lines `LOD` and `A LOD`: in both variants the mnemonic
takes an operand and the operand text passed for these shapes is empty, so
`assembleLine` reaches `operand[0]` on the empty text: the run ends in the
index-out-of-range failure, not in one of the reported errors. -/
theorem missing_operand_index_out_of_range :
    M256.assembleLine (str "LOD") [] M256.init = Res.fail Err.indexOutOfRange M256.init ∧
      M1024.assembleLine (str "LOD") [] M1024.init
        = Res.fail Err.indexOutOfRange M1024.init ∧
      (∃ s, M256.parseLine (str "LOD") M256.init = Res.fail Err.indexOutOfRange s) ∧
      (∃ s, M256.parseLine (str "A LOD") M256.init = Res.fail Err.indexOutOfRange s) ∧
      M1024.parse (str "LOD") M1024.init = Res.fail Err.indexOutOfRange M1024.init ∧
      (∃ s, M1024.parse (str "A LOD") M1024.init = Res.fail Err.indexOutOfRange s) :=
  ⟨rfl, rfl, ⟨_, rfl⟩, ⟨_, rfl⟩, rfl, ⟨_, rfl⟩⟩


/-! ### The four line shapes (C12) -/

theorem Res.bind_ok_unit {σ : Type} (r : Res σ Unit) :
    (r.bind fun _ st => Res.ok () st) = r := by
  cases r <;> rfl

theorem M1024.storeWord_ok {w : Nat} {st st1 : M1024.State} {u : Unit}
    (h : M1024.storeWord w st = Res.ok u st1) :
    st.locationCounter < 1024 ∧ st1.locationCounter = st.locationCounter + 1 ∧
      st1.symbolTable = st.symbolTable ∧ st1.memory = write st.memory st.locationCounter w := by
  unfold M1024.storeWord at h
  by_cases hlt : st.locationCounter < 1024
  · rw [if_pos hlt] at h
    injection h with _ hs
    subst hs
    exact ⟨hlt, rfl, rfl, rfl⟩
  · rw [if_neg hlt] at h
    cases h

theorem M1024.lookupSymbol_counter (r : Nat) (st : M1024.State) :
    (M1024.lookupSymbol r st).2.locationCounter = st.locationCounter := by
  unfold M1024.lookupSymbol
  cases lookupIn st.locationCounter r st.symbolTable with
  | none => rfl
  | some p => rfl

theorem M1024.assembleLine_ok_lc (opc operand : GoString) (s s1 : M1024.State) (u : Unit)
    (h : M1024.assembleLine opc operand s = Res.ok u s1) :
    s.locationCounter < 1024 ∧ s1.locationCounter = s.locationCounter + 1 := by
  unfold M1024.assembleLine at h
  cases hfo : findOpcode opc operand M1024.opcodes 0 0 with
  | none => rw [hfo] at h; cases h
  | some index =>
    rw [hfo] at h
    cases hg : M1024.opcodes.get? index with
    | none => simp only [hg] at h; cases h
    | some o =>
      simp only [hg] at h
      by_cases hop : o.hasOperand = true
      · simp only [hop, Bool.not_true, Bool.false_eq_true, if_false] at h
        cases operand with
        | nil => cases h
        | cons r rest =>
          simp only at h
          by_cases hl : isLetter r = true
          · simp only [hl, if_true] at h
            have := M1024.storeWord_ok h
            rw [M1024.lookupSymbol_counter] at this
            exact ⟨this.1, this.2.1⟩
          · simp only [hl, Bool.false_eq_true, if_false] at h
            cases hat : atoi (r :: rest) with
            | none => simp only [hat] at h; cases h
            | some v =>
              simp only [hat] at h
              by_cases hov : v > 512
              · simp only [if_pos hov] at h; cases h
              · simp only [if_neg hov] at h
                have := M1024.storeWord_ok h
                exact ⟨this.1, this.2.1⟩
      · simp only [hop, Bool.not_false, if_true] at h
        have := M1024.storeWord_ok h
        exact ⟨this.1, this.2.1⟩

theorem str_space : str " " = [32] := rfl

theorem M256.parseLine_LMO (l : GoString) (s : M256.State) (h : shapeLMO l) :
    M256.parseLine l s =
      (M256.defineSymbol ((tokens l).getD 0 []) s).bind fun _ st =>
      (M256.assembleLine ((tokens l).getD 1 []) ((tokens l).getD 2 []) st).bind fun _ st =>
      Res.ok () { st with line := { st.line with
        source := (tokens l).getD 1 [] ++ str " " ++ (tokens l).getD 2 [] } } := by
  have c1 : (split (trim l)).length = 3 ∧ ((split (trim l)).getD 0 []).length = 1 := h
  have c2 : ¬((split (trim l)).length = 2 ∧ ((split (trim l)).getD 0 []).length = 1) :=
    fun hc => by have := hc.1; have := c1.1; omega
  have c3 : ¬((split (trim l)).length = 2 ∧ ((split (trim l)).getD 0 []).length = 3) :=
    fun hc => by have := hc.1; have := c1.1; omega
  have c4 : ¬((split (trim l)).length = 1 ∧ ((split (trim l)).getD 0 []).length = 3) :=
    fun hc => by have := hc.1; have := c1.1; omega
  unfold M256.parseLine tokens
  simp only [if_pos c1, if_neg c2, if_neg c3, if_neg c4]
  cases hd : M256.defineSymbol ((split (trim l)).getD 0 []) s with
  | fail e s1 => rfl
  | ok u s1 =>
    simp only [Res.bind]
    cases ha : M256.assembleLine ((split (trim l)).getD 1 [])
        ((split (trim l)).getD 2 []) s1 with
    | fail e s2 => rfl
    | ok u2 s2 =>
      simp [str_space]

theorem M256.parseLine_LM (l : GoString) (s : M256.State) (h : shapeLM l) :
    M256.parseLine l s =
      (M256.defineSymbol ((tokens l).getD 0 []) (M256.withDefaultSource (trim l) s)).bind
        fun _ st => M256.assembleLine ((tokens l).getD 1 []) [] st := by
  have c2 : (split (trim l)).length = 2 ∧ ((split (trim l)).getD 0 []).length = 1 := h
  have c1 : ¬((split (trim l)).length = 3 ∧ ((split (trim l)).getD 0 []).length = 1) :=
    fun hc => by have := hc.1; have := c2.1; omega
  have c3 : ¬((split (trim l)).length = 2 ∧ ((split (trim l)).getD 0 []).length = 3) :=
    fun hc => by have := hc.2; have := c2.2; omega
  have c4 : ¬((split (trim l)).length = 1 ∧ ((split (trim l)).getD 0 []).length = 3) :=
    fun hc => by have := hc.1; have := c2.1; omega
  unfold tokens
  cases hd : M256.defineSymbol ((split (trim l)).getD 0 [])
      (M256.withDefaultSource (trim l) s) with
  | fail e s1 =>
    simp only [M256.withDefaultSource] at hd
    unfold M256.parseLine
    simp only [if_neg c1, if_pos c2, if_neg c3, if_neg c4, Res.bind, hd]
  | ok u s1 =>
    simp only [M256.withDefaultSource] at hd
    unfold M256.parseLine
    simp only [if_neg c1, if_pos c2, if_neg c3, if_neg c4, Res.bind, hd]
    cases ha : M256.assembleLine ((split (trim l)).getD 1 []) [] s1 with
    | fail e s2 => rfl
    | ok u2 s2 => rfl

theorem M256.parseLine_MO (l : GoString) (s : M256.State) (h : shapeMO l) :
    M256.parseLine l s =
      M256.assembleLine ((tokens l).getD 0 []) ((tokens l).getD 1 [])
        (M256.withDefaultSource (trim l) s) := by
  have c3 : (split (trim l)).length = 2 ∧ ((split (trim l)).getD 0 []).length = 3 := h
  have c1 : ¬((split (trim l)).length = 3 ∧ ((split (trim l)).getD 0 []).length = 1) :=
    fun hc => by have := hc.1; have := c3.1; omega
  have c2 : ¬((split (trim l)).length = 2 ∧ ((split (trim l)).getD 0 []).length = 1) :=
    fun hc => by have := hc.2; have := c3.2; omega
  have c4 : ¬((split (trim l)).length = 1 ∧ ((split (trim l)).getD 0 []).length = 3) :=
    fun hc => by have := hc.1; have := c3.1; omega
  unfold tokens
  cases ha : M256.assembleLine ((split (trim l)).getD 0 []) ((split (trim l)).getD 1 [])
      (M256.withDefaultSource (trim l) s) with
  | fail e s2 =>
    simp only [M256.withDefaultSource] at ha
    unfold M256.parseLine
    simp only [if_neg c1, if_neg c2, if_pos c3, if_neg c4, Res.bind, ha]
  | ok u2 s2 =>
    simp only [M256.withDefaultSource] at ha
    unfold M256.parseLine
    simp only [if_neg c1, if_neg c2, if_pos c3, if_neg c4, Res.bind, ha]
    rfl

theorem M256.parseLine_M (l : GoString) (s : M256.State) (h : shapeM l) :
    M256.parseLine l s =
      M256.assembleLine ((tokens l).getD 0 []) [] (M256.withDefaultSource (trim l) s) := by
  have c4 : (split (trim l)).length = 1 ∧ ((split (trim l)).getD 0 []).length = 3 := h
  have c1 : ¬((split (trim l)).length = 3 ∧ ((split (trim l)).getD 0 []).length = 1) :=
    fun hc => by have := hc.1; have := c4.1; omega
  have c2 : ¬((split (trim l)).length = 2 ∧ ((split (trim l)).getD 0 []).length = 1) :=
    fun hc => by have := hc.1; have := c4.1; omega
  have c3 : ¬((split (trim l)).length = 2 ∧ ((split (trim l)).getD 0 []).length = 3) :=
    fun hc => by have := hc.1; have := c4.1; omega
  unfold tokens
  cases ha : M256.assembleLine ((split (trim l)).getD 0 []) []
      (M256.withDefaultSource (trim l) s) with
  | fail e s2 =>
    simp only [M256.withDefaultSource] at ha
    unfold M256.parseLine
    simp only [if_neg c1, if_neg c2, if_neg c3, if_pos c4, Res.bind, ha]
  | ok u2 s2 =>
    simp only [M256.withDefaultSource] at ha
    unfold M256.parseLine
    simp only [if_neg c1, if_neg c2, if_neg c3, if_pos c4, Res.bind, ha]
    rfl

theorem M256.parseLine_none (l : GoString) (s : M256.State) (h1 : ¬ shapeLMO l)
    (h2 : ¬ shapeLM l) (h3 : ¬ shapeMO l) (h4 : ¬ shapeM l) :
    M256.parseLine l s = Res.fail Err.malformedLine (M256.withDefaultSource (trim l) s) := by
  unfold shapeLMO tokens at h1
  unfold shapeLM tokens at h2
  unfold shapeMO tokens at h3
  unfold shapeM tokens at h4
  unfold M256.parseLine M256.withDefaultSource
  simp only [if_neg h1, if_neg h2, if_neg h3, if_neg h4, Res.bind]
  rfl

theorem M1024.parse_LMO (l : GoString) (s : M1024.State) (h : shapeLMO l) :
    M1024.parse l s =
      (M1024.defineSymbol ((tokens l).getD 0 []) s).bind fun _ st =>
        M1024.assembleLine ((tokens l).getD 1 []) ((tokens l).getD 2 []) st := by
  have c1 : (split (trim l)).length = 3 ∧ ((split (trim l)).getD 0 []).length = 1 := h
  have c2 : ¬((split (trim l)).length = 2 ∧ ((split (trim l)).getD 0 []).length = 1) :=
    fun hc => by have := hc.1; have := c1.1; omega
  have c3 : ¬((split (trim l)).length = 2 ∧ ((split (trim l)).getD 0 []).length = 3) :=
    fun hc => by have := hc.1; have := c1.1; omega
  have c4 : ¬((split (trim l)).length = 1 ∧ ((split (trim l)).getD 0 []).length = 3) :=
    fun hc => by have := hc.1; have := c1.1; omega
  unfold tokens
  cases hd : M1024.defineSymbol ((split (trim l)).getD 0 []) s with
  | fail e s1 =>
    unfold M1024.parse
    simp only [if_pos c1, if_neg c2, if_neg c3, if_neg c4, Res.bind, hd]
  | ok u s1 =>
    cases ha : M1024.assembleLine ((split (trim l)).getD 1 [])
        ((split (trim l)).getD 2 []) s1 with
    | fail e s2 =>
      unfold M1024.parse
      simp only [if_pos c1, if_neg c2, if_neg c3, if_neg c4, Res.bind, hd, ha]
    | ok u2 s2 =>
      have hlc := M1024.assembleLine_ok_lc _ _ _ _ _ ha
      have hfin : 1 ≤ s2.locationCounter ∧ s2.locationCounter - 1 < 1024 := by omega
      unfold M1024.parse
      simp only [if_pos c1, if_neg c2, if_neg c3, if_neg c4, Res.bind, hd, ha]
      simp [hfin]

theorem M1024.parse_LM (l : GoString) (s : M1024.State) (h : shapeLM l) :
    M1024.parse l s =
      (M1024.defineSymbol ((tokens l).getD 0 []) s).bind fun _ st =>
        M1024.assembleLine ((tokens l).getD 1 []) [] st := by
  have c2 : (split (trim l)).length = 2 ∧ ((split (trim l)).getD 0 []).length = 1 := h
  have c1 : ¬((split (trim l)).length = 3 ∧ ((split (trim l)).getD 0 []).length = 1) :=
    fun hc => by have := hc.1; have := c2.1; omega
  have c3 : ¬((split (trim l)).length = 2 ∧ ((split (trim l)).getD 0 []).length = 3) :=
    fun hc => by have := hc.2; have := c2.2; omega
  have c4 : ¬((split (trim l)).length = 1 ∧ ((split (trim l)).getD 0 []).length = 3) :=
    fun hc => by have := hc.1; have := c2.1; omega
  unfold tokens
  cases hd : M1024.defineSymbol ((split (trim l)).getD 0 []) s with
  | fail e s1 =>
    unfold M1024.parse
    simp only [if_neg c1, if_pos c2, if_neg c3, if_neg c4, Res.bind, hd]
  | ok u s1 =>
    cases ha : M1024.assembleLine ((split (trim l)).getD 1 []) [] s1 with
    | fail e s2 =>
      unfold M1024.parse
      simp only [if_neg c1, if_pos c2, if_neg c3, if_neg c4, Res.bind, hd, ha]
    | ok u2 s2 =>
      have hlc := M1024.assembleLine_ok_lc _ _ _ _ _ ha
      have hfin : 1 ≤ s2.locationCounter ∧ s2.locationCounter - 1 < 1024 := by omega
      unfold M1024.parse
      simp only [if_neg c1, if_pos c2, if_neg c3, if_neg c4, Res.bind, hd, ha]
      simp [hfin]

theorem M1024.parse_MO (l : GoString) (s : M1024.State) (h : shapeMO l) :
    M1024.parse l s =
      M1024.assembleLine ((tokens l).getD 0 []) ((tokens l).getD 1 []) s := by
  have c3 : (split (trim l)).length = 2 ∧ ((split (trim l)).getD 0 []).length = 3 := h
  have c1 : ¬((split (trim l)).length = 3 ∧ ((split (trim l)).getD 0 []).length = 1) :=
    fun hc => by have := hc.1; have := c3.1; omega
  have c2 : ¬((split (trim l)).length = 2 ∧ ((split (trim l)).getD 0 []).length = 1) :=
    fun hc => by have := hc.2; have := c3.2; omega
  have c4 : ¬((split (trim l)).length = 1 ∧ ((split (trim l)).getD 0 []).length = 3) :=
    fun hc => by have := hc.1; have := c3.1; omega
  unfold tokens
  cases ha : M1024.assembleLine ((split (trim l)).getD 0 [])
      ((split (trim l)).getD 1 []) s with
  | fail e s2 =>
    unfold M1024.parse
    simp only [if_neg c1, if_neg c2, if_pos c3, if_neg c4, Res.bind, ha]
  | ok u2 s2 =>
    have hlc := M1024.assembleLine_ok_lc _ _ _ _ _ ha
    have hfin : 1 ≤ s2.locationCounter ∧ s2.locationCounter - 1 < 1024 := by omega
    unfold M1024.parse
    simp only [if_neg c1, if_neg c2, if_pos c3, if_neg c4, Res.bind, ha]
    simp [hfin]

theorem M1024.parse_M (l : GoString) (s : M1024.State) (h : shapeM l) :
    M1024.parse l s = M1024.assembleLine ((tokens l).getD 0 []) [] s := by
  have c4 : (split (trim l)).length = 1 ∧ ((split (trim l)).getD 0 []).length = 3 := h
  have c1 : ¬((split (trim l)).length = 3 ∧ ((split (trim l)).getD 0 []).length = 1) :=
    fun hc => by have := hc.1; have := c4.1; omega
  have c2 : ¬((split (trim l)).length = 2 ∧ ((split (trim l)).getD 0 []).length = 1) :=
    fun hc => by have := hc.1; have := c4.1; omega
  have c3 : ¬((split (trim l)).length = 2 ∧ ((split (trim l)).getD 0 []).length = 3) :=
    fun hc => by have := hc.1; have := c4.1; omega
  unfold tokens
  cases ha : M1024.assembleLine ((split (trim l)).getD 0 []) [] s with
  | fail e s2 =>
    unfold M1024.parse
    simp only [if_neg c1, if_neg c2, if_neg c3, if_pos c4, Res.bind, ha]
  | ok u2 s2 =>
    have hlc := M1024.assembleLine_ok_lc _ _ _ _ _ ha
    have hfin : 1 ≤ s2.locationCounter ∧ s2.locationCounter - 1 < 1024 := by omega
    unfold M1024.parse
    simp only [if_neg c1, if_neg c2, if_neg c3, if_pos c4, Res.bind, ha]
    simp [hfin]

theorem M1024.parse_none (l : GoString) (s : M1024.State) (h1 : ¬ shapeLMO l)
    (h2 : ¬ shapeLM l) (h3 : ¬ shapeMO l) (h4 : ¬ shapeM l) :
    M1024.parse l s = Res.fail Err.malformedLine s := by
  unfold shapeLMO tokens at h1
  unfold shapeLM tokens at h2
  unfold shapeMO tokens at h3
  unfold shapeM tokens at h4
  unfold M1024.parse
  simp only [if_neg h1, if_neg h2, if_neg h3, if_neg h4, Res.bind]
  rfl

/-- C12: for every source line, the four shape tests on the tokens of the trimmed
line are mutually exclusive.  If none holds, `parseLine` (byte variant) and
`parse` (packed variant) fail with the malformed-line error and memory, symbol
table and location counter are what they were.  If one holds, the line is
processed by one call of `assembleLine` on the tokens of that shape, preceded by
one call of `defineSymbol` on the first token exactly for the two shapes with a
label, and by nothing else that touches memory, symbol table or location
counter. -/
theorem parse_shapes (l : GoString) :
    (¬(shapeLMO l ∧ shapeLM l) ∧ ¬(shapeLMO l ∧ shapeMO l) ∧ ¬(shapeLMO l ∧ shapeM l) ∧
      ¬(shapeLM l ∧ shapeMO l) ∧ ¬(shapeLM l ∧ shapeM l) ∧ ¬(shapeMO l ∧ shapeM l)) ∧
    (¬shapeLMO l → ¬shapeLM l → ¬shapeMO l → ¬shapeM l →
      (∀ s : M256.State, ∃ s1, M256.parseLine l s = Res.fail Err.malformedLine s1 ∧
        s1.memory = s.memory ∧ s1.symbolTable = s.symbolTable ∧
        s1.locationCounter = s.locationCounter) ∧
      (∀ s : M1024.State, M1024.parse l s = Res.fail Err.malformedLine s)) ∧
    (shapeLMO l →
      (∀ s : M256.State, M256.parseLine l s =
        (M256.defineSymbol ((tokens l).getD 0 []) s).bind fun _ st =>
        (M256.assembleLine ((tokens l).getD 1 []) ((tokens l).getD 2 []) st).bind
          fun _ st => Res.ok () { st with line := { st.line with
            source := (tokens l).getD 1 [] ++ str " " ++ (tokens l).getD 2 [] } }) ∧
      (∀ s : M1024.State, M1024.parse l s =
        (M1024.defineSymbol ((tokens l).getD 0 []) s).bind fun _ st =>
          M1024.assembleLine ((tokens l).getD 1 []) ((tokens l).getD 2 []) st)) ∧
    (shapeLM l →
      (∀ s : M256.State, M256.parseLine l s =
        (M256.defineSymbol ((tokens l).getD 0 [])
          (M256.withDefaultSource (trim l) s)).bind
            fun _ st => M256.assembleLine ((tokens l).getD 1 []) [] st) ∧
      (∀ s : M1024.State, M1024.parse l s =
        (M1024.defineSymbol ((tokens l).getD 0 []) s).bind fun _ st =>
          M1024.assembleLine ((tokens l).getD 1 []) [] st)) ∧
    (shapeMO l →
      (∀ s : M256.State, M256.parseLine l s =
        M256.assembleLine ((tokens l).getD 0 []) ((tokens l).getD 1 [])
          (M256.withDefaultSource (trim l) s)) ∧
      (∀ s : M1024.State, M1024.parse l s =
        M1024.assembleLine ((tokens l).getD 0 []) ((tokens l).getD 1 []) s)) ∧
    (shapeM l →
      (∀ s : M256.State, M256.parseLine l s =
        M256.assembleLine ((tokens l).getD 0 []) [] (M256.withDefaultSource (trim l) s)) ∧
      (∀ s : M1024.State, M1024.parse l s =
        M1024.assembleLine ((tokens l).getD 0 []) [] s)) := by
  refine ⟨⟨?_, ?_, ?_, ?_, ?_, ?_⟩, ?_, ?_, ?_, ?_, ?_⟩
  · rintro ⟨a, b⟩; have := a.1; have := b.1; omega
  · rintro ⟨a, b⟩; have := a.1; have := b.1; omega
  · rintro ⟨a, b⟩; have := a.1; have := b.1; omega
  · rintro ⟨a, b⟩; have := a.2; have := b.2; omega
  · rintro ⟨a, b⟩; have := a.1; have := b.1; omega
  · rintro ⟨a, b⟩; have := a.1; have := b.1; omega
  · intro h1 h2 h3 h4
    refine ⟨fun s => ⟨_, M256.parseLine_none l s h1 h2 h3 h4, ?_, ?_, ?_⟩,
      fun s => M1024.parse_none l s h1 h2 h3 h4⟩
    · unfold M256.withDefaultSource; split <;> rfl
    · unfold M256.withDefaultSource; split <;> rfl
    · unfold M256.withDefaultSource; split <;> rfl
  · exact fun h => ⟨fun s => M256.parseLine_LMO l s h, fun s => M1024.parse_LMO l s h⟩
  · exact fun h => ⟨fun s => M256.parseLine_LM l s h, fun s => M1024.parse_LM l s h⟩
  · exact fun h => ⟨fun s => M256.parseLine_MO l s h, fun s => M1024.parse_MO l s h⟩
  · exact fun h => ⟨fun s => M256.parseLine_M l s h, fun s => M1024.parse_M l s h⟩

/-- Witness for C12: the line `A LOD B` has the first shape, and both variants
process it by `defineSymbol` on `A` followed by `assembleLine` on `LOD`, `B`. -/
theorem parse_shapes_witness :
    shapeLMO (str "A LOD B") ∧
      M1024.parse (str "A LOD B") M1024.init =
        (M1024.defineSymbol ((tokens (str "A LOD B")).getD 0 []) M1024.init).bind
          fun _ st => M1024.assembleLine ((tokens (str "A LOD B")).getD 1 [])
            ((tokens (str "A LOD B")).getD 2 []) st :=
  ⟨⟨rfl, rfl⟩, ((parse_shapes (str "A LOD B")).2.2.1 ⟨rfl, rfl⟩).2 M1024.init⟩


/-! ### The symbol table along the steps (C17) -/

theorem lookupIn_names (lc r : Nat) (t : List Symbol) (v : Nat) (t1 : List Symbol)
    (h : lookupIn lc r t = some (v, t1)) : t1.map Symbol.name = t.map Symbol.name := by
  induction t generalizing v t1 with
  | nil => simp [lookupIn] at h
  | cons e es ih =>
    by_cases he : e.name = r
    · by_cases hd : e.status = 'D'
      · simp [lookupIn, he, hd] at h
        rw [← h.2]
      · simp [lookupIn, he, hd] at h
        rw [← h.2]
        simp [he]
    · rw [lookupIn, if_neg he] at h
      cases hl : lookupIn lc r es with
      | none => rw [hl] at h; cases h
      | some p =>
        obtain ⟨v1, es1⟩ := p
        rw [hl] at h
        simp only [Option.some.injEq, Prod.mk.injEq] at h
        rw [← h.2]
        simp [ih v1 es1 hl]

theorem lookupIn_defined (lc r : Nat) (t : List Symbol) (v : Nat) (t1 : List Symbol)
    (h : lookupIn lc r t = some (v, t1)) : ∀ e ∈ t, e.status = 'D' → e ∈ t1 := by
  induction t generalizing v t1 with
  | nil => simp [lookupIn] at h
  | cons e es ih =>
    intro x hx hxd
    by_cases he : e.name = r
    · by_cases hd : e.status = 'D'
      · simp [lookupIn, he, hd] at h
        rw [← h.2]; exact hx
      · simp [lookupIn, he, hd] at h
        rw [← h.2]
        rcases List.mem_cons.mp hx with hx | hx
        · rw [hx] at hxd; exact absurd hxd hd
        · exact List.mem_cons_of_mem _ hx
    · rw [lookupIn, if_neg he] at h
      cases hl : lookupIn lc r es with
      | none => rw [hl] at h; cases h
      | some p =>
        obtain ⟨v1, es1⟩ := p
        rw [hl] at h
        simp only [Option.some.injEq, Prod.mk.injEq] at h
        rw [← h.2]
        rcases List.mem_cons.mp hx with hx | hx
        · rw [hx]; exact List.mem_cons_self _ _
        · exact List.mem_cons_of_mem _ (ih v1 es1 hl x hx hxd)

theorem lookupIn_none (lc r : Nat) (t : List Symbol) (h : lookupIn lc r t = none) :
    ∀ e ∈ t, e.name ≠ r := by
  induction t with
  | nil => intro e he; simp at he
  | cons e es ih =>
    by_cases he : e.name = r
    · by_cases hd : e.status = 'D'
      · simp [lookupIn, he, hd] at h
      · simp [lookupIn, he, hd] at h
    · rw [lookupIn, if_neg he] at h
      cases hl : lookupIn lc r es with
      | none =>
        intro x hx
        rcases List.mem_cons.mp hx with hx | hx
        · rw [hx]; exact he
        · exact ih hl x hx
      | some p =>
        obtain ⟨v1, es1⟩ := p
        rw [hl] at h; cases h

theorem defineIn_names (lc r : Nat) (t : List Symbol) (v : Nat) (t1 : List Symbol)
    (h : defineIn lc r t = some (Sum.inr (v, t1))) :
    t1.map Symbol.name = t.map Symbol.name := by
  induction t generalizing v t1 with
  | nil => simp [defineIn] at h
  | cons e es ih =>
    by_cases he : e.name = r
    · by_cases hd : e.status = 'D'
      · simp [defineIn, he, hd] at h
      · simp [defineIn, he, hd] at h
        rw [← h.2]
        simp [he]
    · rw [defineIn, if_neg he] at h
      cases hl : defineIn lc r es with
      | none => rw [hl] at h; cases h
      | some p =>
        cases p with
        | inl u => rw [hl] at h; cases h
        | inr q =>
          obtain ⟨v1, es1⟩ := q
          rw [hl] at h
          simp only [Option.some.injEq, Sum.inr.injEq, Prod.mk.injEq] at h
          rw [← h.2]
          simp [ih v1 es1 hl]

theorem defineIn_entry (lc r : Nat) (t : List Symbol) (v : Nat) (t1 : List Symbol)
    (h : defineIn lc r t = some (Sum.inr (v, t1))) :
    (⟨r, lc, 'D'⟩ : Symbol) ∈ t1 ∧ ∀ e ∈ t, e.status = 'D' → e ∈ t1 := by
  induction t generalizing v t1 with
  | nil => simp [defineIn] at h
  | cons e es ih =>
    by_cases he : e.name = r
    · by_cases hd : e.status = 'D'
      · simp [defineIn, he, hd] at h
      · simp [defineIn, he, hd] at h
        rw [← h.2]
        refine ⟨List.mem_cons_self _ _, ?_⟩
        intro x hx hxd
        rcases List.mem_cons.mp hx with hx | hx
        · rw [hx] at hxd; exact absurd hxd hd
        · exact List.mem_cons_of_mem _ hx
    · rw [defineIn, if_neg he] at h
      cases hl : defineIn lc r es with
      | none => rw [hl] at h; cases h
      | some p =>
        cases p with
        | inl u => rw [hl] at h; cases h
        | inr q =>
          obtain ⟨v1, es1⟩ := q
          rw [hl] at h
          simp only [Option.some.injEq, Sum.inr.injEq, Prod.mk.injEq] at h
          rw [← h.2]
          obtain ⟨i1, i2⟩ := ih v1 es1 hl
          refine ⟨List.mem_cons_of_mem _ i1, ?_⟩
          intro x hx hxd
          rcases List.mem_cons.mp hx with hx | hx
          · rw [hx]; exact List.mem_cons_self _ _
          · exact List.mem_cons_of_mem _ (i2 x hx hxd)

theorem defineIn_none (lc r : Nat) (t : List Symbol) (h : defineIn lc r t = none) :
    ∀ e ∈ t, e.name ≠ r := by
  induction t with
  | nil => intro e he; simp at he
  | cons e es ih =>
    by_cases he : e.name = r
    · by_cases hd : e.status = 'D'
      · simp [defineIn, he, hd] at h
      · simp [defineIn, he, hd] at h
    · rw [defineIn, if_neg he] at h
      cases hl : defineIn lc r es with
      | none =>
        intro x hx
        rcases List.mem_cons.mp hx with hx | hx
        · rw [hx]; exact he
        · exact ih hl x hx
      | some p =>
        cases p with
        | inl u => rw [hl] at h; cases h
        | inr q =>
          obtain ⟨v1, es1⟩ := q
          rw [hl] at h; cases h

theorem TableStep.same {t t1 : List Symbol} (hn : (t.map Symbol.name).Nodup)
    (h1 : t1.map Symbol.name = t.map Symbol.name)
    (h2 : ∀ e ∈ t, e.status = 'D' → e ∈ t1) : TableStep t t1 :=
  ⟨by rw [h1]; exact hn, ⟨[], by rw [h1, List.append_nil]⟩, h2⟩

theorem TableStep.refl_step {t : List Symbol} (hn : (t.map Symbol.name).Nodup) :
    TableStep t t :=
  TableStep.same hn rfl (fun _ he _ => he)

theorem TableStep.append_new {t : List Symbol} (hn : (t.map Symbol.name).Nodup)
    (x : Symbol) (hx : ∀ e ∈ t, e.name ≠ x.name) : TableStep t (t ++ [x]) := by
  refine ⟨?_, ⟨[x.name], by simp⟩, fun e he _ => List.mem_append_left _ he⟩
  simp only [List.map_append, List.map_cons, List.map_nil]
  refine List.Nodup.append hn (List.nodup_singleton _) ?_
  intro n hn1 hn2
  obtain ⟨y, hy, hyn⟩ := List.mem_map.mp hn1
  have : n = x.name := by simpa using hn2
  exact hx y hy (by rw [hyn, this])

theorem TableStep.trans_step {t t1 t2 : List Symbol} (h1 : TableStep t t1)
    (h2 : TableStep t1 t2) : TableStep t t2 := by
  obtain ⟨_, ⟨x1, e1⟩, d1⟩ := h1
  obtain ⟨n2, ⟨x2, e2⟩, d2⟩ := h2
  refine ⟨n2, ⟨x1 ++ x2, by rw [e2, e1, List.append_assoc]⟩, ?_⟩
  intro e he hd
  exact d2 e (d1 e he hd) hd

/-! ### What a successful `defineSymbol` and `assembleLine` do (byte layout) -/

theorem M256.lookupSymbol_mem (r : Nat) (s : M256.State) (m : Memory) :
    M256.lookupSymbol r { s with memory := m } =
      ((M256.lookupSymbol r s).1, { (M256.lookupSymbol r s).2 with memory := m }) := by
  unfold M256.lookupSymbol
  cases lookupIn s.locationCounter r s.symbolTable with
  | none => rfl
  | some p => rfl

theorem M256.lookupSymbol_lc (r : Nat) (s : M256.State) :
    (M256.lookupSymbol r s).2.locationCounter = s.locationCounter ∧
      (M256.lookupSymbol r s).2.memory = s.memory := by
  unfold M256.lookupSymbol
  cases lookupIn s.locationCounter r s.symbolTable with
  | none => exact ⟨rfl, rfl⟩
  | some p => exact ⟨rfl, rfl⟩

theorem M256.defineSymbol_ok_cases {r : Nat} {rest : GoString} {s s1 : M256.State}
    {u : Unit} (h : M256.defineSymbol (r :: rest) s = Res.ok u s1) :
    isLetter r = true ∧ s1.locationCounter = s.locationCounter ∧
      ((defineIn s.locationCounter r s.symbolTable = none ∧
          s1.symbolTable = s.symbolTable ++ [⟨r, s.locationCounter, 'D'⟩] ∧
          s1.memory = s.memory) ∨
        (∃ v tbl, defineIn s.locationCounter r s.symbolTable = some (Sum.inr (v, tbl)) ∧
          s1.symbolTable = tbl ∧
          M256.patch s.locationCounter chainFuel s.memory v = Sum.inl s1.memory)) := by
  unfold M256.defineSymbol at h
  by_cases hl : isLetter r = true
  · simp only [hl, Bool.not_true, Bool.false_eq_true, if_false] at h
    cases hd : defineIn s.locationCounter r s.symbolTable with
    | none =>
      simp only [hd] at h
      injection h with _ hs
      subst hs
      exact ⟨hl, rfl, Or.inl ⟨rfl, rfl, rfl⟩⟩
    | some p =>
      cases p with
      | inl u => simp only [hd] at h; cases h
      | inr q =>
        obtain ⟨v, tbl⟩ := q
        simp only [hd] at h
        cases hp : M256.patch s.locationCounter chainFuel s.memory v with
        | inl m =>
          simp only [hp] at h
          injection h with _ hs
          subst hs
          exact ⟨hl, rfl, Or.inr ⟨v, tbl, rfl, rfl, hp⟩⟩
        | inr em =>
          simp only [hp] at h
          cases h
  · simp only [hl, Bool.not_false, if_true] at h
    cases h

theorem M256.assembleLine_ok_cases {opc operand : GoString} {s s1 : M256.State} {u : Unit}
    (h : M256.assembleLine opc operand s = Res.ok u s1) :
    ∃ index o, findOpcode opc operand M256.opcodes 0 0 = some index ∧
      M256.opcodes.get? index = some o ∧ s.locationCounter < 256 ∧
      ((o.hasOperand = false ∧ s1.symbolTable = s.symbolTable ∧
          s1.memory = write s.memory s.locationCounter (o.code % 256) ∧
          s1.locationCounter = s.locationCounter + 1) ∨
        (o.hasOperand = true ∧ s.locationCounter + 1 < 256 ∧
          s1.locationCounter = s.locationCounter + 2 ∧
          ((∃ r rest, operand = r :: rest ∧ isLetter r = true ∧
              s1.symbolTable = (M256.lookupSymbol r s).2.symbolTable ∧
              s1.memory = write (write s.memory s.locationCounter (o.code % 256))
                (s.locationCounter + 1) ((M256.lookupSymbol r s).1 % 256)) ∨
            (∃ v : Int, atoi operand = some v ∧ v < 256 ∧
              s1.symbolTable = s.symbolTable ∧
              s1.memory = write (write s.memory s.locationCounter (o.code % 256))
                (s.locationCounter + 1) (v % 256).toNat)))) := by
  unfold M256.assembleLine at h
  cases hfo : findOpcode opc operand M256.opcodes 0 0 with
  | none => rw [hfo] at h; cases h
  | some index =>
    rw [hfo] at h
    cases hg : M256.opcodes.get? index with
    | none => simp only [hg] at h; cases h
    | some o =>
      simp only [hg] at h
      refine ⟨index, o, rfl, hg, ?_⟩
      by_cases hop : o.hasOperand = true
      · simp only [hop, Bool.not_true, Bool.false_eq_true, if_false] at h
        cases operand with
        | nil => cases h
        | cons r rest =>
          simp only at h
          by_cases hl : isLetter r = true
          · simp only [hl, if_true] at h
            by_cases hlt : s.locationCounter < 256
            · simp only [if_pos hlt] at h
              rw [M256.lookupSymbol_mem] at h
              obtain ⟨h1, h2, h3, h4⟩ := storeOperand_ok h
              dsimp only at h1 h2 h3 h4
              have hlk := M256.lookupSymbol_lc r s
              rw [hlk.1] at h1 h3 h4
              refine ⟨hlt, Or.inr ⟨hop, h1, h4, Or.inl ⟨r, rest, rfl, hl, h2, h3⟩⟩⟩
            · simp only [if_neg hlt] at h
              cases h
          · simp only [hl, Bool.false_eq_true, if_false] at h
            cases hat : atoi (r :: rest) with
            | none => simp only [hat] at h; cases h
            | some v =>
              simp only [hat] at h
              by_cases hov : v ≥ 256
              · simp only [if_pos hov] at h; cases h
              · simp only [if_neg hov] at h
                by_cases hlt : s.locationCounter < 256
                · simp only [if_pos hlt] at h
                  obtain ⟨h1, h2, h3, h4⟩ := storeOperand_ok h
                  dsimp only at h1 h2 h3 h4
                  exact ⟨hlt, Or.inr ⟨hop, h1, h4,
                    Or.inr ⟨v, rfl, by omega, h2, h3⟩⟩⟩
                · simp only [if_neg hlt] at h
                  cases h
      · simp only [hop, Bool.not_false, if_true] at h
        by_cases hlt : s.locationCounter < 256
        · simp only [if_pos hlt] at h
          injection h with _ hs
          subst hs
          exact ⟨hlt, Or.inl ⟨by simpa using hop, rfl, rfl, rfl⟩⟩
        · simp only [if_neg hlt] at h
          cases h

theorem M256.withDefaultSource_core (src : GoString) (s : M256.State) :
    (M256.withDefaultSource src s).symbolTable = s.symbolTable ∧
      (M256.withDefaultSource src s).memory = s.memory ∧
      (M256.withDefaultSource src s).locationCounter = s.locationCounter := by
  unfold M256.withDefaultSource
  split <;> exact ⟨rfl, rfl, rfl⟩

theorem defineSymbol_tableStep (lbl : GoString) (s s1 : M256.State) (u : Unit)
    (hn : (s.symbolTable.map Symbol.name).Nodup)
    (h : M256.defineSymbol lbl s = Res.ok u s1) :
    TableStep s.symbolTable s1.symbolTable := by
  cases lbl with
  | nil => simp [M256.defineSymbol] at h
  | cons r rest =>
    obtain ⟨_, _, hc⟩ := M256.defineSymbol_ok_cases h
    rcases hc with ⟨hd, ht, _⟩ | ⟨v, tbl, hd, ht, _⟩
    · rw [ht]
      exact TableStep.append_new hn _ (defineIn_none _ _ _ hd)
    · rw [ht]
      exact TableStep.same hn (defineIn_names _ _ _ _ _ hd) (defineIn_entry _ _ _ _ _ hd).2

theorem lookupSymbol_tableStep (r : Nat) (s : M256.State)
    (hn : (s.symbolTable.map Symbol.name).Nodup) :
    TableStep s.symbolTable (M256.lookupSymbol r s).2.symbolTable := by
  unfold M256.lookupSymbol
  cases hl : lookupIn s.locationCounter r s.symbolTable with
  | none => exact TableStep.append_new hn _ (lookupIn_none _ _ _ hl)
  | some p =>
    obtain ⟨v, tbl⟩ := p
    exact TableStep.same hn (lookupIn_names _ _ _ _ _ hl) (lookupIn_defined _ _ _ _ _ hl)

theorem assembleLine_tableStep (opc operand : GoString) (s s1 : M256.State) (u : Unit)
    (hn : (s.symbolTable.map Symbol.name).Nodup)
    (h : M256.assembleLine opc operand s = Res.ok u s1) :
    TableStep s.symbolTable s1.symbolTable := by
  obtain ⟨index, o, _, _, _, hc⟩ := M256.assembleLine_ok_cases h
  rcases hc with ⟨_, ht, _⟩ | ⟨_, _, _, ⟨r, rest, _, _, ht, _⟩ | ⟨v, _, _, ht, _⟩⟩
  · rw [ht]; exact TableStep.refl_step hn
  · rw [ht]; exact lookupSymbol_tableStep r s hn
  · rw [ht]; exact TableStep.refl_step hn

theorem parseLine_tableStep (l : GoString) (s s1 : M256.State) (u : Unit)
    (hn : (s.symbolTable.map Symbol.name).Nodup)
    (h : M256.parseLine l s = Res.ok u s1) :
    TableStep s.symbolTable s1.symbolTable := by
  have hw := M256.withDefaultSource_core (trim l) s
  have hnw : ((M256.withDefaultSource (trim l) s).symbolTable.map Symbol.name).Nodup := by
    rw [hw.1]; exact hn
  by_cases h1 : shapeLMO l
  · rw [M256.parseLine_LMO l s h1] at h
    obtain ⟨_, s2, hd, h⟩ := Res.bind_ok h
    obtain ⟨_, s3, ha, h⟩ := Res.bind_ok h
    injection h with _ hs
    subst hs
    have t1 := defineSymbol_tableStep _ s s2 _ hn hd
    exact t1.trans_step (assembleLine_tableStep _ _ s2 s3 _ t1.1 ha)
  · by_cases h2 : shapeLM l
    · rw [M256.parseLine_LM l s h2] at h
      obtain ⟨_, s2, hd, ha⟩ := Res.bind_ok h
      have t1 := defineSymbol_tableStep _ _ s2 _ hnw hd
      have t2 := t1.trans_step (assembleLine_tableStep _ _ s2 s1 _ t1.1 ha)
      rw [hw.1] at t2
      exact t2
    · by_cases h3 : shapeMO l
      · rw [M256.parseLine_MO l s h3] at h
        have t2 := assembleLine_tableStep _ _ _ s1 _ hnw h
        rw [hw.1] at t2
        exact t2
      · by_cases h4 : shapeM l
        · rw [M256.parseLine_M l s h4] at h
          have t2 := assembleLine_tableStep _ _ _ s1 _ hnw h
          rw [hw.1] at t2
          exact t2
        · rw [M256.parseLine_none l s h1 h2 h3 h4] at h
          cases h

theorem assemble_tableStep (lines : List GoString) :
    ∀ (s s1 : M256.State) (u : Unit), (s.symbolTable.map Symbol.name).Nodup →
      M256.assemble lines s = Res.ok u s1 → TableStep s.symbolTable s1.symbolTable := by
  induction lines with
  | nil =>
    intro s s1 u hn h
    injection h with _ hs
    subst hs
    exact TableStep.refl_step hn
  | cons l ls ih =>
    intro s s1 u hn h
    unfold M256.assemble at h
    cases hstep : M256.assembleStep l s with
    | ok u2 s2 =>
      rw [hstep] at h
      have t1 : TableStep s.symbolTable s2.symbolTable :=
        parseLine_tableStep l { s with line := ⟨s.locationCounter, [], [], 0, 0⟩ } s2 u2 hn
          hstep
      exact t1.trans_step (ih s2 s1 u t1.1 h)
    | fail e s2 =>
      rw [hstep] at h
      cases h

/-- C17: byte layout.  From a state whose symbol table has pairwise distinct
names (as the empty table has), every successful step, `defineSymbol`,
`lookupSymbol`, `assembleLine`, a whole line and a whole run, leaves a table
with pairwise distinct names that keeps the names of all earlier entries in
their order (none is removed) and in which every entry defined before the step is
still present unchanged, defined at the same address. -/
theorem symbol_table_steps (s : M256.State)
    (hn : (s.symbolTable.map Symbol.name).Nodup) :
    (∀ lbl s1, M256.defineSymbol lbl s = Res.ok () s1 →
        TableStep s.symbolTable s1.symbolTable) ∧
      (∀ r, TableStep s.symbolTable (M256.lookupSymbol r s).2.symbolTable) ∧
      (∀ opc operand s1, M256.assembleLine opc operand s = Res.ok () s1 →
        TableStep s.symbolTable s1.symbolTable) ∧
      (∀ l s1, M256.parseLine l s = Res.ok () s1 →
        TableStep s.symbolTable s1.symbolTable) ∧
      (∀ lines s1, M256.assemble lines s = Res.ok () s1 →
        TableStep s.symbolTable s1.symbolTable) :=
  ⟨fun lbl s1 h => defineSymbol_tableStep lbl s s1 () hn h,
    fun r => lookupSymbol_tableStep r s hn,
    fun opc operand s1 h => assembleLine_tableStep opc operand s s1 () hn h,
    fun l s1 h => parseLine_tableStep l s s1 () hn h,
    fun lines s1 h => assemble_tableStep lines s s1 () hn h⟩

/-- Witness for C17: the steps from the initial state, whose table is empty. -/
theorem symbol_table_steps_witness :
    (M256.init.symbolTable.map Symbol.name).Nodup ∧
      ∀ lines s1, M256.assemble lines M256.init = Res.ok () s1 →
        TableStep M256.init.symbolTable s1.symbolTable :=
  ⟨List.nodup_nil, (symbol_table_steps M256.init List.nodup_nil).2.2.2.2⟩


/-! ### One assembled line: label, opcode and location counter (C13, C14) -/

theorem findOpcode_entry (o : Opcode) (ho : o ∈ M256.opcodes) (operand : GoString)
    (index : Nat) (h : findOpcode o.mnemonic operand M256.opcodes 0 0 = some index) :
    M256.opcodes.get? index = some o ∧ o.code % 256 = o.code := by
  by_cases hop : o.hasOperand = true
  · obtain ⟨h1, h2, h3⟩ := findOpcode_hasOperand o ho hop operand
    rw [h1] at h
    injection h with h
    rw [← h]
    exact ⟨h2, h3⟩
  · simp only [M256.opcodes, List.mem_cons, List.mem_singleton, List.not_mem_nil,
      or_false] at ho
    rcases ho with h0 | h0 | h0 | h0 | h0 | h0 | h0 | h0 | h0 | h0 <;> subst h0 <;>
      first
      | exact absurd rfl hop
      | (cases operand with
          | nil =>
            have h1 : some _ = some index := h
            injection h1 with h1
            rw [← h1]
            exact ⟨rfl, rfl⟩
          | cons c cs => exact absurd h (by simp [findOpcode, M256.opcodes, str, utf8Encode]))

theorem M256.lookupSymbol_keeps (r : Nat) (s : M256.State) :
    ∀ e ∈ s.symbolTable, e.status = 'D' → e ∈ (M256.lookupSymbol r s).2.symbolTable := by
  intro e he hd
  unfold M256.lookupSymbol
  cases hl : lookupIn s.locationCounter r s.symbolTable with
  | none => exact List.mem_append_left _ he
  | some p =>
    obtain ⟨v, tbl⟩ := p
    exact lookupIn_defined _ _ _ _ _ hl e he hd

theorem M256.assembleLine_keeps {opc operand : GoString} {s s1 : M256.State} {u : Unit}
    (h : M256.assembleLine opc operand s = Res.ok u s1) :
    ∀ e ∈ s.symbolTable, e.status = 'D' → e ∈ s1.symbolTable := by
  intro e he hd
  obtain ⟨index, o, _, _, _, hc⟩ := M256.assembleLine_ok_cases h
  rcases hc with ⟨_, ht, _⟩ | ⟨_, _, _, ⟨r, rest, _, _, ht, _⟩ | ⟨v, _, _, ht, _⟩⟩
  · rw [ht]; exact he
  · rw [ht]; exact M256.lookupSymbol_keeps r s e he hd
  · rw [ht]; exact he

theorem M256.parseLine_ok_cases {l : GoString} {s s1 : M256.State} {u : Unit}
    (h : M256.parseLine l s = Res.ok u s1) :
    ∃ sa sb operand, M256.assembleLine (lineMnemonic l) operand sa = Res.ok () sb ∧
      sb.symbolTable = s1.symbolTable ∧ sb.memory = s1.memory ∧
      sb.locationCounter = s1.locationCounter ∧
      (((shapeLMO l ∨ shapeLM l) ∧ ∃ sd, sd.symbolTable = s.symbolTable ∧
          sd.memory = s.memory ∧ sd.locationCounter = s.locationCounter ∧
          M256.defineSymbol ((tokens l).getD 0 []) sd = Res.ok () sa) ∨
        ((shapeMO l ∨ shapeM l) ∧ sa.symbolTable = s.symbolTable ∧
          sa.memory = s.memory ∧ sa.locationCounter = s.locationCounter)) := by
  have hw := M256.withDefaultSource_core (trim l) s
  by_cases h1 : shapeLMO l
  · have hm : lineMnemonic l = (tokens l).getD 1 [] := by
      unfold lineMnemonic; rw [if_pos h1.2]
    rw [M256.parseLine_LMO l s h1] at h
    obtain ⟨_, s2, hd, h⟩ := Res.bind_ok h
    obtain ⟨_, s3, ha, h⟩ := Res.bind_ok h
    injection h with _ hs
    subst hs
    rw [← hm] at ha
    exact ⟨s2, s3, _, ha, rfl, rfl, rfl, Or.inl ⟨Or.inl h1, s, rfl, rfl, rfl, hd⟩⟩
  · by_cases h2 : shapeLM l
    · have hm : lineMnemonic l = (tokens l).getD 1 [] := by
        unfold lineMnemonic; rw [if_pos h2.2]
      rw [M256.parseLine_LM l s h2] at h
      obtain ⟨_, s2, hd, ha⟩ := Res.bind_ok h
      rw [← hm] at ha
      exact ⟨s2, s1, _, ha, rfl, rfl, rfl,
        Or.inl ⟨Or.inr h2, _, hw.1, hw.2.1, hw.2.2, hd⟩⟩
    · by_cases h3 : shapeMO l
      · have hm : lineMnemonic l = (tokens l).getD 0 [] := by
          unfold lineMnemonic; rw [if_neg (by rw [h3.2]; decide)]
        rw [M256.parseLine_MO l s h3, ← hm] at h
        exact ⟨_, s1, _, h, rfl, rfl, rfl, Or.inr ⟨Or.inl h3, hw.1, hw.2.1, hw.2.2⟩⟩
      · by_cases h4 : shapeM l
        · have hm : lineMnemonic l = (tokens l).getD 0 [] := by
            unfold lineMnemonic; rw [if_neg (by rw [h4.2]; decide)]
          rw [M256.parseLine_M l s h4, ← hm] at h
          exact ⟨_, s1, _, h, rfl, rfl, rfl, Or.inr ⟨Or.inr h4, hw.1, hw.2.1, hw.2.2⟩⟩
        · rw [M256.parseLine_none l s h1 h2 h3 h4] at h
          cases h

theorem M256.assembleLine_opcode_cell {opc operand : GoString} {s s1 : M256.State}
    {u : Unit} (h : M256.assembleLine opc operand s = Res.ok u s1) :
    ∃ index o, findOpcode opc operand M256.opcodes 0 0 = some index ∧
      M256.opcodes.get? index = some o ∧ s1.memory s.locationCounter = o.code % 256 ∧
      s1.locationCounter = s.locationCounter + (if o.hasOperand then 2 else 1) ∧
      s1.locationCounter ≤ 256 := by
  obtain ⟨index, o, hf, hg, hlt, hc⟩ := M256.assembleLine_ok_cases h
  refine ⟨index, o, hf, hg, ?_⟩
  rcases hc with ⟨hop, _, hm, hlc⟩ |
    ⟨hop, h1, hlc, ⟨r, rest, _, _, _, hm⟩ | ⟨v, _, _, _, hm⟩⟩
  · rw [hm, hlc, hop]
    exact ⟨by simp [write], by simp, by omega⟩
  · rw [hm, hlc, hop]
    exact ⟨by simp [write], by simp, by omega⟩
  · rw [hm, hlc, hop]
    exact ⟨by simp [write], by simp, by omega⟩

theorem M256.defineSymbol_state_lc (lbl : GoString) (s : M256.State) :
    (M256.defineSymbol lbl s).state.locationCounter = s.locationCounter := by
  unfold M256.defineSymbol
  cases lbl with
  | nil => rfl
  | cons r rest =>
    simp only
    split
    · rfl
    · split
      · rfl
      · split <;> rfl
      · rfl

/-- C13: byte layout.  For every line with a label (first or second shape) that
assembles successfully from a state with location counter `c`: the first token is
one byte `r`, the resulting symbol table holds the entry `(r, c, D)`, and
`memory[c]` is the opcode of the table entry that `assembleLine` selected for
the mnemonic token; for a mnemonic of the table it is that mnemonic's opcode. -/
theorem labelled_line_defines (l : GoString) (s s1 : M256.State)
    (hl : shapeLMO l ∨ shapeLM l) (h : M256.parseLine l s = Res.ok () s1) :
    (∃ r, (tokens l).getD 0 [] = [r] ∧
        (⟨r, s.locationCounter, 'D'⟩ : Symbol) ∈ s1.symbolTable) ∧
      (∃ operand index o, findOpcode (lineMnemonic l) operand M256.opcodes 0 0 = some index ∧
        M256.opcodes.get? index = some o ∧ s1.memory s.locationCounter = o.code) ∧
      (∀ o ∈ M256.opcodes, o.mnemonic = lineMnemonic l →
        s1.memory s.locationCounter = o.code) := by
  obtain ⟨sa, sb, operand, ha, ht, hm, hlc, hc⟩ := M256.parseLine_ok_cases h
  have hlen : ((tokens l).getD 0 []).length = 1 := by
    rcases hl with h1 | h1
    · exact h1.2
    · exact h1.2
  rcases hc with ⟨_, sd, hdt, hdm, hdl, hd⟩ | ⟨hsh, _⟩
  · obtain ⟨r, hr⟩ : ∃ r, (tokens l).getD 0 [] = [r] := by
      cases hq : (tokens l).getD 0 [] with
      | nil => rw [hq] at hlen; simp at hlen
      | cons r rest =>
        cases rest with
        | nil => exact ⟨r, rfl⟩
        | cons r2 rest2 => rw [hq] at hlen; simp at hlen
    rw [hr] at hd
    obtain ⟨_, hsalc, hdc⟩ := M256.defineSymbol_ok_cases hd
    have hentry : (⟨r, s.locationCounter, 'D'⟩ : Symbol) ∈ sa.symbolTable := by
      rcases hdc with ⟨_, htb, _⟩ | ⟨v, tbl, hdi, htb, _⟩
      · rw [htb, hdl]; simp
      · rw [htb, ← hdl]; exact (defineIn_entry _ _ _ _ _ hdi).1
    obtain ⟨index, o, hf, hg, hcell, _, _⟩ := M256.assembleLine_opcode_cell ha
    have hsa : sa.locationCounter = s.locationCounter := by rw [hsalc, hdl]
    have hcode : o.code % 256 = o.code := by
      have ho : o ∈ M256.opcodes := List.get?_mem hg
      simp only [M256.opcodes, List.mem_cons, List.mem_singleton, List.not_mem_nil,
        or_false] at ho
      rcases ho with h0 | h0 | h0 | h0 | h0 | h0 | h0 | h0 | h0 | h0 <;> subst h0 <;> rfl
    refine ⟨⟨r, hr, ?_⟩, ⟨operand, index, o, hf, hg, ?_⟩, ?_⟩
    · rw [← ht]
      exact M256.assembleLine_keeps ha _ hentry rfl
    · rw [← hm, ← hsa, hcell, hcode]
    · intro o1 ho1 hmn
      rw [← hmn] at hf
      obtain ⟨hg1, hc1⟩ := findOpcode_entry o1 ho1 operand index hf
      rw [hg] at hg1
      injection hg1 with hg1
      rw [← hm, ← hsa, hcell, hg1, hc1]
  · exfalso
    rcases hl with h1 | h1 <;> rcases hsh with h2 | h2
    · have := h1.1; have := h2.1; omega
    · have := h1.1; have := h2.1; omega
    · have := h1.2; have := h2.2; omega
    · have := h1.1; have := h2.1; omega

/-- Witness for C13: the line `A LOD 5` at the initial state. -/
theorem labelled_line_defines_witness :
    ∃ s1, M256.parseLine (str "A LOD 5") M256.init = Res.ok () s1 ∧
      (∃ r, (tokens (str "A LOD 5")).getD 0 [] = [r] ∧
        (⟨r, M256.init.locationCounter, 'D'⟩ : Symbol) ∈ s1.symbolTable) ∧
      (∀ o ∈ M256.opcodes, o.mnemonic = lineMnemonic (str "A LOD 5") →
        s1.memory M256.init.locationCounter = o.code) :=
  ⟨(M256.parseLine (str "A LOD 5") M256.init).state, rfl,
    (labelled_line_defines (str "A LOD 5") M256.init
      (M256.parseLine (str "A LOD 5") M256.init).state (Or.inl ⟨rfl, rfl⟩) rfl).1,
    (labelled_line_defines (str "A LOD 5") M256.init
      (M256.parseLine (str "A LOD 5") M256.init).state (Or.inl ⟨rfl, rfl⟩) rfl).2.2⟩

theorem M256.parseLine_advance {l : GoString} {s s1 : M256.State} {u : Unit}
    (h : M256.parseLine l s = Res.ok u s1) :
    ∃ operand index o, findOpcode (lineMnemonic l) operand M256.opcodes 0 0 = some index ∧
      M256.opcodes.get? index = some o ∧
      s1.locationCounter = s.locationCounter + (if o.hasOperand then 2 else 1) ∧
      s1.locationCounter ≤ 256 := by
  obtain ⟨sa, sb, operand, ha, _, _, hlc, hc⟩ := M256.parseLine_ok_cases h
  obtain ⟨index, o, hf, hg, _, hadv, hle⟩ := M256.assembleLine_opcode_cell ha
  have hsa : sa.locationCounter = s.locationCounter := by
    rcases hc with ⟨_, sd, _, _, hdl, hd⟩ | ⟨_, _, _, hl⟩
    · have := M256.defineSymbol_state_lc ((tokens l).getD 0 []) sd
      rw [hd] at this
      exact this.trans hdl
    · exact hl
  exact ⟨operand, index, o, hf, hg, by rw [← hlc, hadv, hsa], by rw [← hlc]; exact hle⟩

theorem M256.assemble_lc_le (lines : List GoString) :
    ∀ (t t1 : M256.State) (u : Unit), M256.assemble lines t = Res.ok u t1 →
      t.locationCounter ≤ t1.locationCounter := by
  induction lines with
  | nil =>
    intro t t1 u h
    injection h with _ hs
    subst hs
    exact le_refl _
  | cons l ls ih =>
    intro t t1 u h
    unfold M256.assemble at h
    cases hstep : M256.assembleStep l t with
    | ok u2 t2 =>
      rw [hstep] at h
      have hp : M256.parseLine l { t with line := ⟨t.locationCounter, [], [], 0, 0⟩ }
          = Res.ok u2 t2 := hstep
      obtain ⟨_, _, o, _, _, hadv, _⟩ := M256.parseLine_advance hp
      have h2 := ih t2 t1 u h
      have h3 : t.locationCounter ≤ t2.locationCounter := by
        rw [hadv]; exact Nat.le_add_right _ _
      exact le_trans h3 h2
    | fail e t2 =>
      rw [hstep] at h
      cases h

/-- C14: byte layout.  For every line that assembles successfully, the location
counter afterwards is the one before plus 1 when the mnemonic token is a mnemonic
of the table that takes no operand, plus 2 when it is one that takes an operand.
The location counter never decreases, over a line and over a run, and neither
`defineSymbol` (returning or failing) nor `lookupSymbol` changes it. -/
theorem location_counter_advance (l : GoString) (s s1 : M256.State)
    (h : M256.parseLine l s = Res.ok () s1) :
    (∀ o ∈ M256.opcodes, o.mnemonic = lineMnemonic l →
        s1.locationCounter = s.locationCounter + (if o.hasOperand then 2 else 1)) ∧
      s.locationCounter ≤ s1.locationCounter ∧
      (∀ lbl t, (M256.defineSymbol lbl t).state.locationCounter = t.locationCounter) ∧
      (∀ r t, (M256.lookupSymbol r t).2.locationCounter = t.locationCounter) ∧
      (∀ lines t t1, M256.assemble lines t = Res.ok () t1 →
        t.locationCounter ≤ t1.locationCounter) := by
  obtain ⟨operand, index, o, hf, hg, hadv, _⟩ := M256.parseLine_advance h
  refine ⟨?_, ?_, M256.defineSymbol_state_lc, fun r t => (M256.lookupSymbol_lc r t).1,
    fun lines t t1 ht => M256.assemble_lc_le lines t t1 () ht⟩
  · intro o1 ho1 hmn
    rw [← hmn] at hf
    obtain ⟨hg1, _⟩ := findOpcode_entry o1 ho1 operand index hf
    rw [hg] at hg1
    injection hg1 with hg1
    rw [hadv, hg1]
  · rw [hadv]; exact Nat.le_add_right _ _

/-- Witness for C14: the line `LOD 5` at the initial state advances the counter
by 2. -/
theorem location_counter_advance_witness :
    ∃ s1, M256.parseLine (str "LOD 5") M256.init = Res.ok () s1 ∧
      ∀ o ∈ M256.opcodes, o.mnemonic = lineMnemonic (str "LOD 5") →
        s1.locationCounter = M256.init.locationCounter + (if o.hasOperand then 2 else 1) :=
  ⟨(M256.parseLine (str "LOD 5") M256.init).state, rfl,
    (location_counter_advance (str "LOD 5") M256.init
      (M256.parseLine (str "LOD 5") M256.init).state rfl).1⟩


/-! ### Ghost chains along the steps of the byte variant -/

theorem defineSymbol_ghost {ch : Nat → List Nat} (lbl : GoString) (s s1 : M256.State)
    (u : Unit) (hI : InvWith ch s.symbolTable s.memory s.locationCounter)
    (h : M256.defineSymbol lbl s = Res.ok u s1) :
    InvWith ch s1.symbolTable s1.memory s1.locationCounter ∧
      s1.locationCounter = s.locationCounter ∧
      (∀ a, s1.memory a = s.memory a ∨ ∃ n, ∃ v ∈ ch n, a = v + 1) ∧
      (∀ e ∈ s1.symbolTable, e.status ≠ 'D' → e ∈ s.symbolTable) := by
  cases lbl with
  | nil => simp [M256.defineSymbol] at h
  | cons r rest =>
    by_cases hl : isLetter r = true
    · cases hf : s.symbolTable.find? (fun x => x.name == r) with
      | none =>
        have hnone : ∀ x ∈ s.symbolTable, x.name ≠ r := by
          intro x hx
          have := List.find?_eq_none.mp hf x hx
          simpa using this
        simp [M256.defineSymbol, hl, defineIn_eq _ _ _ hI.nodup, hf] at h
        subst h
        have hnew : ∀ x ∈ [(⟨r, s.locationCounter, 'D'⟩ : Symbol)],
            x = ⟨r, s.locationCounter, 'D'⟩ := by
          intro x hx; simpa using hx
        refine ⟨?_, rfl, fun a => Or.inl rfl, ?_⟩
        · refine
            { nodup := ?_, letters := ?_, lc_le := hI.lc_le, chains := ?_, disjoint := ?_ }
          · simp only [List.map_append, List.map_cons, List.map_nil]
            refine List.Nodup.append hI.nodup (List.nodup_singleton _) ?_
            intro n hn1 hn2
            obtain ⟨x, hx, hxn⟩ := List.mem_map.mp hn1
            have : n = r := by simpa using hn2
            exact hnone x hx (by rw [hxn, this])
          · intro x hx
            rcases List.mem_append.mp hx with hx | hx
            · exact hI.letters x hx
            · rw [hnew x hx]; exact hl
          · intro x hx hs
            rcases List.mem_append.mp hx with hx | hx
            · exact hI.chains x hx hs
            · rw [hnew x hx] at hs; exact absurd rfl hs
          · intro x hx y hy hne hsx hsy
            rcases List.mem_append.mp hx with hx | hx
            · rcases List.mem_append.mp hy with hy | hy
              · exact hI.disjoint x hx y hy hne hsx hsy
              · rw [hnew y hy] at hsy; exact absurd rfl hsy
            · rw [hnew x hx] at hsx; exact absurd rfl hsx
        · intro x hx hs
          rcases List.mem_append.mp hx with hx | hx
          · exact hx
          · rw [hnew x hx] at hs; exact absurd rfl hs
      | some e =>
        by_cases hD : e.status = 'D'
        · simp [M256.defineSymbol, hl, defineIn_eq _ _ _ hI.nodup, hf, hD] at h
        · obtain ⟨m1, hd, hm1⟩ := defineSymbol_undefined s r rest e hI hf hD
          rw [hd] at h
          injection h with _ hs
          subst hs
          obtain ⟨hmem, hname⟩ := find_mem_name hf
          refine ⟨?_, rfl, ?_, ?_⟩
          · refine
              { nodup := ?_, letters := ?_, lc_le := hI.lc_le, chains := ?_,
                disjoint := ?_ }
            · show ((s.symbolTable.map _).map Symbol.name).Nodup
              rw [map_names r (fun x => { x with status := 'D', value := s.locationCounter })
                (fun _ => rfl)]
              exact hI.nodup
            · intro x hx
              obtain ⟨x0, hx0, rfl⟩ := List.mem_map.mp hx
              by_cases hxr : x0.name = r
              · simp only [if_pos hxr]; exact hI.letters x0 hx0
              · simp only [if_neg hxr]; exact hI.letters x0 hx0
            · intro x hx hs
              obtain ⟨x0, hx0, rfl⟩ := List.mem_map.mp hx
              by_cases hxr : x0.name = r
              · simp [hxr] at hs
              · simp only [if_neg hxr] at hs ⊢
                refine (hI.chains x0 hx0 hs).congr ?_
                intro v hv
                have hvr : v ∉ ch r := by
                  have := hI.disjoint x0 hx0 e hmem (by rw [hname]; exact hxr) hs hD v hv
                  rwa [hname] at this
                rw [hm1 (v + 1)]
                have : v + 1 ∉ (ch r).map (fun v => v + 1) := by
                  intro hc
                  obtain ⟨w, hw, hwv⟩ := List.mem_map.mp hc
                  have : w = v := by omega
                  exact hvr (this ▸ hw)
                rw [if_neg this]
            · intro x hx y hy hne hsx hsy
              obtain ⟨x0, hx0, rfl⟩ := List.mem_map.mp hx
              obtain ⟨y0, hy0, rfl⟩ := List.mem_map.mp hy
              by_cases hxr : x0.name = r
              · simp [hxr] at hsx
              · by_cases hyr : y0.name = r
                · simp [hyr] at hsy
                · simp only [if_neg hxr, if_neg hyr] at hne hsx hsy ⊢
                  exact hI.disjoint x0 hx0 y0 hy0 hne hsx hsy
          · intro a
            show m1 a = s.memory a ∨ _
            rw [hm1 a]
            by_cases ha : a ∈ (ch r).map (fun v => v + 1)
            · obtain ⟨w, hw, hwa⟩ := List.mem_map.mp ha
              exact Or.inr ⟨r, w, hw, hwa.symm⟩
            · rw [if_neg ha]; exact Or.inl rfl
          · intro x hx hs
            obtain ⟨x0, hx0, rfl⟩ := List.mem_map.mp hx
            by_cases hxr : x0.name = r
            · simp [hxr] at hs
            · simp only [if_neg hxr]; exact hx0
    · simp [M256.defineSymbol, hl] at h

theorem GhostStep.same_chains (ch : Nat → List Nat) (lc : Nat) (ref : Option Nat) :
    GhostStep ch ch lc ref := fun _ => Or.inl rfl

theorem GhostStep.set_new (ch : Nat → List Nat) (lc r : Nat) (l : List Nat)
    (h1 : ∀ v ∈ l, v = lc ∨ v ∈ ch r) (h2 : l.length ≤ (ch r).length + 1) :
    GhostStep ch (setChain ch r l) lc (some r) := by
  intro n
  by_cases hn : n = r
  · subst hn
    rw [setChain_same]
    exact Or.inr ⟨rfl, h1, h2⟩
  · exact Or.inl (setChain_ne ch l hn)

theorem assembleLine_ghost {ch : Nat → List Nat} (opc operand : GoString)
    (s s1 : M256.State) (u : Unit)
    (hI : InvWith ch s.symbolTable s.memory s.locationCounter)
    (h : M256.assembleLine opc operand s = Res.ok u s1) :
    ∃ ch1, InvWith ch1 s1.symbolTable s1.memory s1.locationCounter ∧
      GhostStep ch ch1 s.locationCounter (refOf opc operand) := by
  obtain ⟨index, o, hf, hg, hlt, hc⟩ := M256.assembleLine_ok_cases h
  rcases hc with ⟨hop, ht, hm, hlc⟩ |
    ⟨hop, h1, hlc, ⟨r, rest, hopd, hl, ht, hm⟩ | ⟨v, _, _, ht, hm⟩⟩
  · refine ⟨ch, ?_, GhostStep.same_chains _ _ _⟩
    rw [ht, hm, hlc]
    refine hI.inv_frame ?_ (Nat.le_succ _) (Nat.succ_le_of_lt hlt)
    intro a ha
    simp only [write]
    rw [if_neg (by omega)]
  · have href : refOf opc operand = some r := by
      unfold refOf
      rw [hf]
      simp only [hg, hop, if_true, hopd, hl]
    rw [href]
    have hlk := lookupSymbol_reference r s hI.nodup
    rw [hlk] at ht hm
    simp only at ht hm
    rw [ht, hm, hlc]
    have hagree : ∀ b a, a < s.locationCounter →
        write (write s.memory s.locationCounter (o.code % 256))
          (s.locationCounter + 1) b a = s.memory a := by
      intro b a ha
      simp only [write]
      rw [if_neg (by omega), if_neg (by omega)]
    unfold reference
    cases hfd : s.symbolTable.find? (fun e => e.name == r) with
    | none =>
      have hnone : ∀ x ∈ s.symbolTable, x.name ≠ r := by
        intro x hx
        have := List.find?_eq_none.mp hfd x hx
        simpa using this
      refine ⟨_, reference_inv_new r (o.code % 256) hI hl h1 hnone, ?_⟩
      refine GhostStep.set_new ch _ r _ ?_ ?_
      · intro v hv
        by_cases h0 : s.locationCounter = 0
        · simp [h0] at hv
        · rw [if_neg h0] at hv
          exact Or.inl (by simpa using hv)
      · by_cases h0 : s.locationCounter = 0
        · simp [h0]
        · simp [h0]
    | some e =>
      obtain ⟨hmem, hname⟩ := find_mem_name hfd
      by_cases hD : e.status = 'D'
      · simp only [if_pos hD]
        exact ⟨ch, hI.inv_frame (hagree _) (by omega) (by omega),
          GhostStep.same_chains _ _ _⟩
      · simp only [if_neg hD]
        refine ⟨_, reference_inv_undefined r (o.code % 256) e hI h1 hmem hname hD, ?_⟩
        refine GhostStep.set_new ch _ r _ ?_ ?_
        · intro v hv
          by_cases h0 : s.locationCounter = 0
          · simp [h0] at hv
          · rw [if_neg h0] at hv
            rcases List.mem_cons.mp hv with hv | hv
            · exact Or.inl hv
            · exact Or.inr hv
        · by_cases h0 : s.locationCounter = 0
          · simp [h0]
          · simp [h0]
  · refine ⟨ch, ?_, GhostStep.same_chains _ _ _⟩
    rw [ht, hm, hlc]
    refine hI.inv_frame ?_ (Nat.le_add_right _ _) (by omega)
    intro a ha
    simp only [write]
    rw [if_neg (by omega), if_neg (by omega)]

theorem assembleLine_effects {opc operand : GoString} {s s1 : M256.State} {u : Unit}
    (h : M256.assembleLine opc operand s = Res.ok u s1) :
    s.locationCounter < s1.locationCounter ∧ s1.locationCounter ≤ 256 ∧
      (∀ a, a ≠ s.locationCounter → a ≠ s.locationCounter + 1 →
        s1.memory a = s.memory a) ∧
      (∀ a, s1.locationCounter ≤ a → s1.memory a = s.memory a) ∧
      (s1.symbolTable = s.symbolTable ∨ s1.locationCounter = s.locationCounter + 2) ∧
      (∀ n, refOf opc operand = some n → s1.locationCounter = s.locationCounter + 2) := by
  obtain ⟨index, o, hf, hg, hlt, hc⟩ := M256.assembleLine_ok_cases h
  have href : ∀ n, refOf opc operand = some n → o.hasOperand = true := by
    intro n hn
    unfold refOf at hn
    rw [hf] at hn
    simp only [hg] at hn
    by_cases hop : o.hasOperand = true
    · exact hop
    · simp [hop] at hn
  rcases hc with ⟨hop, ht, hm, hlc⟩ |
    ⟨hop, h1, hlc, ⟨r, rest, hopd, hl, ht, hm⟩ | ⟨v, _, _, ht, hm⟩⟩
  · refine ⟨by omega, by omega, ?_, ?_, Or.inl ht, ?_⟩
    · intro a ha _
      rw [hm]; simp [write, ha]
    · intro a ha
      rw [hm]; simp only [write]; rw [if_neg (by omega)]
    · intro n hn
      have := href n hn
      rw [hop] at this
      cases this
  · refine ⟨by omega, by omega, ?_, ?_, Or.inr hlc, fun _ _ => hlc⟩
    · intro a ha1 ha2
      rw [hm]; simp [write, ha1, ha2]
    · intro a ha
      rw [hm]; simp only [write]; rw [if_neg (by omega), if_neg (by omega)]
  · refine ⟨by omega, by omega, ?_, ?_, Or.inr hlc, fun _ _ => hlc⟩
    · intro a ha1 ha2
      rw [hm]; simp [write, ha1, ha2]
    · intro a ha
      rw [hm]; simp only [write]; rw [if_neg (by omega), if_neg (by omega)]

theorem M256.parseLine_ok_operand {l : GoString} {s s1 : M256.State} {u : Unit}
    (h : M256.parseLine l s = Res.ok u s1) :
    ∃ sa sb, M256.assembleLine (lineMnemonic l) (lineOperand l) sa = Res.ok () sb ∧
      sb.symbolTable = s1.symbolTable ∧ sb.memory = s1.memory ∧
      sb.locationCounter = s1.locationCounter ∧
      ((∃ sd, sd.symbolTable = s.symbolTable ∧
          sd.memory = s.memory ∧ sd.locationCounter = s.locationCounter ∧
          M256.defineSymbol ((tokens l).getD 0 []) sd = Res.ok () sa) ∨
        (sa.symbolTable = s.symbolTable ∧
          sa.memory = s.memory ∧ sa.locationCounter = s.locationCounter)) := by
  have hw := M256.withDefaultSource_core (trim l) s
  by_cases h1 : shapeLMO l
  · have hm : lineMnemonic l = (tokens l).getD 1 [] := by
      unfold lineMnemonic; rw [if_pos h1.2]
    have ho : lineOperand l = (tokens l).getD 2 [] := by
      unfold lineOperand; rw [if_pos h1.1]
    rw [M256.parseLine_LMO l s h1] at h
    obtain ⟨_, s2, hd, h⟩ := Res.bind_ok h
    obtain ⟨_, s3, ha, h⟩ := Res.bind_ok h
    injection h with _ hs
    subst hs
    rw [← hm, ← ho] at ha
    exact ⟨s2, s3, ha, rfl, rfl, rfl, Or.inl ⟨s, rfl, rfl, rfl, hd⟩⟩
  · by_cases h2 : shapeLM l
    · have hm : lineMnemonic l = (tokens l).getD 1 [] := by
        unfold lineMnemonic; rw [if_pos h2.2]
      have ho : lineOperand l = [] := by
        unfold lineOperand
        rw [if_neg (by rw [h2.1]; decide), if_neg (fun hc => by have := hc.2; have := h2.2; omega)]
      rw [M256.parseLine_LM l s h2] at h
      obtain ⟨_, s2, hd, ha⟩ := Res.bind_ok h
      rw [← hm, ← ho] at ha
      exact ⟨s2, s1, ha, rfl, rfl, rfl, Or.inl ⟨_, hw.1, hw.2.1, hw.2.2, hd⟩⟩
    · by_cases h3 : shapeMO l
      · have hm : lineMnemonic l = (tokens l).getD 0 [] := by
          unfold lineMnemonic; rw [if_neg (by rw [h3.2]; decide)]
        have ho : lineOperand l = (tokens l).getD 1 [] := by
          unfold lineOperand
          rw [if_neg (by rw [h3.1]; decide), if_pos (show (tokens l).length = 2 ∧
            ((tokens l).getD 0 []).length = 3 from h3)]
        rw [M256.parseLine_MO l s h3, ← hm, ← ho] at h
        exact ⟨_, s1, h, rfl, rfl, rfl, Or.inr ⟨hw.1, hw.2.1, hw.2.2⟩⟩
      · by_cases h4 : shapeM l
        · have hm : lineMnemonic l = (tokens l).getD 0 [] := by
            unfold lineMnemonic; rw [if_neg (by rw [h4.2]; decide)]
          have ho : lineOperand l = [] := by
            unfold lineOperand
            rw [if_neg (by rw [h4.1]; decide),
              if_neg (fun hc => by have := hc.1; have := h4.1; omega)]
          rw [M256.parseLine_M l s h4, ← hm, ← ho] at h
          exact ⟨_, s1, h, rfl, rfl, rfl, Or.inr ⟨hw.1, hw.2.1, hw.2.2⟩⟩
        · rw [M256.parseLine_none l s h1 h2 h3 h4] at h
          cases h

theorem GInv.after_assembleLine {ch : Nat → List Nat} {s0 sa sb : M256.State}
    {opc operand : GoString}
    (hG : GInv ch s0.symbolTable s0.memory s0.locationCounter)
    (hIa : InvWith ch sa.symbolTable sa.memory sa.locationCounter)
    (hlc : sa.locationCounter = s0.locationCounter)
    (hmem : ∀ a, sa.memory a = s0.memory a ∨ ∃ n, ∃ v ∈ ch n, a = v + 1)
    (hund : ∀ e ∈ sa.symbolTable, e.status ≠ 'D' → e ∈ s0.symbolTable)
    (ha : M256.assembleLine opc operand sa = Res.ok () sb) :
    ∃ ch1, GInv ch1 sb.symbolTable sb.memory sb.locationCounter ∧
      GhostStep ch ch1 s0.locationCounter (refOf opc operand) ∧
      s0.locationCounter < sb.locationCounter ∧
      (∀ a, a < s0.locationCounter →
        (sb.memory a = s0.memory a ∨ ∃ n, ∃ v ∈ ch n, a = v + 1)) ∧
      (∃ index o, findOpcode opc operand M256.opcodes 0 0 = some index ∧
        M256.opcodes.get? index = some o ∧
        sb.memory s0.locationCounter = o.code % 256) := by
  obtain ⟨ch1, hI1, hgs⟩ := assembleLine_ghost opc operand sa sb () hIa ha
  obtain ⟨e1, e2, e3, e4, e5, e6⟩ := assembleLine_effects ha
  obtain ⟨index, o, hf, hg, hcell, _, _⟩ := M256.assembleLine_opcode_cell ha
  rw [hlc] at hgs e1 e3 e5 e6 hcell
  have hmem_low : ∀ a, sa.memory a ≠ s0.memory a → a < s0.locationCounter := by
    intro a hne
    rcases hmem a with h | ⟨n, v, hv, hav⟩
    · exact absurd h hne
    · have := hG.bound n v hv; omega
  refine ⟨ch1, ?_, hgs, e1, ?_, ⟨index, o, hf, hg, hcell⟩⟩
  · refine { base := hI1, bound := ?_, undef_lc := ?_, tail := ?_ }
    · intro n v hv
      rcases hgs n with h | ⟨href, hnodes, _⟩
      · rw [h] at hv
        have := hG.bound n v hv; omega
      · have hlc2 := e6 n href
        rcases hnodes v hv with h | h
        · omega
        · have := hG.bound n v h; omega
    · intro e he hs
      rcases e5 with h | h
      · rw [h] at he
        have := hG.undef_lc e (hund e he hs) hs
        omega
      · omega
    · intro a ha2
      rw [e4 a ha2]
      by_cases hne : sa.memory a = s0.memory a
      · rw [hne]; exact hG.tail a (by omega)
      · have := hmem_low a hne; omega
  · intro a ha2
    rw [e3 a (by omega) (by omega)]
    exact hmem a

theorem parseLine_ginv {ch : Nat → List Nat} (l : GoString) (s s1 : M256.State) (u : Unit)
    (hG : GInv ch s.symbolTable s.memory s.locationCounter)
    (h : M256.parseLine l s = Res.ok u s1) :
    ∃ ch1, GInv ch1 s1.symbolTable s1.memory s1.locationCounter ∧
      GhostStep ch ch1 s.locationCounter (lineReference l) ∧
      s.locationCounter < s1.locationCounter ∧
      (∀ a, a < s.locationCounter →
        (s1.memory a = s.memory a ∨ ∃ n, ∃ v ∈ ch n, a = v + 1)) ∧
      (∃ index o, findOpcode (lineMnemonic l) (lineOperand l) M256.opcodes 0 0 = some index ∧
        M256.opcodes.get? index = some o ∧
        s1.memory s.locationCounter = o.code % 256) := by
  obtain ⟨sa, sb, ha, ht, hm, hlc, hc⟩ := M256.parseLine_ok_operand h
  rw [← ht, ← hm, ← hlc]
  rcases hc with ⟨sd, hdt, hdm, hdl, hd⟩ | ⟨hat, ham, hal⟩
  · have hId : InvWith ch sd.symbolTable sd.memory sd.locationCounter := by
      rw [hdt, hdm, hdl]; exact hG.base
    obtain ⟨hIa, hlca, hmema, hunda⟩ := defineSymbol_ghost _ sd sa () hId hd
    refine GInv.after_assembleLine hG hIa (by rw [hlca, hdl]) ?_ ?_ ha
    · intro a
      rw [← hdm]; exact hmema a
    · intro e he hs
      rw [← hdt]; exact hunda e he hs
  · have hIa : InvWith ch sa.symbolTable sa.memory sa.locationCounter := by
      rw [hat, ham, hal]; exact hG.base
    refine GInv.after_assembleLine hG hIa hal ?_ ?_ ha
    · intro a
      rw [ham]; exact Or.inl rfl
    · intro e he hs
      rw [← hat]; exact he

theorem init_ginv :
    GInv (fun _ => []) M256.init.symbolTable M256.init.memory M256.init.locationCounter :=
  { base :=
      { nodup := List.nodup_nil
        letters := fun e he => by simp [M256.init] at he
        lc_le := by simp [M256.init]
        chains := fun e he => by simp [M256.init] at he
        disjoint := fun e he => by simp [M256.init] at he }
    bound := fun n v hv => by simp at hv
    undef_lc := fun e he => by simp [M256.init] at he
    tail := fun a _ => rfl }

theorem referenceCount_cons (n : Nat) (l : GoString) (ls : List GoString) :
    referenceCount n (l :: ls) =
      (if lineReference l = some n then 1 else 0) + referenceCount n ls := by
  unfold referenceCount
  by_cases h : lineReference l = some n
  · simp [List.filter_cons, h]; omega
  · simp [List.filter_cons, h]

theorem assemble_ginv (lines : List GoString) :
    ∀ (s s1 : M256.State) (ch : Nat → List Nat) (u : Unit),
      GInv ch s.symbolTable s.memory s.locationCounter →
      M256.assemble lines s = Res.ok u s1 →
      ∃ ch1, GInv ch1 s1.symbolTable s1.memory s1.locationCounter ∧
        (∀ n, (ch1 n).length ≤ (ch n).length + referenceCount n lines) := by
  induction lines with
  | nil =>
    intro s s1 ch u hG h
    injection h with _ hs
    subst hs
    exact ⟨ch, hG, fun n => Nat.le_add_right _ _⟩
  | cons l ls ih =>
    intro s s1 ch u hG h
    unfold M256.assemble at h
    cases hstep : M256.assembleStep l s with
    | ok u2 s2 =>
      rw [hstep] at h
      have hp : M256.parseLine l { s with line := ⟨s.locationCounter, [], [], 0, 0⟩ }
          = Res.ok u2 s2 := hstep
      obtain ⟨ch1, hG1, hgs, _, _, _⟩ :=
        parseLine_ginv l { s with line := ⟨s.locationCounter, [], [], 0, 0⟩ } s2 u2 hG hp
      obtain ⟨ch2, hG2, hlen⟩ := ih s2 s1 ch1 u hG1 h
      refine ⟨ch2, hG2, ?_⟩
      intro n
      rw [referenceCount_cons]
      have h2 := hlen n
      rcases hgs n with h3 | ⟨href, _, h3⟩
      · rw [h3] at h2; omega
      · rw [if_pos href]; omega
    | fail e s2 =>
      rw [hstep] at h
      cases h

theorem reachable_ginv (s : M256.State) (h : Reachable s) :
    ∃ ch, GInv ch s.symbolTable s.memory s.locationCounter := by
  obtain ⟨lines, hl⟩ := h
  obtain ⟨ch, hG, _⟩ := assemble_ginv lines M256.init s _ () init_ginv hl
  exact ⟨ch, hG⟩

/-! ### Cells at and above the location counter (C15) -/

/-- C15: byte layout.  In every reachable state every memory cell at an address
at or above the location counter is 0 (in particular those below 256); a
`defineSymbol` that returns leaves the location counter and every cell at or
above it as they were (the back-patch walk writes below it), and an
`assembleLine` that returns leaves every cell at or above the new location
counter as it was. -/
theorem trailing_cells_zero (s : M256.State) (hs : Reachable s) :
    (∀ a, s.locationCounter ≤ a → s.memory a = 0) ∧
      (∀ lbl s1, M256.defineSymbol lbl s = Res.ok () s1 →
        s1.locationCounter = s.locationCounter ∧
          ∀ a, s1.locationCounter ≤ a → s1.memory a = s.memory a) ∧
      (∀ opc operand s1, M256.assembleLine opc operand s = Res.ok () s1 →
        ∀ a, s1.locationCounter ≤ a → s1.memory a = s.memory a) := by
  obtain ⟨ch, hG⟩ := reachable_ginv s hs
  refine ⟨hG.tail, ?_, ?_⟩
  · intro lbl s1 h
    obtain ⟨_, hlc, hmem, _⟩ := defineSymbol_ghost lbl s s1 () hG.base h
    refine ⟨hlc, ?_⟩
    intro a ha
    rcases hmem a with h1 | ⟨n, v, hv, hav⟩
    · exact h1
    · have := hG.bound n v hv
      omega
  · intro opc operand s1 h
    exact (assembleLine_effects h).2.2.2.1

/-- Witness for C15: the state after the lines `HLT` and `LOD A`. -/
theorem trailing_cells_zero_witness :
    (M256.assemble [str "HLT", str "LOD A"] M256.init).state.locationCounter = 3 ∧
      (M256.assemble [str "HLT", str "LOD A"] M256.init).state.memory 200 = 0 :=
  ⟨rfl, (trailing_cells_zero (M256.assemble [str "HLT", str "LOD A"] M256.init).state
    ⟨[str "HLT", str "LOD A"], rfl⟩).1 200 (by decide)⟩


/-! ### Opcode cells stay as assembled (C16) -/

theorem M256.assemble_append (xs ys : List GoString) :
    ∀ (s sf : M256.State) (u : Unit), M256.assemble (xs ++ ys) s = Res.ok u sf →
      ∃ sm, M256.assemble xs s = Res.ok () sm ∧ M256.assemble ys sm = Res.ok u sf := by
  induction xs with
  | nil => intro s sf u h; exact ⟨s, rfl, h⟩
  | cons x xs ih =>
    intro s sf u h
    rw [List.cons_append] at h
    have hcons : ∀ ls, M256.assemble (x :: ls) s =
        match M256.assembleStep x s with
        | Res.ok _ st1 => M256.assemble ls st1
        | Res.fail e st1 => Res.fail e st1 := fun _ => rfl
    rw [hcons] at h ⊢
    cases hstep : M256.assembleStep x s with
    | ok u2 s2 =>
      rw [hstep] at h
      exact ih s2 sf u h
    | fail e s2 =>
      rw [hstep] at h
      cases h

theorem parseLine_keeps_cell {ch : Nat → List Nat} (a : Nat) (l : GoString)
    (s s1 : M256.State) (u : Unit)
    (hG : GInv ch s.symbolTable s.memory s.locationCounter)
    (ha : a < s.locationCounter) (hk : ∀ n, ∀ v ∈ ch n, v + 1 ≠ a)
    (h : M256.parseLine l s = Res.ok u s1) :
    ∃ ch1, GInv ch1 s1.symbolTable s1.memory s1.locationCounter ∧
      a < s1.locationCounter ∧ (∀ n, ∀ v ∈ ch1 n, v + 1 ≠ a) ∧
      s1.memory a = s.memory a := by
  obtain ⟨ch1, hG1, hgs, hlt, hmem, _⟩ := parseLine_ginv l s s1 u hG h
  refine ⟨ch1, hG1, by omega, ?_, ?_⟩
  · intro n v hv
    rcases hgs n with h1 | ⟨_, hnodes, _⟩
    · rw [h1] at hv; exact hk n v hv
    · rcases hnodes v hv with h2 | h2
      · omega
      · exact hk n v h2
  · rcases hmem a ha with h1 | ⟨n, v, hv, hav⟩
    · exact h1
    · exact absurd hav.symm (hk n v hv)

theorem assemble_keeps_cell (a : Nat) (lines : List GoString) :
    ∀ (s s1 : M256.State) (ch : Nat → List Nat) (u : Unit),
      GInv ch s.symbolTable s.memory s.locationCounter →
      a < s.locationCounter → (∀ n, ∀ v ∈ ch n, v + 1 ≠ a) →
      M256.assemble lines s = Res.ok u s1 → s1.memory a = s.memory a := by
  induction lines with
  | nil =>
    intro s s1 ch u _ _ _ h
    injection h with _ hs
    subst hs
    rfl
  | cons l ls ih =>
    intro s s1 ch u hG ha hk h
    unfold M256.assemble at h
    cases hstep : M256.assembleStep l s with
    | ok u2 s2 =>
      rw [hstep] at h
      have hp : M256.parseLine l { s with line := ⟨s.locationCounter, [], [], 0, 0⟩ }
          = Res.ok u2 s2 := hstep
      obtain ⟨ch1, hG1, ha1, hk1, hm1⟩ :=
        parseLine_keeps_cell a l { s with line := ⟨s.locationCounter, [], [], 0, 0⟩ }
          s2 u2 hG ha hk hp
      rw [ih s2 s1 ch1 u hG1 ha1 hk1 h, hm1]
    | fail e s2 =>
      rw [hstep] at h
      cases h

theorem opcode_code_lookup (o : Opcode) (ho : o ∈ M256.opcodes) :
    o.code % 256 = o.code ∧ M256.opcodes.get? o.code = some o ∧
      M256.opcodes.find? (fun x => x.code == o.code) = some o ∧
      ∀ o2 ∈ M256.opcodes, o2.code = o.code → o2 = o := by
  simp only [M256.opcodes, List.mem_cons, List.mem_singleton, List.not_mem_nil,
    or_false] at ho
  rcases ho with h | h | h | h | h | h | h | h | h | h <;> subst h <;>
    refine ⟨rfl, rfl, rfl, ?_⟩ <;> intro o2 ho2 hc <;>
    simp only [M256.opcodes, List.mem_cons, List.mem_singleton, List.not_mem_nil,
      or_false] at ho2 <;>
    rcases ho2 with h | h | h | h | h | h | h | h | h | h <;> subst h <;>
    first
    | rfl
    | exact absurd hc (by decide)

/-- C16: byte layout.  Let a program assemble successfully, and let `l` be one of
its lines, assembled at address `a` (the location counter after the lines before
it).  In the final memory image `memory[a]` is the opcode of the table entry
`assembleLine` selected for the mnemonic token of `l`; when that token is a
mnemonic of the table, `memory[a]` is its opcode, and the table looked up at
that code, by index or by search, returns exactly that entry (mnemonic and
operand flag): the codes of the table are pairwise distinct.  Later lines and
back-patches do not change the cell. -/
theorem opcode_cells_kept (pre post : List GoString) (l : GoString)
    (sm sf : M256.State)
    (hpre : M256.assemble pre M256.init = Res.ok () sm)
    (hall : M256.assemble (pre ++ l :: post) M256.init = Res.ok () sf) :
    (∃ index o, findOpcode (lineMnemonic l) (lineOperand l) M256.opcodes 0 0 = some index ∧
        M256.opcodes.get? index = some o ∧ sf.memory sm.locationCounter = o.code) ∧
      ∀ o ∈ M256.opcodes, o.mnemonic = lineMnemonic l →
        sf.memory sm.locationCounter = o.code ∧
        M256.opcodes.get? (sf.memory sm.locationCounter) = some o ∧
        M256.opcodes.find? (fun x => x.code == sf.memory sm.locationCounter) = some o ∧
        ∀ o2 ∈ M256.opcodes, o2.code = o.code → o2 = o := by
  obtain ⟨sm1, h1, h2⟩ := M256.assemble_append pre (l :: post) M256.init sf () hall
  rw [hpre] at h1
  injection h1 with _ hsm
  subst hsm
  obtain ⟨ch, hG, _⟩ := assemble_ginv pre M256.init sm _ () init_ginv hpre
  unfold M256.assemble at h2
  cases hstep : M256.assembleStep l sm with
  | fail e s2 => rw [hstep] at h2; cases h2
  | ok u2 s2 =>
    rw [hstep] at h2
    have hp : M256.parseLine l { sm with line := ⟨sm.locationCounter, [], [], 0, 0⟩ }
        = Res.ok u2 s2 := hstep
    obtain ⟨ch1, hG1, hgs, hlt, _, index, o, hf, hg, hcell⟩ :=
      parseLine_ginv l { sm with line := ⟨sm.locationCounter, [], [], 0, 0⟩ } s2 u2 hG hp
    have hk : ∀ n, ∀ v ∈ ch1 n, v + 1 ≠ sm.locationCounter := by
      intro n v hv
      rcases hgs n with h3 | ⟨_, hnodes, _⟩
      · rw [h3] at hv
        have := hG.bound n v hv
        omega
      · rcases hnodes v hv with h4 | h4
        · have h5 : v = sm.locationCounter := h4
          omega
        · have := hG.bound n v h4
          omega
    have hfin : sf.memory sm.locationCounter = s2.memory sm.locationCounter :=
      assemble_keeps_cell sm.locationCounter post s2 sf ch1 () hG1 hlt hk h2
    have ho : o ∈ M256.opcodes := List.get?_mem hg
    have hcode := (opcode_code_lookup o ho).1
    have hval : sf.memory sm.locationCounter = o.code := by
      rw [hfin]
      have : s2.memory sm.locationCounter = o.code % 256 := hcell
      rw [this, hcode]
    refine ⟨⟨index, o, hf, hg, hval⟩, ?_⟩
    intro o1 ho1 hmn
    rw [← hmn] at hf
    obtain ⟨hg1, _⟩ := findOpcode_entry o1 ho1 _ index hf
    rw [hg] at hg1
    injection hg1 with hg1
    subst hg1
    obtain ⟨_, k1, k2, k3⟩ := opcode_code_lookup o ho
    rw [hval]
    exact ⟨rfl, k1, k2, k3⟩

/-- Witness for C16: the program `LOD A` / `STO A` / `A HLT`, the line `STO A`
assembled at address 2. -/
theorem opcode_cells_kept_witness :
    (M256.assemble [str "LOD A", str "STO A", str "A HLT"] M256.init).state.memory
        (M256.assemble [str "LOD A"] M256.init).state.locationCounter = 2 ∧
      M256.opcodes.get?
        ((M256.assemble [str "LOD A", str "STO A", str "A HLT"] M256.init).state.memory
          (M256.assemble [str "LOD A"] M256.init).state.locationCounter)
        = some ⟨2, str "STO", true⟩ :=
  ⟨((opcode_cells_kept [str "LOD A"] [str "A HLT"] (str "STO A")
      (M256.assemble [str "LOD A"] M256.init).state
      (M256.assemble [str "LOD A", str "STO A", str "A HLT"] M256.init).state
      rfl rfl).2 ⟨2, str "STO", true⟩ (by decide) rfl).1,
    ((opcode_cells_kept [str "LOD A"] [str "A HLT"] (str "STO A")
      (M256.assemble [str "LOD A"] M256.init).state
      (M256.assemble [str "LOD A", str "STO A", str "A HLT"] M256.init).state
      rfl rfl).2 ⟨2, str "STO", true⟩ (by decide) rfl).2.1⟩


/-! ### Well-founded chains and the length of the back-patch walk (C18) -/

theorem IsChain.next_lt {m : Memory} {b h : Nat} {l : List Nat} (hc : IsChain m b h l) :
    ∀ v ∈ l, m (v + 1) < v := by
  induction hc with
  | nil => intro v hv; simp at hv
  | cons b v l hv hb ht ih =>
    intro w hw
    rcases List.mem_cons.mp hw with h1 | h1
    · subst h1
      rcases ht.head_bound with h2 | h2
      · omega
      · omega
    · exact ih w h1

theorem patchIterations_chain (lc : Nat) (l : List Nat) :
    ∀ (m : Memory) (b h fuel : Nat), IsChain m b h l → b ≤ 256 → l.length ≤ fuel →
      M256.patchIterations lc fuel m h = l.length := by
  induction l with
  | nil =>
    intro m b h fuel hc _ _
    cases hc
    cases fuel <;> simp [M256.patchIterations]
  | cons v l ih =>
    intro m b h fuel hc hb hf
    cases hc with
    | cons _ _ _ hv hb0 ht =>
      cases fuel with
      | zero => simp at hf
      | succ n =>
        have hn : l.length ≤ n := by simpa using hf
        have hlt : v + 1 < 256 := by omega
        have ht1 : IsChain (write m (v + 1) (lc % 256)) v (m (v + 1)) l := by
          refine ht.congr ?_
          intro w hw
          have := ht.mem_bound w hw
          simp only [write]
          rw [if_neg (by omega)]
        have h1 := ih _ v (m (v + 1)) n ht1 (by omega) hn
        simp [M256.patchIterations, hv, hlt, h1]
        omega

/-- C18: byte layout.  In the state reached by assembling a program, for every
entry `e` of the symbol table that is not defined: the head `e.value` of its chain
is below the location counter; every node `v` reached from the head is non-zero
and its next pointer `memory[v+1]` is strictly below `v`; the back-patch loop
started at the head ends (within the fuel, without failure); and the number of
its iterations is the number of nodes of the chain, which is at most the number
of lines of the program that refer to the symbol. -/
theorem chain_well_founded (lines : List GoString) (s : M256.State) (e : Symbol)
    (hs : M256.assemble lines M256.init = Res.ok () s)
    (he : e ∈ s.symbolTable) (hU : e.status ≠ 'D') :
    e.value < s.locationCounter ∧
      (∀ v ∈ chainNodes s.memory chainFuel e.value, v ≠ 0 ∧ s.memory (v + 1) < v) ∧
      (∃ m1, M256.patch s.locationCounter chainFuel s.memory e.value = Sum.inl m1) ∧
      M256.patchIterations s.locationCounter chainFuel s.memory e.value
        = (chainNodes s.memory chainFuel e.value).length ∧
      M256.patchIterations s.locationCounter chainFuel s.memory e.value
        ≤ referenceCount e.name lines := by
  obtain ⟨ch, hG, hlen⟩ := assemble_ginv lines M256.init s _ () init_ginv hs
  have hc : IsChain s.memory s.locationCounter e.value (ch e.name) := hG.base.chains e he hU
  have hfuel : (ch e.name).length ≤ chainFuel := by
    have := hc.length_le
    have := hG.base.lc_le
    simp only [chainFuel]
    omega
  have hcn : chainNodes s.memory chainFuel e.value = ch e.name :=
    hc.chainNodes_eq chainFuel hfuel
  have hit := patchIterations_chain s.locationCounter (ch e.name) s.memory
    s.locationCounter e.value chainFuel hc hG.base.lc_le hfuel
  refine ⟨?_, ?_, ?_, ?_, ?_⟩
  · have h2 := hG.undef_lc e he hU
    rcases hc.head_bound with h1 | h1
    · omega
    · omega
  · intro v hv
    rw [hcn] at hv
    exact ⟨(hc.mem_bound v hv).1, hc.next_lt v hv⟩
  · obtain ⟨m1, hp, _⟩ := patch_chain s.locationCounter (ch e.name) s.memory
      s.locationCounter e.value chainFuel hc hG.base.lc_le hfuel
    exact ⟨m1, hp⟩
  · rw [hit, hcn]
  · rw [hit]
    have := hlen e.name
    simpa using this

/-- Witness for C18: after `HLT`, `LOD A`, `STO A` the symbol `A` is undefined,
with a chain of two nodes and two referring lines. -/
theorem chain_well_founded_witness :
    (⟨65, 3, 'U'⟩ : Symbol) ∈
        (M256.assemble [str "HLT", str "LOD A", str "STO A"] M256.init).state.symbolTable ∧
      referenceCount 65 [str "HLT", str "LOD A", str "STO A"] = 2 ∧
      M256.patchIterations
          (M256.assemble [str "HLT", str "LOD A", str "STO A"] M256.init).state.locationCounter
          chainFuel
          (M256.assemble [str "HLT", str "LOD A", str "STO A"] M256.init).state.memory 3
        ≤ referenceCount 65 [str "HLT", str "LOD A", str "STO A"] :=
  ⟨by decide, by decide,
    (chain_well_founded [str "HLT", str "LOD A", str "STO A"]
      (M256.assemble [str "HLT", str "LOD A", str "STO A"] M256.init).state ⟨65, 3, 'U'⟩
      rfl (by decide) (by decide)).2.2.2.2⟩


/-! ### Capacity of the memory (C11) -/

theorem Res.bind_state_of {σ α β : Type} (P : σ → Prop) (r : Res σ α)
    (f : α → σ → Res σ β) (hr : P r.state) (hf : ∀ a s, P s → P (f a s).state) :
    P (r.bind f).state := by
  cases r with
  | ok a s => exact hf a s hr
  | fail e s => exact hr

theorem patch_high (lc : Nat) (fuel : Nat) :
    ∀ (m : Memory) (v : Nat),
      match M256.patch lc fuel m v with
      | Sum.inl m1 => ∀ a, 256 ≤ a → m1 a = m a
      | Sum.inr (_, m1) => ∀ a, 256 ≤ a → m1 a = m a := by
  induction fuel with
  | zero =>
    intro m v
    unfold M256.patch
    by_cases hv : v = 0
    · simp [hv]
    · simp [hv]
  | succ n ih =>
    intro m v
    unfold M256.patch
    by_cases hv : v = 0
    · simp [hv]
    · by_cases hlt : v + 1 < 256
      · simp only [if_neg hv, if_pos hlt]
        have h1 := ih (write m (v + 1) (lc % 256)) (m (v + 1))
        have hw : ∀ a, 256 ≤ a → write m (v + 1) (lc % 256) a = m a := by
          intro a ha
          simp only [write]
          rw [if_neg (by omega)]
        cases hp : M256.patch lc n (write m (v + 1) (lc % 256)) (m (v + 1)) with
        | inl m1 =>
          rw [hp] at h1
          intro a ha
          rw [h1 a ha, hw a ha]
        | inr em =>
          obtain ⟨e, m1⟩ := em
          rw [hp] at h1
          intro a ha
          rw [h1 a ha, hw a ha]
      · simp [hv, hlt]

theorem defineSymbol_high (lbl : GoString) (t : M256.State) :
    ∀ a, 256 ≤ a → (M256.defineSymbol lbl t).state.memory a = t.memory a := by
  intro a ha
  unfold M256.defineSymbol
  cases lbl with
  | nil => rfl
  | cons r rest =>
    simp only
    split
    · rfl
    · cases hd : defineIn t.locationCounter r t.symbolTable with
      | none => rfl
      | some p =>
        cases p with
        | inl u => rfl
        | inr q =>
          obtain ⟨v, tbl⟩ := q
          simp only
          have h1 := patch_high t.locationCounter chainFuel t.memory v
          cases hp : M256.patch t.locationCounter chainFuel t.memory v with
          | inl m1 =>
            rw [hp] at h1
            exact h1 a ha
          | inr em =>
            obtain ⟨e, m1⟩ := em
            rw [hp] at h1
            exact h1 a ha

theorem storeOperand_high (code b : Nat) (t : M256.State) :
    ∀ a, 256 ≤ a → (M256.storeOperand code b t).state.memory a = t.memory a := by
  intro a ha
  unfold M256.storeOperand
  split
  · show write t.memory (t.locationCounter + 1) b a = t.memory a
    simp only [write]
    rw [if_neg (by omega)]
  · rfl

theorem assembleLine_high (opc operand : GoString) (t : M256.State) :
    ∀ a, 256 ≤ a → (M256.assembleLine opc operand t).state.memory a = t.memory a := by
  intro a ha
  have hw : ∀ c, t.locationCounter < 256 →
      write t.memory t.locationCounter c a = t.memory a := by
    intro c hlt
    simp only [write]
    rw [if_neg (by omega)]
  unfold M256.assembleLine
  cases findOpcode opc operand M256.opcodes 0 0 with
  | none => rfl
  | some index =>
    simp only
    cases M256.opcodes.get? index with
    | none => rfl
    | some o =>
      simp only
      by_cases hop : o.hasOperand = true
      · simp only [hop, Bool.not_true, Bool.false_eq_true, if_false]
        cases operand with
        | nil => rfl
        | cons r rest =>
          simp only
          by_cases hl : isLetter r = true
          · simp only [hl, if_true]
            by_cases hlt : t.locationCounter < 256
            · simp only [if_pos hlt]
              rw [M256.lookupSymbol_mem]
              rw [storeOperand_high _ _ _ a ha]
              exact hw _ hlt
            · simp only [if_neg hlt]; rfl
          · simp only [hl, Bool.false_eq_true, if_false]
            cases atoi (r :: rest) with
            | none => rfl
            | some v =>
              simp only
              by_cases hov : v ≥ 256
              · simp only [if_pos hov]; rfl
              · simp only [if_neg hov]
                by_cases hlt : t.locationCounter < 256
                · simp only [if_pos hlt]
                  rw [storeOperand_high _ _ _ a ha]
                  exact hw _ hlt
                · simp only [if_neg hlt]; rfl
      · simp only [hop, Bool.not_false, if_true]
        by_cases hlt : t.locationCounter < 256
        · simp only [if_pos hlt]
          exact hw _ hlt
        · simp only [if_neg hlt]; rfl

theorem parseLine_high (l : GoString) (t : M256.State) :
    ∀ a, 256 ≤ a → (M256.parseLine l t).state.memory a = t.memory a := by
  intro a ha
  have hw := M256.withDefaultSource_core (trim l) t
  by_cases h1 : shapeLMO l
  · rw [M256.parseLine_LMO l t h1]
    refine Res.bind_state_of (fun s : M256.State => s.memory a = t.memory a) _ _
      (defineSymbol_high _ t a ha) ?_
    intro _ st hst
    refine Res.bind_state_of (fun s : M256.State => s.memory a = t.memory a) _ _ ?_ ?_
    · show (M256.assembleLine _ _ st).state.memory a = t.memory a
      rw [assembleLine_high _ _ st a ha]; exact hst
    · intro _ st2 hst2
      exact hst2
  · by_cases h2 : shapeLM l
    · rw [M256.parseLine_LM l t h2]
      refine Res.bind_state_of (fun s : M256.State => s.memory a = t.memory a) _ _ ?_ ?_
      · show (M256.defineSymbol _ _).state.memory a = t.memory a
        rw [defineSymbol_high _ _ a ha, hw.2.1]
      · intro _ st hst
        show (M256.assembleLine _ _ st).state.memory a = t.memory a
        rw [assembleLine_high _ _ st a ha]; exact hst
    · by_cases h3 : shapeMO l
      · rw [M256.parseLine_MO l t h3, assembleLine_high _ _ _ a ha, hw.2.1]
      · by_cases h4 : shapeM l
        · rw [M256.parseLine_M l t h4, assembleLine_high _ _ _ a ha, hw.2.1]
        · rw [M256.parseLine_none l t h1 h2 h3 h4]
          exact congrFun hw.2.1 a

theorem assemble_high (lines : List GoString) :
    ∀ (t : M256.State) (a : Nat), 256 ≤ a →
      (M256.assemble lines t).state.memory a = t.memory a := by
  induction lines with
  | nil => intro t a _; rfl
  | cons l ls ih =>
    intro t a ha
    have hp := parseLine_high l { t with line := ⟨t.locationCounter, [], [], 0, 0⟩ } a ha
    unfold M256.assemble
    cases hstep : M256.assembleStep l t with
    | ok u2 t2 =>
      have hp2 : M256.parseLine l { t with line := ⟨t.locationCounter, [], [], 0, 0⟩ }
          = Res.ok u2 t2 := hstep
      rw [hp2] at hp
      simp only
      rw [ih t2 a ha]
      exact hp
    | fail e t2 =>
      have hp2 : M256.parseLine l { t with line := ⟨t.locationCounter, [], [], 0, 0⟩ }
          = Res.fail e t2 := hstep
      rw [hp2] at hp
      exact hp

theorem assembleLine_full (opc operand : GoString) (t : M256.State)
    (hfull : 256 ≤ t.locationCounter) :
    ∃ e, M256.assembleLine opc operand t = Res.fail e t := by
  have hlt : ¬ t.locationCounter < 256 := by omega
  unfold M256.assembleLine
  cases findOpcode opc operand M256.opcodes 0 0 with
  | none => exact ⟨_, rfl⟩
  | some index =>
    simp only
    cases M256.opcodes.get? index with
    | none => exact ⟨_, rfl⟩
    | some o =>
      simp only
      by_cases hop : o.hasOperand = true
      · simp only [hop, Bool.not_true, Bool.false_eq_true, if_false]
        cases operand with
        | nil => exact ⟨_, rfl⟩
        | cons r rest =>
          simp only
          by_cases hl : isLetter r = true
          · simp only [hl, if_true, if_neg hlt]
            exact ⟨_, rfl⟩
          · simp only [hl, Bool.false_eq_true, if_false]
            cases atoi (r :: rest) with
            | none => exact ⟨_, rfl⟩
            | some v =>
              simp only
              by_cases hov : v ≥ 256
              · simp only [if_pos hov]; exact ⟨_, rfl⟩
              · simp only [if_neg hov, if_neg hlt]; exact ⟨_, rfl⟩
      · simp only [hop, Bool.not_false, if_true, if_neg hlt]
        exact ⟨_, rfl⟩

set_option maxRecDepth 1000000 in
/-- C11, counterexample: the program of 255 lines `HLT` followed by `LOD 5`.  The
last line needs the cell 256.  The run does not end in a capacity error of the
program: it ends in the run-time index-out-of-range failure of the store at
index 256, and by then the opcode of `LOD` has been written to the cell 255. -/
theorem capacity_counterexample :
    M256.assemble (List.replicate 255 (str "HLT") ++ [str "LOD 5"]) M256.init
        = Res.fail Err.indexOutOfRange
          (M256.assemble (List.replicate 255 (str "HLT") ++ [str "LOD 5"]) M256.init).state ∧
      (M256.assemble (List.replicate 255 (str "HLT") ++ [str "LOD 5"])
        M256.init).state.memory 255 = 1 ∧
      (M256.assemble (List.replicate 255 (str "HLT") ++ [str "LOD 5"])
        M256.init).state.locationCounter = 255 :=
  ⟨rfl, by decide, by decide⟩

/-- C11, amended: byte layout.  After every program that assembles successfully
the location counter is at most 256.  `assembleLine` returns only when all cells
of the instruction are below 256 (the counter before is below 256, the counter
after at most 256); with the location counter at 256 or more it fails and leaves
the state as it was, with the run-time index-out-of-range failure for a mnemonic
without operand.  Whatever a line or a program does, returning or failing, no
cell at an address 256 or above is changed. -/
theorem capacity (lines : List GoString) (s : M256.State)
    (h : M256.assemble lines M256.init = Res.ok () s) :
    s.locationCounter ≤ 256 ∧
      (∀ t opc operand t1, M256.assembleLine opc operand t = Res.ok () t1 →
        t.locationCounter < 256 ∧ t1.locationCounter ≤ 256) ∧
      (∀ t opc operand, 256 ≤ t.locationCounter →
        ∃ e, M256.assembleLine opc operand t = Res.fail e t) ∧
      (∀ t, 256 ≤ t.locationCounter → ∀ o ∈ M256.opcodes, o.hasOperand = false →
        M256.assembleLine o.mnemonic [] t = Res.fail Err.indexOutOfRange t) ∧
      (∀ t l a, 256 ≤ a → (M256.parseLine l t).state.memory a = t.memory a) ∧
      (∀ t ls a, 256 ≤ a → (M256.assemble ls t).state.memory a = t.memory a) := by
  refine ⟨?_, ?_, fun t opc operand => assembleLine_full opc operand t, ?_,
    fun t l => parseLine_high l t, fun t ls => assemble_high ls t⟩
  · obtain ⟨ch, hG, _⟩ := assemble_ginv lines M256.init s _ () init_ginv h
    exact hG.base.lc_le
  · intro t opc operand t1 ht
    obtain ⟨e1, e2, _⟩ := assembleLine_effects ht
    exact ⟨by omega, e2⟩
  · intro t hfull o ho hop
    have hlt : ¬ t.locationCounter < 256 := by omega
    have hfo : findOpcode o.mnemonic [] M256.opcodes 0 0 = some o.code ∧
        M256.opcodes.get? o.code = some o := by
      simp only [M256.opcodes, List.mem_cons, List.mem_singleton, List.not_mem_nil,
        or_false] at ho
      rcases ho with h0 | h0 | h0 | h0 | h0 | h0 | h0 | h0 | h0 | h0 <;> subst h0 <;>
        exact ⟨rfl, rfl⟩
    unfold M256.assembleLine
    rw [hfo.1]
    simp only [hfo.2, hop, Bool.not_false, if_true, if_neg hlt]

/-- Witness for C11 (amended): the program `LOD 5` / `HLT`. -/
theorem capacity_witness :
    (M256.assemble [str "LOD 5", str "HLT"] M256.init).state.locationCounter ≤ 256 :=
  (capacity [str "LOD 5", str "HLT"]
    (M256.assemble [str "LOD 5", str "HLT"] M256.init).state rfl).1

end AssLoad
